import Mathlib

/-!
# Statement IR of the tensor-expression compiler

A shallow embedding of `torch/csrc/jit/tensorexpr/stmt.h` and of
`Tensor::constructStmt` (`torch/csrc/jit/tensorexpr/tensor.cpp`).

Statement nodes live in an arena and are addressed by pointers.  The arena is
modelled by a heap of field maps: every C++ member (`parent_`, `stmts_`,
`body_`, ...) is a map from addresses to the value of that member.  A nullable
pointer is an `Option`.  A member function that can throw returns the pair of
its outcome and of the heap at the moment it returns or throws, so that what an
operation did before failing stays visible.
-/

namespace TensorExpr

/-! ## Data model -/

/-- Address of a statement node; the null pointer is `none : Option Ptr`. -/
abbrev Ptr := Nat

/-- Modelled from the spec: a `Var` of the expression subsystem, which stmt.h
only uses through pointers; variable references denote stable identity, so a
variable is a handle. -/
abbrev Var := Nat

/-- Modelled from the spec: the `Expr` handles of the expression subsystem,
consumed as opaque handles with structural identity.  The statement IR only
ever builds `IntImm` constants and converts variables to expressions; every
other expression is an opaque node. -/
inductive Expr where
  | IntImm (value : Int)
  | Var (v : Var)
  | Node (id : Nat)
  deriving DecidableEq, Repr

/-- Modelled from the spec: the `Buf` handle of the expression subsystem,
exposing base-variable identity, per-dimension extents and an optional
initializer expression. -/
structure Buf where
  base_handle : Var
  dims : List Expr
  initializer : Option Expr
  deriving DecidableEq, Repr

/-- Modelled from the spec: `Buf::ndim()`, the dimensionality of the buffer. -/
def Buf.ndim (b : Buf) : Nat := b.dims.length

/-- Modelled from the spec: `Buf::dim(i)`, the extent of dimension `i`; `none`
stands for an out-of-range access. -/
def Buf.dim (b : Buf) (i : Nat) : Option Expr := b.dims[i]?

/-- The exceptions thrown in stmt.h: `malformed_input`, `std::runtime_error`,
and the `c10::Error` that a failed `TORCH_CHECK` raises (the macro comes from
c10/util/Exception.h). -/
inductive Error where
  | malformed_input
  | runtime_error
  | torch_check_failed
  deriving DecidableEq, Repr

/-- Dynamic type of a statement node, as seen by `dynamic_cast`. -/
inductive StmtKind where
  | Block | Store | Allocate | Free | Let | Cond | For
  | AtomicAdd | SyncThreads | ExternalCall
  deriving DecidableEq, Repr

/-! ## `LoopOptions` -/

/-- The class `LoopOptions`; the two indices are C++ `int`s, and the buffer map
is kept as an association list. -/
structure LoopOptions where
  gpu_block_index_ : Int
  gpu_thread_index_ : Int
  is_parallel_ : Bool
  map_input_to_tensor_bufs_ : List (String × Buf)
  deriving DecidableEq, Repr

namespace LoopOptions

/-- The enumerator `IDX_UNSET`. -/
def IDX_UNSET : Int := -1

/-- The enumerator `IDX_X`. -/
def IDX_X : Int := 0

/-- The enumerator `IDX_Y`. -/
def IDX_Y : Int := 1

/-- The enumerator `IDX_Z`. -/
def IDX_Z : Int := 2

/-- The enumerator `IDX_W`. -/
def IDX_W : Int := 3

/-- The enumerator `IDX_MAX`. -/
def IDX_MAX : Int := IDX_W

/-- A default-constructed `LoopOptions`. -/
def default : LoopOptions where
  gpu_block_index_ := IDX_UNSET
  gpu_thread_index_ := IDX_UNSET
  is_parallel_ := false
  map_input_to_tensor_bufs_ := []

/-- Member `LoopOptions::is_gpu_block_index`. -/
def is_gpu_block_index (o : LoopOptions) : Bool := o.gpu_block_index_ != IDX_UNSET

/-- Member `LoopOptions::gpu_block_index`. -/
def gpu_block_index (o : LoopOptions) : Int := o.gpu_block_index_

/-- Member `LoopOptions::gpu_thread_index`. -/
def gpu_thread_index (o : LoopOptions) : Int := o.gpu_thread_index_

/-- Member `LoopOptions::is_gpu_thread_index`. -/
def is_gpu_thread_index (o : LoopOptions) : Bool := o.gpu_thread_index != IDX_UNSET

/-- Member `LoopOptions::is_parallel`. -/
def is_parallel (o : LoopOptions) : Bool := o.is_parallel_

/-- Member `LoopOptions::set_gpu_block_index`.  The result pairs the outcome
with the object as the call leaves it, also when it throws. -/
def set_gpu_block_index (o : LoopOptions) (index : Int) : Except Error Unit × LoopOptions :=
  let o1 := if index = IDX_UNSET then { o with gpu_block_index_ := IDX_UNSET } else o
  if o1.is_gpu_thread_index then
    (.error .runtime_error, o1)
  else if o1.is_gpu_block_index && o1.gpu_block_index != index then
    (.error .runtime_error, o1)
  else
    (.ok (), { o1 with gpu_block_index_ := index })

/-- Member `LoopOptions::set_gpu_thread_index`. -/
def set_gpu_thread_index (o : LoopOptions) (index : Int) : Except Error Unit × LoopOptions :=
  let o1 := if index = IDX_UNSET then { o with gpu_thread_index_ := IDX_UNSET } else o
  if o1.is_gpu_block_index then
    (.error .runtime_error, o1)
  else if o1.is_gpu_thread_index && o1.gpu_thread_index != index then
    (.error .runtime_error, o1)
  else
    (.ok (), { o1 with gpu_thread_index_ := index })

/-- Member `LoopOptions::set_parallel`. -/
def set_parallel (o : LoopOptions) : LoopOptions := { o with is_parallel_ := true }

/-- Member `LoopOptions::isDefault`. -/
def isDefault (o : LoopOptions) : Bool :=
  o.gpu_block_index_ == IDX_UNSET && o.gpu_thread_index_ == IDX_UNSET && !o.is_parallel_

/-- The array `kBlockIndexNames` of `gpu_block_index_str`. -/
def kBlockIndexNames : List String := ["blockIdx.x", "blockIdx.y", "blockIdx.z", "blockIdx.w"]

/-- The array `kThreadIndexNames` of `gpu_thread_index_str`. -/
def kThreadIndexNames : List String :=
  ["threadIdx.x", "threadIdx.y", "threadIdx.z", "threadIdx.w"]

/-- Member `LoopOptions::gpu_block_index_str`, a const member: the result pairs
the outcome with the object, which is the object it was called on.  The array
is read at `gpu_block_index_`, which the second check keeps within its four
entries. -/
def gpu_block_index_str (o : LoopOptions) : Except Error String × LoopOptions :=
  if !o.is_gpu_block_index then
    (.error .malformed_input, o)
  else if o.gpu_block_index_ < IDX_X ∨ o.gpu_block_index_ > IDX_MAX then
    (.error .malformed_input, o)
  else
    (.ok (kBlockIndexNames.getD o.gpu_block_index_.toNat ""), o)

/-- Member `LoopOptions::gpu_thread_index_str`, a const member. -/
def gpu_thread_index_str (o : LoopOptions) : Except Error String × LoopOptions :=
  if !o.is_gpu_thread_index then
    (.error .malformed_input, o)
  else if o.gpu_thread_index_ < IDX_X ∨ o.gpu_thread_index_ > IDX_MAX then
    (.error .malformed_input, o)
  else
    (.ok (kThreadIndexNames.getD o.gpu_thread_index_.toNat ""), o)

/-- One call of a setter of `LoopOptions`. -/
inductive Call where
  | block (index : Int)
  | thread (index : Int)
  | parallel
  deriving DecidableEq, Repr

/-- The object after one setter call, whether the call returned or threw. -/
def step (o : LoopOptions) : Call → LoopOptions
  | Call.block i => (o.set_gpu_block_index i).2
  | Call.thread i => (o.set_gpu_thread_index i).2
  | Call.parallel => o.set_parallel

/-- The object after a sequence of setter calls on a default-constructed one. -/
def run (calls : List Call) : LoopOptions := calls.foldl step default

end LoopOptions

/-- The arena.  `next` is the first address not handed out yet; the other fields
are the members of the node classes, indexed by the address of the node. -/
@[ext]
structure Heap where
  next : Ptr
  kind : Ptr → Option StmtKind
  parent_ : Ptr → Option Ptr
  stmts_ : Ptr → List Ptr
  buf_ : Ptr → Option Buf
  indices_ : Ptr → List Expr
  value_ : Ptr → Option Expr
  var_ : Ptr → Option Var
  start_ : Ptr → Option Expr
  stop_ : Ptr → Option Expr
  body_ : Ptr → Option Ptr
  loop_options_ : Ptr → LoopOptions
  condition_ : Ptr → Option Expr
  true_stmt_ : Ptr → Option Ptr
  false_stmt_ : Ptr → Option Ptr

/-- An arena in which nothing has been allocated. -/
def Heap.empty : Heap where
  next := 0
  kind := fun _ => none
  parent_ := fun _ => none
  stmts_ := fun _ => []
  buf_ := fun _ => none
  indices_ := fun _ => []
  value_ := fun _ => none
  var_ := fun _ => none
  start_ := fun _ => none
  stop_ := fun _ => none
  body_ := fun _ => none
  loop_options_ := fun _ => LoopOptions.default
  condition_ := fun _ => none
  true_stmt_ := fun _ => none
  false_stmt_ := fun _ => none

/-- Outcome of a member function together with the heap it leaves behind. -/
abbrev Result (α : Type) := Except Error α × Heap

/-! ## `Stmt` -/

/-- Member `Stmt::get_parent`. -/
def get_parent (h : Heap) (s : Ptr) : Option Ptr := h.parent_ s

/-- Member `Stmt::set_parent`: `s->parent_ = new_parent`. -/
def set_parent (h : Heap) (s : Ptr) (new_parent : Option Ptr) : Heap :=
  { h with parent_ := Function.update h.parent_ s new_parent }

/-- The test `dynamic_cast<Block*>(p) != nullptr`. -/
def isBlock (h : Heap) (p : Ptr) : Bool := h.kind p == some StmtKind.Block

/-! ## `std::list` primitives used by `Block` -/

/-- Assignment to the member `stmts_` of the block `this`. -/
def put_stmts (h : Heap) (this : Ptr) (l : List Ptr) : Heap :=
  { h with stmts_ := Function.update h.stmts_ this l }

/-- The iterator returned by `std::find(l.begin(), l.end(), x)`, as the index of
the first occurrence of `x`; the index `l.length` is `l.end()`. -/
def find (l : List Ptr) (x : Ptr) : Nat := l.indexOf x

/-- The list after `l.insert(pos, s)`: `s` is put in front of the element at
index `pos`. -/
def insertAt (l : List Ptr) (pos : Nat) (s : Ptr) : List Ptr :=
  l.take pos ++ s :: l.drop pos

/-- The list after `l.erase(pos)`. -/
def eraseAt (l : List Ptr) (pos : Nat) : List Ptr := l.eraseIdx pos

/-! ## `Block` -/

namespace Block

/-- Member `Block::nstmts`. -/
def nstmts (h : Heap) (this : Ptr) : Nat := (h.stmts_ this).length

/-- Member `Block::stmts`. -/
def stmts (h : Heap) (this : Ptr) : List Ptr := h.stmts_ this

/-- Member `Block::prepend_stmt`. -/
def prepend_stmt (h : Heap) (this s : Ptr) : Result Unit :=
  if (get_parent h s).isSome then
    (.error .malformed_input, h)
  else
    let h1 := put_stmts h this (s :: h.stmts_ this)
    (.ok (), set_parent h1 s (some this))

/-- Member `Block::append_stmt`. -/
def append_stmt (h : Heap) (this s : Ptr) : Result Unit :=
  if (get_parent h s).isSome then
    (.error .malformed_input, h)
  else
    let h1 := put_stmts h this (h.stmts_ this ++ [s])
    (.ok (), set_parent h1 s (some this))

/-- Member `Block::insert_stmt_before`. -/
def insert_stmt_before (h : Heap) (this s before : Ptr) : Result Unit :=
  if (get_parent h s).isSome then
    (.error .malformed_input, h)
  else
    let pos := find (h.stmts_ this) before
    if pos = (h.stmts_ this).length then
      (.error .malformed_input, h)
    else
      let h1 := put_stmts h this (insertAt (h.stmts_ this) pos s)
      (.ok (), set_parent h1 s (some this))

/-- Member `Block::insert_stmt_after`. -/
def insert_stmt_after (h : Heap) (this s after : Ptr) : Result Unit :=
  if (get_parent h s).isSome then
    (.error .malformed_input, h)
  else
    let pos := find (h.stmts_ this) after
    if pos = (h.stmts_ this).length then
      (.error .malformed_input, h)
    else
      let pos := pos + 1
      let h1 := put_stmts h this (insertAt (h.stmts_ this) pos s)
      (.ok (), set_parent h1 s (some this))

/-- Member `Block::replace_stmt`.  After `stmts_.insert(pos, new_stmt)` the
iterator `pos` still designates `old_stmt`, which now sits one index further. -/
def replace_stmt (h : Heap) (this old_stmt new_stmt : Ptr) : Result Bool :=
  if (get_parent h new_stmt).isSome then
    (.error .malformed_input, h)
  else
    let pos := find (h.stmts_ this) old_stmt
    if pos = (h.stmts_ this).length then
      (.ok false, h)
    else
      let h1 := put_stmts h this (insertAt (h.stmts_ this) pos new_stmt)
      let h2 := put_stmts h1 this (eraseAt (h1.stmts_ this) (pos + 1))
      let h3 := set_parent h2 old_stmt none
      (.ok true, set_parent h3 new_stmt (some this))

/-- Member `Block::remove_stmt`. -/
def remove_stmt (h : Heap) (this stmt : Ptr) : Result Bool :=
  let pos := find (h.stmts_ this) stmt
  if pos = (h.stmts_ this).length then
    (.ok false, h)
  else
    let h1 := set_parent h stmt none
    (.ok true, put_stmts h1 this (eraseAt (h1.stmts_ this) pos))

/-- Member `Block::clear`. -/
def clear (h : Heap) (this : Ptr) : Heap :=
  let h1 := (h.stmts_ this).foldl (fun g s => set_parent g s none) h
  put_stmts h1 this []

/-- Member `Block::init`: null entries are skipped, an entry without a parent is
adopted, and every non-null entry is pushed whether or not it was adopted. -/
def init (h : Heap) (this : Ptr) (stmts : List (Option Ptr)) : Heap :=
  stmts.foldl
    (fun g o =>
      match o with
      | none => g
      | some s =>
        let g1 := if (get_parent g s).isSome then g else set_parent g s (some this)
        put_stmts g1 this (g1.stmts_ this ++ [s]))
    h

/-- Member `Block::set_stmts`. -/
def set_stmts (h : Heap) (this : Ptr) (stmts : List (Option Ptr)) : Heap :=
  init (clear h this) this stmts

/-- The constructor `Block::Block(stmts)` run by `new Block(stmts)`: a fresh
node with null parent and empty list, then `init`. -/
def new (h : Heap) (stmts : List (Option Ptr)) : Ptr × Heap :=
  let this := h.next
  let h1 : Heap :=
    { h with
      next := h.next + 1
      kind := Function.update h.kind this (some StmtKind.Block)
      parent_ := Function.update h.parent_ this none
      stmts_ := Function.update h.stmts_ this [] }
  (this, init h1 this stmts)

/-- Member `Block::splice(it, other)`, the iterator `it` given as an index into
`stmts_`.  Every statement of `other` is reparented, then the whole list of
`other` is moved in front of `it`, which leaves `other` empty.  The standard
library requires `other` to be a different list. -/
def splice (h : Heap) (this : Ptr) (it : Nat) (other : Ptr) : Heap :=
  let xs := h.stmts_ other
  let h1 := xs.foldl (fun g s => set_parent g s (some this)) h
  let l := h1.stmts_ this
  let h2 := put_stmts h1 other []
  put_stmts h2 this (l.take it ++ xs ++ l.drop it)

/-- The first loop of `Block::getSharedParent`: walk up from `p`, inserting
every Block met into the set `enclosing`.  `none` means the fuel ran out before
the null parent was reached. -/
def collectEnclosing (h : Heap) : Nat → Option Ptr → List Ptr → Option (List Ptr)
  | _, none, enclosing => some enclosing
  | 0, some _, _ => none
  | fuel + 1, some p, enclosing =>
    collectEnclosing h fuel (get_parent h p)
      (if isBlock h p then enclosing.insert p else enclosing)

/-- The second loop of `Block::getSharedParent`: walk up from `p` and return
the first Block that is in `enclosing`, or null at the end of the chain. -/
def findEnclosing (h : Heap) (enclosing : List Ptr) : Nat → Option Ptr → Option (Option Ptr)
  | _, none => some none
  | 0, some _ => none
  | fuel + 1, some p =>
    if isBlock h p && decide (p ∈ enclosing) then some (some p)
    else findEnclosing h enclosing fuel (get_parent h p)

/-- The static member `Block::getSharedParent`.  The outer `Option` is `none`
when `fuel` iterations were not enough for one of the two loops. -/
def getSharedParent (h : Heap) (fuel : Nat) (p1 p2 : Option Ptr) : Option (Option Ptr) :=
  match collectEnclosing h fuel p1 [] with
  | none => none
  | some enclosing => findEnclosing h enclosing fuel p2

/-- Member `Block::getEnclosedRoot`. -/
def getEnclosedRoot (h : Heap) (this : Ptr) : Nat → Option Ptr → Option (Option Ptr)
  | _, none => some none
  | 0, some _ => none
  | fuel + 1, some s =>
    if get_parent h s ≠ some this then getEnclosedRoot h this fuel (get_parent h s)
    else some (some s)

end Block

/-! ## Parent chains -/

/-- The node reached from `p` after `k` steps along `get_parent`; null once the
chain has ended. -/
def nthParent (h : Heap) : Nat → Option Ptr → Option Ptr
  | 0, p => p
  | _ + 1, none => none
  | k + 1, some p => nthParent h k (get_parent h p)

/-- Node `q` lies on the chain `p, parent(p), parent(parent(p)), ...`. -/
def OnChain (h : Heap) (p q : Ptr) : Prop := ∃ k, nthParent h k (some p) = some q

/-- Node `b` is a Block lying on the chains of both `p1` and `p2`. -/
def SharedBlock (h : Heap) (p1 p2 b : Ptr) : Prop :=
  isBlock h b = true ∧ OnChain h p1 b ∧ OnChain h p2 b

/-- Node `c` is reached from `b` by at least one parent step. -/
def ProperAncestor (h : Heap) (c b : Ptr) : Prop :=
  ∃ k, 0 < k ∧ nthParent h k (some b) = some c

/-! ## `Store` and `For` -/

/-- Modelled from the spec: the constructor `Store::Store(buf, indices, value)`,
which stmt.h only declares.  It records the target buffer, the ordered index
expressions and the value expression in a fresh node, and a newly constructed
statement has a null parent. -/
def Store.new (h : Heap) (buf : Option Buf) (indices : List Expr) (value : Option Expr) :
    Ptr × Heap :=
  let this := h.next
  (this,
    { h with
      next := h.next + 1
      kind := Function.update h.kind this (some StmtKind.Store)
      parent_ := Function.update h.parent_ this none
      buf_ := Function.update h.buf_ this buf
      indices_ := Function.update h.indices_ this indices
      value_ := Function.update h.value_ this value })

/-- Member `Store::flat_index`: `TORCH_CHECK(indices_.size() == 1, ...)`, then
`indices_[0]`.  The empty list cannot pass the check. -/
def Store.flat_index (h : Heap) (this : Ptr) : Except Error Expr :=
  if (h.indices_ this).length = 1 then
    match h.indices_ this with
    | e :: _ => .ok e
    | [] => .error .torch_check_failed
  else .error .torch_check_failed

/-- Member `AtomicAdd::flat_index`, whose body is that of `Store::flat_index`;
the member `indices_` of an `AtomicAdd` node is kept in the same field map. -/
def AtomicAdd.flat_index (h : Heap) (this : Ptr) : Except Error Expr :=
  if (h.indices_ this).length = 1 then
    match h.indices_ this with
    | e :: _ => .ok e
    | [] => .error .torch_check_failed
  else .error .torch_check_failed

/-- The arena after a `For` node was allocated at `h.next` and its member
initialisers `var_(var), start_(start), stop_(stop)` ran; the parent is null and
`body_` is not set yet. -/
def For.fresh (h : Heap) (var : Option Var) (start stop : Option Expr) : Heap :=
  { h with
    next := h.next + 1
    kind := Function.update h.kind h.next (some StmtKind.For)
    parent_ := Function.update h.parent_ h.next none
    var_ := Function.update h.var_ h.next var
    start_ := Function.update h.start_ h.next start
    stop_ := Function.update h.stop_ h.next stop
    body_ := Function.update h.body_ h.next none
    loop_options_ := Function.update h.loop_options_ h.next LoopOptions.default }

/-- Assignment to the member `body_` of the loop `this`. -/
def put_body (h : Heap) (this : Ptr) (b : Option Ptr) : Heap :=
  { h with body_ := Function.update h.body_ this b }

/-- The constructor `For::For(var, start, stop, body)` without loop options: a
body that is not a Block (the null body included) is wrapped in
`new Block({body})`, then `body_` is set and reparented to the loop. -/
def For.new (h : Heap) (var : Option Var) (start stop : Option Expr) (body : Option Ptr) :
    Ptr × Heap :=
  let this := h.next
  let h1 := For.fresh h var start stop
  let bh : Ptr × Heap :=
    match body with
    | some p => if isBlock h1 p then (p, h1) else Block.new h1 [body]
    | none => Block.new h1 [body]
  let h2 := put_body bh.2 this (some bh.1)
  (this, set_parent h2 bh.1 (some this))

/-- Member `For::set_body`, which is also the tail of both constructors: a
body that is not a Block is wrapped in `new Block({body})`, then `body_` is set
and reparented to the loop.  The former body is left as it is. -/
def For.set_body (h : Heap) (this : Ptr) (body : Option Ptr) : Heap :=
  let bh : Ptr × Heap :=
    match body with
    | some p => if isBlock h p then (p, h) else Block.new h [body]
    | none => Block.new h [body]
  let h2 := put_body bh.2 this (some bh.1)
  set_parent h2 bh.1 (some this)

/-- Assignment to the member `loop_options_` of the loop `this`. -/
def put_options (h : Heap) (this : Ptr) (o : LoopOptions) : Heap :=
  { h with loop_options_ := Function.update h.loop_options_ this o }

/-- The constructor `For::For(var, start, stop, body, loop_options)`.  The
checks run after the member initialisers; when one of them throws, the node
under construction is discarded and the arena is the one before the call. -/
def For.newWithOptions (h : Heap) (var : Option Var) (start stop : Option Expr)
    (body : Option Ptr) (loop_options : LoopOptions) : Result Ptr :=
  let this := h.next
  let h1 := put_options (For.fresh h var start stop) this loop_options
  if var.isNone then (.error .malformed_input, h)
  else if start.isNone then (.error .malformed_input, h)
  else if stop.isNone then (.error .malformed_input, h)
  else
    match body with
    | none => (.error .malformed_input, h)
    | some b =>
      if (get_parent h1 b).isSome then (.error .malformed_input, h)
      else (.ok this, For.set_body h1 this body)

/-- The static member `For::make(var, start, stop, body)`: a null body gives a
null result, any other body goes to the constructor without loop options. -/
def For.make (h : Heap) (var : Option Var) (start stop : Option Expr) (body : Option Ptr) :
    Option Ptr × Heap :=
  match body with
  | none => (none, h)
  | some _ => (some (For.new h var start stop body).1, (For.new h var start stop body).2)

/-- The static member `For::make(var, start, stop, body, loop_options)`. -/
def For.makeWithOptions (h : Heap) (var : Option Var) (start stop : Option Expr)
    (body : Option Ptr) (loop_options : LoopOptions) : Result (Option Ptr) :=
  match body with
  | none => (.ok none, h)
  | some _ =>
    match For.newWithOptions h var start stop body loop_options with
    | (.ok p, g) => (.ok (some p), g)
    | (.error e, g) => (.error e, g)

/-- Member `For::cloneWithNewBody`. -/
def For.cloneWithNewBody (h : Heap) (this : Ptr) (body : Option Ptr) : Result Ptr :=
  For.newWithOptions h (h.var_ this) (h.start_ this) (h.stop_ this) body (h.loop_options_ this)

/-- Member `For::body`. -/
def For.body (h : Heap) (this : Ptr) : Option Ptr := h.body_ this

/-! ## `Cond` -/

/-- Assignment to the member `true_stmt_` of the conditional `this`. -/
def put_true_stmt (h : Heap) (this : Ptr) (b : Option Ptr) : Heap :=
  { h with true_stmt_ := Function.update h.true_stmt_ this b }

/-- Assignment to the member `false_stmt_` of the conditional `this`. -/
def put_false_stmt (h : Heap) (this : Ptr) (b : Option Ptr) : Heap :=
  { h with false_stmt_ := Function.update h.false_stmt_ this b }

/-- Member `Cond::set_true_stmt`: nothing happens for a null argument. -/
def Cond.set_true_stmt (h : Heap) (this : Ptr) (true_stmt : Option Ptr) : Heap :=
  match true_stmt with
  | none => h
  | some p =>
    let bh : Ptr × Heap := if isBlock h p then (p, h) else Block.new h [some p]
    let h2 := put_true_stmt bh.2 this (some bh.1)
    set_parent h2 bh.1 (some this)

/-- Member `Cond::set_false_stmt`: nothing happens for a null argument. -/
def Cond.set_false_stmt (h : Heap) (this : Ptr) (false_stmt : Option Ptr) : Heap :=
  match false_stmt with
  | none => h
  | some p =>
    let bh : Ptr × Heap := if isBlock h p then (p, h) else Block.new h [some p]
    let h2 := put_false_stmt bh.2 this (some bh.1)
    set_parent h2 bh.1 (some this)

/-- The arena after a `Cond` node was allocated at `h.next` with its condition;
both branches and the parent are null. -/
def Cond.fresh (h : Heap) (condition : Option Expr) : Heap :=
  { h with
    next := h.next + 1
    kind := Function.update h.kind h.next (some StmtKind.Cond)
    parent_ := Function.update h.parent_ h.next none
    condition_ := Function.update h.condition_ h.next condition
    true_stmt_ := Function.update h.true_stmt_ h.next none
    false_stmt_ := Function.update h.false_stmt_ h.next none }

/-- The constructor `Cond::Cond(condition, true_stmt, false_stmt)`. -/
def Cond.new (h : Heap) (condition : Option Expr) (true_stmt false_stmt : Option Ptr) :
    Ptr × Heap :=
  let this := h.next
  let h1 := Cond.fresh h condition
  (this, Cond.set_false_stmt (Cond.set_true_stmt h1 this true_stmt) this false_stmt)

/-- Member `Cond::true_stmt`. -/
def Cond.true_stmt (h : Heap) (this : Ptr) : Option Ptr := h.true_stmt_ this

/-- Member `Cond::false_stmt`. -/
def Cond.false_stmt (h : Heap) (this : Ptr) : Option Ptr := h.false_stmt_ this

/-- Member `Cond::cloneWithNewBodies`. -/
def Cond.cloneWithNewBodies (h : Heap) (this : Ptr) (true_stmt false_stmt : Option Ptr) :
    Ptr × Heap :=
  Cond.new h (h.condition_ this) true_stmt false_stmt

/-- Member `Cond::cloneWithNewBody`. -/
def Cond.cloneWithNewBody (h : Heap) (this : Ptr) (true_stmt : Option Ptr) : Ptr × Heap :=
  Cond.new h (h.condition_ this) true_stmt none

/-! ## `clone_and_replace` -/

/-- The loop of `Block::clone_and_replace` over the children from the first to
the last: an entry equal to `old_stmt` becomes `new_stmt` and raises `found`,
any other entry becomes its clone.  `clone` stands for `Stmt::clone`, which
stmt.h only declares. -/
def Block.cloneChildren (clone : Heap → Ptr → Ptr × Heap) (old_stmt new_stmt : Ptr) :
    List Ptr → Heap → (List (Option Ptr) × Bool) × Heap
  | [], h => (([], false), h)
  | s :: rest, h =>
    if s = old_stmt then
      let r := Block.cloneChildren clone old_stmt new_stmt rest h
      ((some new_stmt :: r.1.1, true), r.2)
    else
      let c := clone h s
      let r := Block.cloneChildren clone old_stmt new_stmt rest c.2
      ((some c.1 :: r.1.1, r.1.2), r.2)

/-- Member `Block::clone_and_replace`, with `Stmt::clone` as a parameter. -/
def Block.clone_and_replace (clone : Heap → Ptr → Ptr × Heap) (h : Heap)
    (this old_stmt new_stmt : Ptr) : Result (Option Ptr) :=
  if (get_parent h new_stmt).isSome then
    (.error .malformed_input, h)
  else
    let r := Block.cloneChildren clone old_stmt new_stmt (h.stmts_ this) h
    if !r.1.2 then
      (.ok none, r.2)
    else
      (.ok (some (Block.new r.2 r.1.1).1), (Block.new r.2 r.1.1).2)

/-- Modelled from the spec: what is assumed of `Stmt::clone`, a fresh parentless
copy.  The copy is a node that was not allocated before, its parent is null,
and no node that existed before changes its parent or its child list. -/
def FreshCopy (clone : Heap → Ptr → Ptr × Heap) : Prop :=
  ∀ h s, h.next ≤ (clone h s).1 ∧ (clone h s).1 < (clone h s).2.next ∧
    (clone h s).2.parent_ (clone h s).1 = none ∧
    ∀ p, p < h.next →
      (clone h s).2.parent_ p = h.parent_ p ∧ (clone h s).2.stmts_ p = h.stmts_ p

/-- Modelled from the spec: `Stmt::clone` on a statement without child
statements, such as a Store.  The members are copied into a fresh node, whose
parent is null. -/
def cloneLeaf (h : Heap) (s : Ptr) : Ptr × Heap :=
  (h.next,
    { h with
      next := h.next + 1
      kind := Function.update h.kind h.next (h.kind s)
      parent_ := Function.update h.parent_ h.next none
      buf_ := Function.update h.buf_ h.next (h.buf_ s)
      indices_ := Function.update h.indices_ h.next (h.indices_ s)
      value_ := Function.update h.value_ h.next (h.value_ s) })

/-- The arena after `new Block({p})` for an existing statement `p`, written
out: the new Block sits at `h.next`, lists `p`, and adopts `p` when `p` has no
parent. -/
def Block.wrapping (h : Heap) (p : Ptr) : Heap :=
  { h with
    next := h.next + 1
    kind := Function.update h.kind h.next (some StmtKind.Block)
    parent_ := Function.update (Function.update h.parent_ h.next none) p
      (if h.parent_ p = none then some h.next else h.parent_ p)
    stmts_ := Function.update h.stmts_ h.next [p] }

/-! ## Well-formed blocks -/

/-- Every child of `B` has `B` as its parent and no child is listed twice. -/
def WellFormed (h : Heap) (B : Ptr) : Prop :=
  (∀ c ∈ h.stmts_ B, get_parent h c = some B) ∧ (h.stmts_ B).Nodup

/-- Every statement that is a child of `B` in `h` and not in `g` has a null
parent in `g`. -/
def RemovedDetached (h g : Heap) (B : Ptr) : Prop :=
  ∀ c ∈ h.stmts_ B, c ∉ g.stmts_ B → get_parent g c = none

/-- The body or branch `acc` that `owner` holds in arena `g` after it was given
the statement `b` in arena `h`: a Block whose parent is `owner`; `b` itself if
`b` was a Block, and otherwise a Block that did not exist in `h`, whose child
list is `[b]` and which is the parent of `b`. -/
def Normalised (h g : Heap) (owner b : Ptr) (acc : Option Ptr) : Prop :=
  ∃ a, acc = some a ∧ isBlock g a = true ∧ get_parent g a = some owner ∧
    (isBlock h b = true → a = b) ∧
    (isBlock h b = false → h.next ≤ a ∧ g.stmts_ a = [b] ∧ get_parent g b = some a)

/-! ## Tensor lowering -/

/-- Modelled from the spec: the class `Tensor`, declared in tensor.h, reduced to
the member that `constructStmt` reads, the output buffer `buf_`. -/
structure Tensor where
  buf_ : Buf

/-- Modelled from the spec: the accessor `Tensor::buf()` of the output buffer. -/
def Tensor.buf (t : Tensor) : Buf := t.buf_

/-- One iteration of a loop of `Tensor::constructStmt` for the index `i` of
`c10::irange(n)`: wrap `s` in a `For` over dimension `n - i - 1`, whose variable
is read from `vars` and whose extent is read from `extents`.  `none` stands for
an out-of-range vector access. -/
def wrapDim (vars : List Var) (extents : List Expr) (n : Nat)
    (sh : Ptr × Heap) (i : Nat) : Option (Ptr × Heap) :=
  let dim_index := n - i - 1
  match vars[dim_index]?, extents[dim_index]? with
  | some v, some d => some (For.new sh.2 (some v) (some (Expr.IntImm 0)) (some d) (some sh.1))
  | _, _ => none

/-- Member `Tensor::constructStmt`.  It returns the root of the loop nest and
the arena holding it; `none` stands for an out-of-range vector access. -/
def Tensor.constructStmt (t : Tensor) (h : Heap) (args : List Var) (body : Expr)
    (reduce_dims : List Expr) (reduce_args : List Var) : Option (Ptr × Heap) :=
  let indices := args.map Expr.Var
  let sh := Store.new h (some t.buf_) indices (some body)
  let ndim := t.buf.ndim
  let reduce_ndim := reduce_dims.length
  if ndim = 0 ∧ reduce_ndim = 0 then
    some sh
  else
    let init_expr := t.buf.initializer
    let reduced : Option (Ptr × Heap) :=
      if reduce_ndim > 0 then
        match (List.range reduce_ndim).foldlM (wrapDim reduce_args reduce_dims reduce_ndim) sh with
        | none => none
        | some sh1 =>
          match init_expr with
          | some e =>
            let ih := Store.new sh1.2 (some t.buf) indices (some e)
            some (Block.new ih.2 [some ih.1, some sh1.1])
          | none => some sh1
      else some sh
    match reduced with
    | none => none
    | some sh2 => (List.range ndim).foldlM (wrapDim args t.buf.dims ndim) sh2

/-! ## Reading a statement tree back from the arena -/

/-- The statement tree below a node, without the back pointers. -/
inductive Tree where
  | Store (buf : Option Buf) (indices : List Expr) (value : Option Expr)
  | For (var : Option Var) (start stop : Option Expr) (body : Tree)
  | Block (stmts : List Tree)
  | Other (kind : StmtKind)
  deriving Repr

/-- Apply `f` to every element, failing as soon as one application fails. -/
def mapOpt {α β : Type} (f : α → Option β) : List α → Option (List β)
  | [] => some []
  | a :: l =>
    match f a, mapOpt f l with
    | some b, some bs => some (b :: bs)
    | _, _ => none

/-- The tree below the node `p`, followed through `stmts_` and `body_`.  The
result is `none` when `fuel` levels are not enough, when a pointer that is
followed leads outside the allocated part of the arena, or when a `For` has a
null body. -/
def readBack (h : Heap) : Nat → Ptr → Option Tree
  | 0, _ => none
  | fuel + 1, p =>
    if p < h.next then
      match h.kind p with
      | none => none
      | some StmtKind.Block =>
        match mapOpt (readBack h fuel) (h.stmts_ p) with
        | some ts => some (Tree.Block ts)
        | none => none
      | some StmtKind.Store => some (Tree.Store (h.buf_ p) (h.indices_ p) (h.value_ p))
      | some StmtKind.For =>
        match h.body_ p with
        | none => none
        | some b =>
          match readBack h fuel b with
          | some t => some (Tree.For (h.var_ p) (h.start_ p) (h.stop_ p) t)
          | none => none
      | some k => some (Tree.Other k)
    else none

mutual
/-- Every Store of the tree, in program order, each with the variables of the
loops that enclose it, outermost first. -/
def Tree.stores : Tree → List (Option Var) → List (Tree × List (Option Var))
  | Tree.Store b i v, encl => [(Tree.Store b i v, encl)]
  | Tree.For var _ _ body, encl => Tree.stores body (encl ++ [var])
  | Tree.Block l, encl => Tree.storesList l encl
  | Tree.Other _, _ => []
/-- The Stores of a list of sibling trees. -/
def Tree.storesList : List Tree → List (Option Var) → List (Tree × List (Option Var))
  | [], _ => []
  | t :: ts, encl => Tree.stores t encl ++ Tree.storesList ts encl
end

mutual
/-- The child counts of all the Blocks of the tree, in program order. -/
def Tree.blockSizes : Tree → List Nat
  | Tree.Store _ _ _ => []
  | Tree.For _ _ _ body => Tree.blockSizes body
  | Tree.Block l => l.length :: Tree.blockSizesList l
  | Tree.Other _ => []
/-- The child counts of the Blocks of a list of sibling trees. -/
def Tree.blockSizesList : List Tree → List Nat
  | [] => []
  | t :: ts => Tree.blockSizes t ++ Tree.blockSizesList ts
end

/-- The node reached from the root after going down `k` loops, each time through
a `For` whose body is a Block with exactly one child. -/
def Tree.under : Tree → Nat → Option Tree
  | t, 0 => some t
  | Tree.For _ _ _ (Tree.Block [c]), k + 1 => Tree.under c k
  | _, _ + 1 => none

/-- The number of `For` nodes on the chain that starts at the root and goes
down through loop bodies that are one-child Blocks. -/
def Tree.chainLength : Tree → Nat
  | Tree.For _ _ _ (Tree.Block [c]) => Tree.chainLength c + 1
  | _ => 0

/-- What the `For` constructor makes of a body: a Block is taken as it is,
any other statement becomes the only child of a new Block. -/
def Tree.asBody : Tree → Tree
  | Tree.Block l => Tree.Block l
  | t => Tree.Block [t]

/-- The nest of loops around `inner`, one loop per pair of a variable and an
extent, outermost first, each loop running over `[0, extent)`. -/
def Tree.nest : List (Var × Expr) → Tree → Tree
  | [], inner => inner
  | (v, d) :: rest, inner =>
    Tree.For (some v) (some (Expr.IntImm 0)) (some d) (Tree.asBody (Tree.nest rest inner))

/-- The tree is a Store whose value is the expression `e`. -/
def Tree.isStoreOf (e : Expr) : Tree → Bool
  | Tree.Store _ _ v => decide (v = some e)
  | _ => false

/-- The tree is a Block. -/
def Tree.isBlock : Tree → Bool
  | Tree.Block _ => true
  | _ => false

/-- The tree of `Store(buf, args, body)`. -/
def Tensor.bodyStore (t : Tensor) (args : List Var) (body : Expr) : Tree :=
  Tree.Store (some t.buf) (args.map Expr.Var) (some body)

/-- The tree of the seed `Store(buf, args, e)` of the initializer `e`. -/
def Tensor.seedStore (t : Tensor) (args : List Var) (e : Expr) : Tree :=
  Tree.Store (some t.buf) (args.map Expr.Var) (some e)

/-- The loops over the reduction dimensions around the Store of `body`. -/
def Tensor.reductionNest (t : Tensor) (args : List Var) (body : Expr)
    (reduce_dims : List Expr) (reduce_args : List Var) : Tree :=
  Tree.nest (reduce_args.zip reduce_dims) (t.bodyStore args body)

/-- The tree that lowering is documented to build: the Store of `body`, inside
the reduction loops, preceded inside a two-child Block by the Store of the
initializer when there is one and there are reduction loops, all inside the
loops over the output dimensions. -/
def Tensor.loweredTree (t : Tensor) (args : List Var) (body : Expr)
    (reduce_dims : List Expr) (reduce_args : List Var) : Tree :=
  let reduction := t.reductionNest args body reduce_dims reduce_args
  let seeded :=
    match t.buf.initializer with
    | some e =>
      if reduce_dims.length > 0 then Tree.Block [t.seedStore args e, reduction]
      else reduction
    | none => reduction
  Tree.nest (args.zip t.buf.dims) seeded

mutual
/-- The tree with the buffer of every Store forgotten. -/
def Tree.eraseBuf : Tree → Tree
  | Tree.Store _ i v => Tree.Store none i v
  | Tree.For var start stop body => Tree.For var start stop (Tree.eraseBuf body)
  | Tree.Block l => Tree.Block (Tree.eraseBufList l)
  | Tree.Other k => Tree.Other k
/-- The trees of a list of siblings with the buffer of every Store forgotten. -/
def Tree.eraseBufList : List Tree → List Tree
  | [] => []
  | t :: ts => Tree.eraseBuf t :: Tree.eraseBufList ts
end

/-- The tensor whose output buffer carries the initializer `e` (none when `e`
is null) and is otherwise the buffer of `t`. -/
def Tensor.withInitializer (t : Tensor) (e : Option Expr) : Tensor :=
  { buf_ := { t.buf_ with initializer := e } }

/-- Arena `g` still holds every node of `h` with the same members, the parent
pointer apart. -/
def Heap.Extends (h g : Heap) : Prop :=
  h.next ≤ g.next ∧
  ∀ p, p < h.next →
    g.kind p = h.kind p ∧ g.stmts_ p = h.stmts_ p ∧ g.buf_ p = h.buf_ p ∧
    g.indices_ p = h.indices_ p ∧ g.value_ p = h.value_ p ∧ g.var_ p = h.var_ p ∧
    g.start_ p = h.start_ p ∧ g.stop_ p = h.stop_ p ∧ g.body_ p = h.body_ p

/-- The arena without its parent pointers. -/
def Heap.skeleton (h : Heap) : Heap := { h with parent_ := fun _ => none }

/-- Node `p` of arena `h` is the root of the tree `t`. -/
def Reads (h : Heap) (p : Ptr) (t : Tree) : Prop := ∃ fuel, readBack h fuel p = some t

/-! ## Trees with back pointers -/

/-- Node `p` is a direct sub-statement of node `q`: a child of the Block `q`, or
the body of the loop `q`. -/
def SubStmt (g : Heap) (q p : Ptr) : Prop :=
  (g.kind q = some StmtKind.Block ∧ p ∈ g.stmts_ q) ∨
  (g.kind q = some StmtKind.For ∧ g.body_ q = some p)

/-- Node `p` belongs to the tree below `root`: it is reached from `root` through
child lists and loop bodies. -/
def InTree (g : Heap) (root p : Ptr) : Prop := Relation.ReflTransGen (SubStmt g) root p

/-- What is asked of one node `p` of a tree with root `s` whose nodes are the
addresses from `lo` up to `g.next`: the body of a loop is a Block of the tree
whose parent is the loop; the children of a Block are nodes of the tree whose
parent is the Block, none listed twice; the parent of `p`, if any, is a node of
the tree; and the parent chain of `p` reaches `s`. -/
def NodeOK (lo : Ptr) (g : Heap) (s p : Ptr) : Prop :=
  (g.kind p = some StmtKind.For →
    ∃ b, g.body_ p = some b ∧ lo ≤ b ∧ b < g.next ∧ isBlock g b = true ∧
      get_parent g b = some p) ∧
  (g.kind p = some StmtKind.Block →
    (∀ c ∈ g.stmts_ p, lo ≤ c ∧ c < g.next ∧ get_parent g c = some p) ∧ (g.stmts_ p).Nodup) ∧
  (∀ q, get_parent g p = some q → lo ≤ q ∧ q < g.next) ∧
  (∃ k, nthParent g k (some p) = some s)

/-- The addresses from `lo` up to `g.next` hold a tree with root `s`, whose
parent is null, and every one of them is a sound node of it. -/
def TreeInv (lo : Ptr) (g : Heap) (s : Ptr) : Prop :=
  lo ≤ s ∧ s < g.next ∧ get_parent g s = none ∧
  ∀ p, lo ≤ p → p < g.next → NodeOK lo g s p

/-! ## Sample arenas -/

/-- A 4x4 output buffer without initializer. -/
def buf44 : Buf := { base_handle := 100, dims := [Expr.IntImm 4, Expr.IntImm 4], initializer := none }

/-- A tensor over `buf44`. -/
def tensor44 : Tensor := { buf_ := buf44 }

/-- An output buffer with one dimension of extent 4 and the initializer
`Expr.Node 9`. -/
def bufInit : Buf :=
  { base_handle := 100, dims := [Expr.IntImm 4], initializer := some (Expr.Node 9) }

/-- A tensor over `bufInit`. -/
def tensorInit : Tensor := { buf_ := bufInit }

/-- A tensor without dimensions whose buffer carries the initializer
`Expr.Node 9`. -/
def tensorScalar : Tensor :=
  { buf_ := { base_handle := 100, dims := [], initializer := some (Expr.Node 9) } }

/-- Block `0` holds the statements `1` and `2`; `3` and `5` are detached
Stores and `4` is a detached empty Block. -/
def sampleHeap : Heap :=
  { Heap.empty with
    next := 6
    kind := fun p =>
      if p = 0 ∨ p = 4 then some StmtKind.Block
      else if p < 6 then some StmtKind.Store else none
    parent_ := fun p => if p = 1 ∨ p = 2 then some 0 else none
    stmts_ := fun p => if p = 0 then [1, 2] else [] }

/-- The sample arena after the empty Block `4` was appended to Block `0`. -/
def nestedHeap : Heap := (Block.append_stmt sampleHeap 0 4).2

/-- The sample arena after `new Block({3, 5})`: the new Block sits at address
`6` and holds the Stores `3` and `5`, whose parent it is. -/
def pairHeap : Heap := (Block.new sampleHeap [some 3, some 5]).2

/-! ## Field lemmas -/

@[simp] theorem set_parent_parent (h : Heap) (s : Ptr) (q : Option Ptr) (t : Ptr) :
    (set_parent h s q).parent_ t = if t = s then q else h.parent_ t := by
  simp [set_parent, Function.update_apply]

@[simp] theorem set_parent_stmts (h : Heap) (s : Ptr) (q : Option Ptr) :
    (set_parent h s q).stmts_ = h.stmts_ := rfl

@[simp] theorem put_stmts_stmts (h : Heap) (b : Ptr) (l : List Ptr) (c : Ptr) :
    (put_stmts h b l).stmts_ c = if c = b then l else h.stmts_ c := by
  simp [put_stmts, Function.update_apply]

@[simp] theorem put_stmts_parent (h : Heap) (b : Ptr) (l : List Ptr) :
    (put_stmts h b l).parent_ = h.parent_ := rfl

theorem find_append_cons (pre post : List Ptr) (x : Ptr) (hx : x ∉ pre) :
    find (pre ++ x :: post) x = pre.length := by
  simp [find, List.indexOf_append_of_not_mem hx]

theorem insertAt_length_left (pre post : List Ptr) (s : Ptr) :
    insertAt (pre ++ post) pre.length s = pre ++ s :: post := by
  simp [insertAt]

/-! ## Attaching a statement to a Block -/

/-- C3: when `s` already has a parent, `append_stmt`, `prepend_stmt`,
`insert_stmt_before` and `insert_stmt_after` (whatever the anchor) all throw
`malformed_input` and leave the whole arena, hence the child list of the block
and the parent of `s`, exactly as it was. -/
theorem attach_parented_fails (h : Heap) (B s anchor : Ptr)
    (hs : get_parent h s ≠ none) :
    Block.append_stmt h B s = (.error .malformed_input, h) ∧
    Block.prepend_stmt h B s = (.error .malformed_input, h) ∧
    Block.insert_stmt_before h B s anchor = (.error .malformed_input, h) ∧
    Block.insert_stmt_after h B s anchor = (.error .malformed_input, h) := by
  have hp : (get_parent h s).isSome = true := Option.isSome_iff_ne_none.mpr hs
  simp [Block.append_stmt, Block.prepend_stmt, Block.insert_stmt_before,
    Block.insert_stmt_after, hp]

/-- Instance of C3 on the sample arena: statement `1` is a child of Block `0`
and cannot be attached to Block `4`. -/
theorem attach_parented_fails_witness :
    get_parent sampleHeap 1 ≠ none ∧
    (Block.append_stmt sampleHeap 4 1 = (.error .malformed_input, sampleHeap) ∧
     Block.prepend_stmt sampleHeap 4 1 = (.error .malformed_input, sampleHeap) ∧
     Block.insert_stmt_before sampleHeap 4 1 2 = (.error .malformed_input, sampleHeap) ∧
     Block.insert_stmt_after sampleHeap 4 1 2 = (.error .malformed_input, sampleHeap)) :=
  ⟨by decide, attach_parented_fails sampleHeap 4 1 2 (by decide)⟩

/-- C5: position semantics of attaching a parentless `s` to Block `B`.
`append_stmt` puts `s` at the tail and `prepend_stmt` at the head; when the
child list is `pre ++ [anchor] ++ post` with `anchor` not in `pre`,
`insert_stmt_before` yields `pre ++ [s, anchor] ++ post` and `insert_stmt_after`
yields `pre ++ [anchor, s] ++ post`.  Each call succeeds, makes `B` the parent
of `s`, and changes neither the parent of any other statement nor the child
list of any other block. -/
theorem attach_position (h : Heap) (B s : Ptr) (hs : get_parent h s = none) :
    ((Block.append_stmt h B s).1 = .ok () ∧
      (Block.append_stmt h B s).2.stmts_ B = h.stmts_ B ++ [s] ∧
      (Block.append_stmt h B s).2.parent_ s = some B ∧
      (∀ t, t ≠ s → (Block.append_stmt h B s).2.parent_ t = h.parent_ t) ∧
      (∀ b, b ≠ B → (Block.append_stmt h B s).2.stmts_ b = h.stmts_ b)) ∧
    ((Block.prepend_stmt h B s).1 = .ok () ∧
      (Block.prepend_stmt h B s).2.stmts_ B = [s] ++ h.stmts_ B ∧
      (Block.prepend_stmt h B s).2.parent_ s = some B ∧
      (∀ t, t ≠ s → (Block.prepend_stmt h B s).2.parent_ t = h.parent_ t) ∧
      (∀ b, b ≠ B → (Block.prepend_stmt h B s).2.stmts_ b = h.stmts_ b)) ∧
    (∀ anchor pre post, h.stmts_ B = pre ++ [anchor] ++ post → anchor ∉ pre →
      ((Block.insert_stmt_before h B s anchor).1 = .ok () ∧
        (Block.insert_stmt_before h B s anchor).2.stmts_ B = pre ++ [s, anchor] ++ post ∧
        (Block.insert_stmt_before h B s anchor).2.parent_ s = some B ∧
        (∀ t, t ≠ s → (Block.insert_stmt_before h B s anchor).2.parent_ t = h.parent_ t) ∧
        (∀ b, b ≠ B → (Block.insert_stmt_before h B s anchor).2.stmts_ b = h.stmts_ b)) ∧
      ((Block.insert_stmt_after h B s anchor).1 = .ok () ∧
        (Block.insert_stmt_after h B s anchor).2.stmts_ B = pre ++ [anchor, s] ++ post ∧
        (Block.insert_stmt_after h B s anchor).2.parent_ s = some B ∧
        (∀ t, t ≠ s → (Block.insert_stmt_after h B s anchor).2.parent_ t = h.parent_ t) ∧
        (∀ b, b ≠ B → (Block.insert_stmt_after h B s anchor).2.stmts_ b = h.stmts_ b))) := by
  have hp : (get_parent h s).isSome = false := by simp [hs]
  refine ⟨?_, ?_, ?_⟩
  · simp only [Block.append_stmt, hp]
    refine ⟨rfl, by simp, by simp, ?_, ?_⟩
    · intro t ht; simp [ht]
    · intro b hb; simp [hb]
  · simp only [Block.prepend_stmt, hp]
    refine ⟨rfl, by simp, by simp, ?_, ?_⟩
    · intro t ht; simp [ht]
    · intro b hb; simp [hb]
  · intro anchor pre post hl hpre
    have hl2 : h.stmts_ B = pre ++ anchor :: post := by simp [hl]
    have hfind : find (h.stmts_ B) anchor = pre.length := by
      rw [hl2]; exact find_append_cons pre post anchor hpre
    have hne : ¬ pre.length = (h.stmts_ B).length := by
      rw [hl2]; simp
    constructor
    · simp only [Block.insert_stmt_before, hp, hfind, hne]
      refine ⟨rfl, ?_, by simp, ?_, ?_⟩
      · simp [hl2, insertAt_length_left]
      · intro t ht; simp [ht]
      · intro b hb; simp [hb]
    · simp only [Block.insert_stmt_after, hp, hfind, hne]
      refine ⟨rfl, ?_, by simp, ?_, ?_⟩
      · have : pre ++ anchor :: post = (pre ++ [anchor]) ++ post := by simp
        have hlen : pre.length + 1 = (pre ++ [anchor]).length := by simp
        simp only [set_parent_stmts, put_stmts_stmts, if_true, hl2]
        rw [this, hlen, insertAt_length_left]
        simp
      · intro t ht; simp [ht]
      · intro b hb; simp [hb]

/-- Instance of C5 on the sample arena: the detached Store `3` is attached to
Block `0`, whose children are `1` and `2`. -/
theorem attach_position_witness :
    get_parent sampleHeap 3 = none ∧
    (Block.append_stmt sampleHeap 0 3).2.stmts_ 0 = [1, 2] ++ [3] ∧
    (Block.prepend_stmt sampleHeap 0 3).2.stmts_ 0 = [3] ++ [1, 2] ∧
    (Block.insert_stmt_before sampleHeap 0 3 2).2.stmts_ 0 = [1] ++ [3, 2] ++ [] ∧
    (Block.insert_stmt_after sampleHeap 0 3 1).2.stmts_ 0 = [] ++ [1, 3] ++ [2] :=
  have hs : get_parent sampleHeap 3 = none := by decide
  ⟨hs,
   (attach_position sampleHeap 0 3 hs).1.2.1,
   (attach_position sampleHeap 0 3 hs).2.1.2.1,
   ((attach_position sampleHeap 0 3 hs).2.2 2 [1] [] (by decide) (by decide)).1.2.1,
   ((attach_position sampleHeap 0 3 hs).2.2 1 [] [2] (by decide) (by decide)).2.2.1⟩

/-- C6: when `s` has no parent and `anchor` is not a child of `B`,
`insert_stmt_before` and `insert_stmt_after` throw `malformed_input` and leave
the whole arena as it was: the child list of `B` is unchanged and `s` still has
no parent. -/
theorem insert_missing_anchor_fails (h : Heap) (B s anchor : Ptr)
    (hs : get_parent h s = none) (ha : anchor ∉ h.stmts_ B) :
    Block.insert_stmt_before h B s anchor = (.error .malformed_input, h) ∧
    Block.insert_stmt_after h B s anchor = (.error .malformed_input, h) ∧
    (Block.insert_stmt_before h B s anchor).2.stmts_ B = h.stmts_ B ∧
    (Block.insert_stmt_after h B s anchor).2.stmts_ B = h.stmts_ B ∧
    get_parent (Block.insert_stmt_before h B s anchor).2 s = none ∧
    get_parent (Block.insert_stmt_after h B s anchor).2 s = none := by
  have hp : (get_parent h s).isSome = false := by simp [hs]
  have hfind : find (h.stmts_ B) anchor = (h.stmts_ B).length :=
    List.indexOf_eq_length.mpr ha
  simp [Block.insert_stmt_before, Block.insert_stmt_after, hp, hfind, hs]

/-- Instance of C6 on the sample arena: Store `5` is not a child of Block `0`. -/
theorem insert_missing_anchor_fails_witness :
    get_parent sampleHeap 3 = none ∧ 5 ∉ sampleHeap.stmts_ 0 ∧
    Block.insert_stmt_before sampleHeap 0 3 5 = (.error .malformed_input, sampleHeap) ∧
    Block.insert_stmt_after sampleHeap 0 3 5 = (.error .malformed_input, sampleHeap) :=
  have hs : get_parent sampleHeap 3 = none := by decide
  have ha : 5 ∉ sampleHeap.stmts_ 0 := by decide
  ⟨hs, ha, (insert_missing_anchor_fails sampleHeap 0 3 5 hs ha).1,
    (insert_missing_anchor_fails sampleHeap 0 3 5 hs ha).2.1⟩

/-- C7: round trip of attach and detach.  When every child of `B` has parent `B`
and `s` has no parent, `append_stmt(s)` succeeds and the following
`remove_stmt(s)` returns true and gives back the arena it started from: the
child list of `B` is the one before the append and `s` has no parent.  A
statement that is not a child of `B` makes `remove_stmt` return false and
change nothing. -/
theorem append_remove_roundtrip (h : Heap) (B s : Ptr)
    (hB : ∀ c ∈ h.stmts_ B, get_parent h c = some B) (hs : get_parent h s = none) :
    (Block.append_stmt h B s).1 = .ok () ∧
    Block.remove_stmt (Block.append_stmt h B s).2 B s = (.ok true, h) ∧
    (Block.remove_stmt (Block.append_stmt h B s).2 B s).2.stmts_ B = h.stmts_ B ∧
    get_parent (Block.remove_stmt (Block.append_stmt h B s).2 B s).2 s = none ∧
    (∀ t, t ∉ h.stmts_ B → Block.remove_stmt h B t = (.ok false, h)) := by
  have hp : (get_parent h s).isSome = false := by simp [hs]
  have hnot : s ∉ h.stmts_ B := by
    intro hmem
    have := hB s hmem
    rw [hs] at this
    exact Option.noConfusion this
  have hfind : find (h.stmts_ B ++ [s]) s = (h.stmts_ B).length := by
    have := find_append_cons (h.stmts_ B) [] s hnot
    simpa using this
  have happ : Block.append_stmt h B s =
      (.ok (), set_parent (put_stmts h B (h.stmts_ B ++ [s])) s (some B)) := by
    simp [Block.append_stmt, hp]
  have hst : (set_parent (put_stmts h B (h.stmts_ B ++ [s])) s (some B)).stmts_ B =
      h.stmts_ B ++ [s] := by simp
  have hlen : ¬ (h.stmts_ B).length = (h.stmts_ B ++ [s]).length := by simp
  have herase : eraseAt (h.stmts_ B ++ [s]) (h.stmts_ B).length = h.stmts_ B := by
    simp [eraseAt, List.eraseIdx_append_of_length_le]
  have hround : Block.remove_stmt (Block.append_stmt h B s).2 B s = (.ok true, h) := by
    rw [happ]
    unfold Block.remove_stmt
    simp only [hst, hfind, hlen, if_false, herase]
    have hpar : h.parent_ s = none := hs
    congr 1
    apply Heap.ext <;> first | rfl | (funext x; simp [put_stmts, set_parent, Function.update_apply])
    · rintro rfl; exact hpar.symm
    · rintro rfl; exact herase
  refine ⟨by simp [Block.append_stmt, hp], hround, ?_, ?_, ?_⟩
  · rw [hround]
  · rw [hround]; exact hs
  · intro t ht
    have : find (h.stmts_ B) t = (h.stmts_ B).length := List.indexOf_eq_length.mpr ht
    simp [Block.remove_stmt, this]

/-- Instance of C7 on the sample arena: Store `3` is appended to Block `0` and
removed again. -/
theorem append_remove_roundtrip_witness :
    (∀ c ∈ sampleHeap.stmts_ 0, get_parent sampleHeap c = some 0) ∧
    get_parent sampleHeap 3 = none ∧
    Block.remove_stmt (Block.append_stmt sampleHeap 0 3).2 0 3 = (.ok true, sampleHeap) :=
  have hB : ∀ c ∈ sampleHeap.stmts_ 0, get_parent sampleHeap c = some 0 := by decide
  have hs : get_parent sampleHeap 3 = none := by decide
  ⟨hB, hs, (append_remove_roundtrip sampleHeap 0 3 hB hs).2.1⟩

theorem replace_list (l : List Ptr) (pos : Nat) (s : Ptr) (hpos : pos < l.length) :
    eraseAt (insertAt l pos s) (pos + 1) = l.set pos s := by
  have hlen : (l.take pos).length = pos := by simp; omega
  have h1 : eraseAt (insertAt l pos s) (pos + 1) = l.take pos ++ s :: l.drop (pos + 1) := by
    unfold eraseAt insertAt
    rw [List.eraseIdx_append_of_length_le (by omega), hlen]
    have : pos + 1 - pos = 1 := by omega
    rw [this]
    cases hd : l.drop pos with
    | nil =>
      have : (l.drop pos).length = 0 := by rw [hd]; rfl
      simp at this; omega
    | cons x xs =>
      have hx : l.drop (pos + 1) = xs := by
        have h2 : l.drop (pos + 1) = (l.drop pos).drop 1 := by
          simp [List.drop_drop, Nat.add_comm]
        rw [h2, hd]; rfl
      simp [hx]
  rw [h1, List.set_eq_take_append_cons_drop, if_pos hpos]

/-- What `replace_stmt` does in any arena: `replace_stmt(old, new)` throws
`malformed_input` and changes nothing when `new` has a parent.  When `new` has no parent it
returns whether `old` is a child of `B`; if not, nothing changes; if so, the
child list keeps its length and differs from the previous one only at the
first occurrence of `old`, which now holds `new`, the parent of `new` is `B`,
the parent of `old` is null unless `old` is `new`, and no other parent or child
list changes.  When moreover `new` was not already a child of `B`, `new`
occurs exactly once and the parent of `old` is null. -/
theorem replace_stmt_spec (h : Heap) (B old new : Ptr) :
    (get_parent h new ≠ none →
      Block.replace_stmt h B old new = (.error .malformed_input, h)) ∧
    (get_parent h new = none →
      (Block.replace_stmt h B old new).1 = .ok (decide (old ∈ h.stmts_ B)) ∧
      (old ∉ h.stmts_ B → Block.replace_stmt h B old new = (.ok false, h)) ∧
      (old ∈ h.stmts_ B →
        (Block.replace_stmt h B old new).2.stmts_ B
          = (h.stmts_ B).set (find (h.stmts_ B) old) new ∧
        ((Block.replace_stmt h B old new).2.stmts_ B).length = (h.stmts_ B).length ∧
        (∀ pre post, h.stmts_ B = pre ++ [old] ++ post → old ∉ pre →
          (Block.replace_stmt h B old new).2.stmts_ B = pre ++ [new] ++ post) ∧
        get_parent (Block.replace_stmt h B old new).2 new = some B ∧
        (old ≠ new → get_parent (Block.replace_stmt h B old new).2 old = none) ∧
        (new ∉ h.stmts_ B →
          ((Block.replace_stmt h B old new).2.stmts_ B).count new = 1 ∧
          get_parent (Block.replace_stmt h B old new).2 old = none) ∧
        (∀ t, t ≠ old → t ≠ new →
          get_parent (Block.replace_stmt h B old new).2 t = get_parent h t) ∧
        (∀ b, b ≠ B → (Block.replace_stmt h B old new).2.stmts_ b = h.stmts_ b))) := by
  constructor
  · intro hn
    have hp : (get_parent h new).isSome = true := Option.isSome_iff_ne_none.mpr hn
    simp [Block.replace_stmt, hp]
  · intro hn
    have hp : (get_parent h new).isSome = false := by simp [hn]
    by_cases hmem : old ∈ h.stmts_ B
    · have hlt : find (h.stmts_ B) old < (h.stmts_ B).length := List.indexOf_lt_length.mpr hmem
      have hne : ¬ find (h.stmts_ B) old = (h.stmts_ B).length := by omega
      have hres : Block.replace_stmt h B old new =
          (.ok true, set_parent (set_parent (put_stmts h B
            ((h.stmts_ B).set (find (h.stmts_ B) old) new)) old none) new (some B)) := by
        simp only [Block.replace_stmt, hp, hne, if_false, Bool.false_eq_true]
        congr 2
        apply Heap.ext <;> first | rfl | skip
        funext c
        simp only [put_stmts, Function.update_apply]
        by_cases hc : c = B
        · simp [hc, replace_list _ _ _ hlt]
        · simp [hc]
      have hlist : ∀ pre post, h.stmts_ B = pre ++ [old] ++ post → old ∉ pre →
          (h.stmts_ B).set (find (h.stmts_ B) old) new = pre ++ [new] ++ post := by
        intro pre post hl hpre
        have hl2 : h.stmts_ B = pre ++ old :: post := by simp [hl]
        rw [hl2, find_append_cons pre post old hpre]
        simp
      rw [hres]
      refine ⟨by simp [hmem], fun hno => absurd hmem hno, fun _ => ⟨by simp, by simp, ?_, ?_, ?_, ?_, ?_, ?_⟩⟩
      · intro pre post hl hpre
        simpa using hlist pre post hl hpre
      · simp [get_parent]
      · intro hon; simp [get_parent, hon]
      · intro hnot
        have hon : old ≠ new := fun e => hnot (e ▸ hmem)
        refine ⟨?_, by simp [get_parent, hon]⟩
        have h1 : new ∉ (h.stmts_ B).take (find (h.stmts_ B) old) :=
          fun hm => hnot (List.mem_of_mem_take hm)
        have h2 : new ∉ (h.stmts_ B).drop (find (h.stmts_ B) old + 1) :=
          fun hm => hnot (List.mem_of_mem_drop hm)
        simp only [set_parent_stmts, put_stmts_stmts, if_true]
        rw [List.set_eq_take_append_cons_drop, if_pos hlt, List.count_append,
          List.count_cons_self, List.count_eq_zero.mpr h1, List.count_eq_zero.mpr h2]
      · intro t hto htn; simp [get_parent, hto, htn]
      · intro b hb; simp [hb]
    · have hfind : find (h.stmts_ B) old = (h.stmts_ B).length := List.indexOf_eq_length.mpr hmem
      have hres : Block.replace_stmt h B old new = (.ok false, h) := by
        simp [Block.replace_stmt, hp, hfind]
      rw [hres]
      exact ⟨by simp [hmem], fun _ => rfl, fun hm => absurd hm hmem⟩

/-- C4: let every child of `B` point back to `B`.  `replace_stmt(old, new)` with
a parentless `new` returns true exactly when `old` is a child of `B`.  When it
returns false nothing changes, so the child list and the parents of `old` and
`new` are as before.  When it returns true the child list has the same length
and is the previous list except that the position of the first occurrence of
`old` now holds `new`; `new` occurs exactly once; the parent of `old` is null and
the parent of `new` is `B`; no other parent and no other child list changes.
When `new` has a parent the call throws `malformed_input` and changes
nothing. -/
theorem replace_stmt_contract (h : Heap) (B old new : Ptr)
    (hB : ∀ c ∈ h.stmts_ B, get_parent h c = some B) :
    (get_parent h new ≠ none →
      Block.replace_stmt h B old new = (.error .malformed_input, h)) ∧
    (get_parent h new = none →
      ((Block.replace_stmt h B old new).1 = .ok true ↔ old ∈ h.stmts_ B) ∧
      (old ∉ h.stmts_ B → Block.replace_stmt h B old new = (.ok false, h)) ∧
      (old ∈ h.stmts_ B →
        ((Block.replace_stmt h B old new).2.stmts_ B).length = (h.stmts_ B).length ∧
        (∀ pre post, h.stmts_ B = pre ++ [old] ++ post → old ∉ pre →
          (Block.replace_stmt h B old new).2.stmts_ B = pre ++ [new] ++ post) ∧
        ((Block.replace_stmt h B old new).2.stmts_ B).count new = 1 ∧
        get_parent (Block.replace_stmt h B old new).2 old = none ∧
        get_parent (Block.replace_stmt h B old new).2 new = some B ∧
        (∀ t, t ≠ old → t ≠ new →
          get_parent (Block.replace_stmt h B old new).2 t = get_parent h t) ∧
        (∀ b, b ≠ B → (Block.replace_stmt h B old new).2.stmts_ b = h.stmts_ b))) := by
  obtain ⟨k1, k2⟩ := replace_stmt_spec h B old new
  refine ⟨k1, fun hn => ?_⟩
  obtain ⟨r1, r2, r3⟩ := k2 hn
  have hnot : new ∉ h.stmts_ B := by
    intro hm
    rw [hB new hm] at hn
    cases hn
  refine ⟨?_, r2, fun hm => ?_⟩
  · rw [r1]
    by_cases hm : old ∈ h.stmts_ B
    · simp [hm]
    · simp [hm]
  · obtain ⟨-, a2, a3, a4, -, a6, a7, a8⟩ := r3 hm
    exact ⟨a2, a3, (a6 hnot).1, (a6 hnot).2, a4, a7, a8⟩

/-- Instance of C4 on the sample arena, where the children `1` and `2` of Block
`0` point back to it: child `1` is replaced by the detached Store `3`, and
replacing it by the child `2` is refused, since `2` has a parent. -/
theorem replace_stmt_contract_witness :
    (∀ c ∈ sampleHeap.stmts_ 0, get_parent sampleHeap c = some 0) ∧
    get_parent sampleHeap 3 = none ∧ 1 ∈ sampleHeap.stmts_ 0 ∧
    (Block.replace_stmt sampleHeap 0 1 3).1 = .ok true ∧
    (Block.replace_stmt sampleHeap 0 1 3).2.stmts_ 0 = [] ++ [3] ++ [2] ∧
    ((Block.replace_stmt sampleHeap 0 1 3).2.stmts_ 0).count 3 = 1 ∧
    get_parent (Block.replace_stmt sampleHeap 0 1 3).2 1 = none ∧
    get_parent (Block.replace_stmt sampleHeap 0 1 3).2 3 = some 0 ∧
    Block.replace_stmt sampleHeap 0 1 2 = (.error .malformed_input, sampleHeap) :=
  have hB : ∀ c ∈ sampleHeap.stmts_ 0, get_parent sampleHeap c = some 0 := by decide
  have hn : get_parent sampleHeap 3 = none := by decide
  have hm : 1 ∈ sampleHeap.stmts_ 0 := by decide
  ⟨hB, hn, hm,
    ((replace_stmt_contract sampleHeap 0 1 3 hB).2 hn).1.mpr hm,
    (((replace_stmt_contract sampleHeap 0 1 3 hB).2 hn).2.2 hm).2.1 [] [2] (by decide)
      (by decide),
    (((replace_stmt_contract sampleHeap 0 1 3 hB).2 hn).2.2 hm).2.2.1,
    (((replace_stmt_contract sampleHeap 0 1 3 hB).2 hn).2.2 hm).2.2.2.1,
    (((replace_stmt_contract sampleHeap 0 1 3 hB).2 hn).2.2 hm).2.2.2.2.1,
    (replace_stmt_contract sampleHeap 0 1 2 hB).1 (by decide)⟩

/-! ## `splice` -/

theorem foldl_set_parent (q : Option Ptr) (xs : List Ptr) (h : Heap) :
    xs.foldl (fun g s => set_parent g s q) h =
      { h with parent_ := fun t => if t ∈ xs then q else h.parent_ t } := by
  induction xs generalizing h with
  | nil => simp
  | cons x xs ih =>
    rw [List.foldl_cons, ih]
    apply Heap.ext <;> first | rfl | skip
    funext t
    by_cases h1 : t ∈ xs
    · simp [h1]
    · by_cases h2 : t = x
      · simp [h1, h2]
      · simp [h1, h2]

/-- What `splice` does in any arena: for two distinct blocks, when the child list
of `B` is `pre ++ post` and the iterator points at the start of `post`,
`B.splice(position, other)` leaves `B` with `pre ++ xs ++ post`, where `xs` is
the former child list of `other`, in the same order; `other` is left empty;
every statement of `xs` has parent `B`; and every statement that is not in `xs`
keeps its parent, as every third block keeps its child list. -/
theorem splice_spec (h : Heap) (B other : Ptr) (pre post : List Ptr)
    (hne : B ≠ other) (hl : h.stmts_ B = pre ++ post) :
    (Block.splice h B pre.length other).stmts_ B = pre ++ h.stmts_ other ++ post ∧
    (Block.splice h B pre.length other).stmts_ other = [] ∧
    (∀ s ∈ h.stmts_ other, get_parent (Block.splice h B pre.length other) s = some B) ∧
    (∀ t, t ∉ h.stmts_ other →
      get_parent (Block.splice h B pre.length other) t = get_parent h t) ∧
    (∀ b, b ≠ B → b ≠ other → (Block.splice h B pre.length other).stmts_ b = h.stmts_ b) := by
  have hne2 : other ≠ B := fun e => hne e.symm
  simp only [Block.splice, foldl_set_parent, get_parent]
  refine ⟨?_, ?_, ?_, ?_, ?_⟩
  · simp [hl]
  · simp [hne2]
  · intro s hs; simp [hs]
  · intro t ht; simp [ht]
  · intro b hb hbo; simp [hb, hbo]

/-- C8: let `B` and `other` be distinct blocks, let every child of `B` point
back to `B`, let the child list of `B` be `pre ++ post` with the iterator at the
start of `post`, and let `xs` be the child list of `other`.  After
`B.splice(position, other)` the child list of `B` is `pre ++ xs ++ post`, with
`xs` in its order, the child list of `other` is empty, every statement of `xs`
has parent `B`, and the parents of the statements of `pre` and of `post` are
unchanged, as is the parent of every statement outside `xs` and the child list
of every third block. -/
theorem splice_contract (h : Heap) (B other : Ptr) (pre post : List Ptr)
    (hne : B ≠ other) (hl : h.stmts_ B = pre ++ post)
    (hB : ∀ c ∈ h.stmts_ B, get_parent h c = some B) :
    (Block.splice h B pre.length other).stmts_ B = pre ++ h.stmts_ other ++ post ∧
    (Block.splice h B pre.length other).stmts_ other = [] ∧
    (∀ s ∈ h.stmts_ other, get_parent (Block.splice h B pre.length other) s = some B) ∧
    (∀ t, t ∈ pre ∨ t ∈ post →
      get_parent (Block.splice h B pre.length other) t = get_parent h t) ∧
    (∀ t, t ∉ h.stmts_ other →
      get_parent (Block.splice h B pre.length other) t = get_parent h t) ∧
    (∀ b, b ≠ B → b ≠ other → (Block.splice h B pre.length other).stmts_ b = h.stmts_ b) := by
  obtain ⟨k1, k2, k3, k4, k5⟩ := splice_spec h B other pre post hne hl
  refine ⟨k1, k2, k3, fun t ht => ?_, k4, k5⟩
  have hmem : t ∈ h.stmts_ B := by
    rw [hl]
    exact List.mem_append.mpr ht
  by_cases hx : t ∈ h.stmts_ other
  · rw [k3 t hx, hB t hmem]
  · exact k4 t hx

/-- Instance of C8 on `pairHeap`, where the children `1` and `2` of Block `0`
point back to it and Block `6` holds `3` and `5`: Block `6` is spliced into
Block `0` between its two children. -/
theorem splice_contract_witness :
    (0 : Ptr) ≠ 6 ∧ pairHeap.stmts_ 0 = [1] ++ [2] ∧ pairHeap.stmts_ 6 = [3, 5] ∧
    (∀ c ∈ pairHeap.stmts_ 0, get_parent pairHeap c = some 0) ∧
    (Block.splice pairHeap 0 1 6).stmts_ 0 = [1] ++ pairHeap.stmts_ 6 ++ [2] ∧
    (Block.splice pairHeap 0 1 6).stmts_ 6 = [] ∧
    get_parent (Block.splice pairHeap 0 1 6) 3 = some 0 ∧
    get_parent (Block.splice pairHeap 0 1 6) 5 = some 0 ∧
    get_parent (Block.splice pairHeap 0 1 6) 1 = get_parent pairHeap 1 ∧
    get_parent (Block.splice pairHeap 0 1 6) 2 = get_parent pairHeap 2 :=
  have hne : (0 : Ptr) ≠ 6 := by decide
  have hl : pairHeap.stmts_ 0 = [1] ++ [2] := by decide
  have hB : ∀ c ∈ pairHeap.stmts_ 0, get_parent pairHeap c = some 0 := by decide
  ⟨hne, hl, by decide, hB,
    (splice_contract pairHeap 0 6 [1] [2] hne hl hB).1,
    (splice_contract pairHeap 0 6 [1] [2] hne hl hB).2.1,
    (splice_contract pairHeap 0 6 [1] [2] hne hl hB).2.2.1 3 (by decide),
    (splice_contract pairHeap 0 6 [1] [2] hne hl hB).2.2.1 5 (by decide),
    (splice_contract pairHeap 0 6 [1] [2] hne hl hB).2.2.2.1 1 (Or.inl (by decide)),
    (splice_contract pairHeap 0 6 [1] [2] hne hl hB).2.2.2.1 2 (Or.inr (by decide))⟩

/-! ## `getSharedParent` -/

theorem nthParent_none (h : Heap) (k : Nat) : nthParent h k none = none := by
  cases k <;> rfl

theorem nthParent_add (h : Heap) (a b : Nat) (p : Option Ptr) :
    nthParent h (a + b) p = nthParent h b (nthParent h a p) := by
  induction a generalizing p with
  | zero => simp [nthParent]
  | succ a ih =>
    cases p with
    | none => simp [nthParent_none]
    | some q =>
      have : a + 1 + b = (a + b) + 1 := by omega
      rw [this]
      simp only [nthParent]
      exact ih _

/-- The first loop ends when the chain is finite, and collects exactly the
Blocks of the chain. -/
theorem collectEnclosing_spec (h : Heap) (fuel : Nat) :
    ∀ (n : Nat) (p : Option Ptr) (enc : List Ptr), nthParent h n p = none → n ≤ fuel →
      ∃ enc', Block.collectEnclosing h fuel p enc = some enc' ∧
        ∀ b, b ∈ enc' ↔ (b ∈ enc ∨ (isBlock h b = true ∧ ∃ k, nthParent h k p = some b)) := by
  induction fuel with
  | zero =>
    intro n p enc hn hle
    have hn0 : n = 0 := by omega
    subst hn0
    simp only [nthParent] at hn
    subst hn
    exact ⟨enc, rfl, fun b => by simp [nthParent_none]⟩
  | succ fuel ih =>
    intro n p enc hn hle
    cases p with
    | none => exact ⟨enc, rfl, fun b => by simp [nthParent_none]⟩
    | some q =>
      cases n with
      | zero => simp [nthParent] at hn
      | succ n =>
        simp only [nthParent] at hn
        obtain ⟨enc', he, hchar⟩ := ih n (get_parent h q)
          (if isBlock h q then enc.insert q else enc) hn (by omega)
        refine ⟨enc', by simpa [Block.collectEnclosing] using he, fun b => ?_⟩
        rw [hchar b]
        constructor
        · rintro (hb | ⟨hblk, k, hk⟩)
          · by_cases hq : isBlock h q = true
            · rw [if_pos hq, List.mem_insert_iff] at hb
              rcases hb with rfl | hb
              · exact Or.inr ⟨hq, 0, rfl⟩
              · exact Or.inl hb
            · rw [if_neg hq] at hb
              exact Or.inl hb
          · exact Or.inr ⟨hblk, k + 1, by simpa [nthParent] using hk⟩
        · rintro (hb | ⟨hblk, k, hk⟩)
          · left
            by_cases hq : isBlock h q = true
            · rw [if_pos hq, List.mem_insert_iff]; exact Or.inr hb
            · rw [if_neg hq]; exact hb
          · cases k with
            | zero =>
              simp only [nthParent, Option.some.injEq] at hk
              subst hk
              left
              rw [if_pos hblk, List.mem_insert_iff]; exact Or.inl rfl
            | succ k =>
              right
              exact ⟨hblk, k, by simpa [nthParent] using hk⟩

/-- The second loop ends when the chain is finite, and returns the first node
of the chain that is a Block of `enc`. -/
theorem findEnclosing_spec (h : Heap) (enc : List Ptr) (fuel : Nat) :
    ∀ (n : Nat) (p : Option Ptr), nthParent h n p = none → n ≤ fuel →
      ∃ r, Block.findEnclosing h enc fuel p = some r ∧
        (r = none → ∀ k b, nthParent h k p = some b → ¬ (isBlock h b = true ∧ b ∈ enc)) ∧
        (∀ b, r = some b → isBlock h b = true ∧ b ∈ enc ∧
          ∃ k, nthParent h k p = some b ∧
            ∀ j c, j < k → nthParent h j p = some c → ¬ (isBlock h c = true ∧ c ∈ enc)) := by
  induction fuel with
  | zero =>
    intro n p hn hle
    have hn0 : n = 0 := by omega
    subst hn0
    simp only [nthParent] at hn
    subst hn
    exact ⟨none, rfl, fun _ k b hk => by simp [nthParent_none] at hk, fun b hb => by simp at hb⟩
  | succ fuel ih =>
    intro n p hn hle
    cases p with
    | none =>
      exact ⟨none, rfl, fun _ k b hk => by simp [nthParent_none] at hk, fun b hb => by simp at hb⟩
    | some q =>
      cases n with
      | zero => simp [nthParent] at hn
      | succ n =>
        simp only [nthParent] at hn
        by_cases hq : isBlock h q = true ∧ q ∈ enc
        · refine ⟨some q, by simp [Block.findEnclosing, hq.1, hq.2], fun hr => by simp at hr, ?_⟩
          intro b hb
          simp only [Option.some.injEq] at hb
          subst hb
          exact ⟨hq.1, hq.2, 0, rfl, fun j c hj => by omega⟩
        · obtain ⟨r, hr, hnone, hsome⟩ := ih n (get_parent h q) hn (by omega)
          have hstep : Block.findEnclosing h enc (fuel + 1) (some q) = some r := by
            have hq2 : (isBlock h q && decide (q ∈ enc)) = false := by
              by_cases h1 : isBlock h q = true
              · have : q ∉ enc := fun hm => hq ⟨h1, hm⟩
                simp [this]
              · simp [h1]
            simp only [Block.findEnclosing, hq2]
            simpa using hr
          refine ⟨r, hstep, ?_, ?_⟩
          · intro hrn k b hk
            cases k with
            | zero =>
              simp only [nthParent, Option.some.injEq] at hk
              subst hk; exact hq
            | succ k => exact hnone hrn k b (by simpa [nthParent] using hk)
          · intro b hb
            obtain ⟨hblk, hmem, k, hk, hmin⟩ := hsome b hb
            refine ⟨hblk, hmem, k + 1, by simpa [nthParent] using hk, ?_⟩
            intro j c hj hjc
            cases j with
            | zero =>
              simp only [nthParent, Option.some.injEq] at hjc
              subst hjc; exact hq
            | succ j => exact hmin j c (by omega) (by simpa [nthParent] using hjc)

/-- C9: when the parent chains of `p1` and `p2` end, `getSharedParent(p1, p2)`
returns, given enough iterations.  Its result is null exactly when no Block
lies on both chains; otherwise it is a Block lying on both chains, and every
other Block lying on both chains is a proper ancestor of it. -/
theorem getSharedParent_nearest (h : Heap) (p1 p2 : Ptr) (n1 n2 fuel : Nat)
    (h1 : nthParent h n1 (some p1) = none) (h2 : nthParent h n2 (some p2) = none)
    (hf1 : n1 ≤ fuel) (hf2 : n2 ≤ fuel) :
    ∃ r, Block.getSharedParent h fuel (some p1) (some p2) = some r ∧
      (r = none ↔ ¬ ∃ b, SharedBlock h p1 p2 b) ∧
      (∀ b, r = some b →
        SharedBlock h p1 p2 b ∧
        ∀ c, SharedBlock h p1 p2 c → c ≠ b → ProperAncestor h c b) := by
  obtain ⟨enc, henc, hchar⟩ := collectEnclosing_spec h fuel n1 (some p1) [] h1 hf1
  obtain ⟨r, hr, hnone, hsome⟩ := findEnclosing_spec h enc fuel n2 (some p2) h2 hf2
  have hmem : ∀ b, b ∈ enc ↔ (isBlock h b = true ∧ OnChain h p1 b) := by
    intro b; rw [hchar b]; simp [OnChain]
  refine ⟨r, by simp [Block.getSharedParent, henc, hr], ?_, ?_⟩
  · constructor
    · rintro hrn ⟨b, hblk, hc1, k, hk⟩
      exact hnone hrn k b hk ⟨hblk, (hmem b).mpr ⟨hblk, hc1⟩⟩
    · intro hno
      cases r with
      | none => rfl
      | some b =>
        obtain ⟨hblk, hin, k, hk, _⟩ := hsome b rfl
        exact absurd ⟨b, hblk, ((hmem b).mp hin).2, k, hk⟩ hno
  · intro b hb
    obtain ⟨hblk, hin, k, hk, hmin⟩ := hsome b hb
    refine ⟨⟨hblk, ((hmem b).mp hin).2, k, hk⟩, ?_⟩
    rintro c ⟨hcblk, hc1, j, hj⟩ hcb
    have hcin : c ∈ enc := (hmem c).mpr ⟨hcblk, hc1⟩
    have hkj : k ≤ j := by
      by_contra hlt
      exact hmin j c (by omega) hj ⟨hcblk, hcin⟩
    have hsplit : nthParent h (j - k) (some b) = some c := by
      have := nthParent_add h k (j - k) (some p2)
      rw [hk] at this
      rw [← this]
      have hjk : k + (j - k) = j := by omega
      rw [hjk]; exact hj
    refine ⟨j - k, ?_, hsplit⟩
    by_contra hz
    have hz0 : j - k = 0 := by omega
    rw [hz0] at hsplit
    simp only [nthParent, Option.some.injEq] at hsplit
    exact hcb hsplit.symm

/-- Instance of C9 on the sample arena: the two children `1` and `2` of Block
`0` have Block `0` as their shared parent. -/
theorem getSharedParent_nearest_witness :
    nthParent sampleHeap 2 (some 1) = none ∧ nthParent sampleHeap 2 (some 2) = none ∧
    ∃ r, Block.getSharedParent sampleHeap 2 (some 1) (some 2) = some r ∧
      (r = none ↔ ¬ ∃ b, SharedBlock sampleHeap 1 2 b) ∧
      (∀ b, r = some b →
        SharedBlock sampleHeap 1 2 b ∧
        ∀ c, SharedBlock sampleHeap 1 2 c → c ≠ b → ProperAncestor sampleHeap c b) :=
  have h1 : nthParent sampleHeap 2 (some 1) = none := by decide
  have h2 : nthParent sampleHeap 2 (some 2) = none := by decide
  ⟨h1, h2, getSharedParent_nearest sampleHeap 1 2 2 2 2 h1 h2 (by decide) (by decide)⟩

/-- C10, as the code has it: let `a` be a direct child of the Block `B`, with a
parent chain that ends.  Given enough iterations `getSharedParent(a, a)`
returns `B` when `a` is not itself a Block, and returns `a` when `a` is a
Block. -/
theorem getSharedParent_self (h : Heap) (B a : Ptr) (n fuel : Nat)
    (hpar : get_parent h a = some B) (hB : isBlock h B = true)
    (hfin : nthParent h n (some a) = none) (hfuel : n ≤ fuel) :
    (isBlock h a = false → Block.getSharedParent h fuel (some a) (some a) = some (some B)) ∧
    (isBlock h a = true → Block.getSharedParent h fuel (some a) (some a) = some (some a)) := by
  obtain ⟨enc, henc, hchar⟩ := collectEnclosing_spec h fuel n (some a) [] hfin hfuel
  have hBin : B ∈ enc := (hchar B).mpr (Or.inr ⟨hB, 1, by simp [nthParent, hpar]⟩)
  have hn2 : 2 ≤ n := by
    rcases n with _ | _ | n
    · simp [nthParent] at hfin
    · simp [nthParent, hpar] at hfin
    · omega
  obtain ⟨f, rfl⟩ : ∃ f, fuel = f + 2 := ⟨fuel - 2, by omega⟩
  constructor
  · intro ha
    simp [Block.getSharedParent, henc, Block.findEnclosing, ha, hpar, hB, hBin]
  · intro ha
    have hain : a ∈ enc := (hchar a).mpr (Or.inr ⟨ha, 0, rfl⟩)
    simp [Block.getSharedParent, henc, Block.findEnclosing, ha, hain]

/-- Instance of C10 on the sample arena: the Store `1` is a child of Block `0`. -/
theorem getSharedParent_self_witness :
    get_parent sampleHeap 1 = some 0 ∧ isBlock sampleHeap 0 = true ∧
    isBlock sampleHeap 1 = false ∧
    Block.getSharedParent sampleHeap 2 (some 1) (some 1) = some (some 0) :=
  have hpar : get_parent sampleHeap 1 = some 0 := by decide
  have hB : isBlock sampleHeap 0 = true := by decide
  have ha : isBlock sampleHeap 1 = false := by decide
  ⟨hpar, hB, ha,
    (getSharedParent_self sampleHeap 0 1 2 2 hpar hB (by decide) (by decide)).1 ha⟩

/-- C10 fails as stated.  In `nestedHeap` the Block `4` is a direct child of
the Block `0`, and `getSharedParent(4, 4)` returns `4`, not `0`. -/
theorem getSharedParent_self_block :
    get_parent nestedHeap 4 = some 0 ∧ isBlock nestedHeap 0 = true ∧
    isBlock nestedHeap 4 = true ∧
    Block.getSharedParent nestedHeap 2 (some 4) (some 4) = some (some 4) ∧
    Block.getSharedParent nestedHeap 2 (some 4) (some 4) ≠ some (some 0) :=
  ⟨by decide, by decide, by decide, by decide, by decide⟩

/-! ## Reading trees back -/

theorem Heap.Extends.refl (h : Heap) : h.Extends h :=
  ⟨Nat.le_refl _, fun _ _ => ⟨rfl, rfl, rfl, rfl, rfl, rfl, rfl, rfl, rfl⟩⟩

theorem Heap.Extends.trans {h g k : Heap} (a : h.Extends g) (b : g.Extends k) : h.Extends k := by
  refine ⟨Nat.le_trans a.1 b.1, fun p hp => ?_⟩
  obtain ⟨a1, a2, a3, a4, a5, a6, a7, a8, a9⟩ := a.2 p hp
  obtain ⟨b1, b2, b3, b4, b5, b6, b7, b8, b9⟩ := b.2 p (Nat.lt_of_lt_of_le hp a.1)
  exact ⟨b1.trans a1, b2.trans a2, b3.trans a3, b4.trans a4, b5.trans a5, b6.trans a6,
    b7.trans a7, b8.trans a8, b9.trans a9⟩

theorem mapOpt_imp {α β : Type} (f g : α → Option β) (l : List α)
    (H : ∀ a ∈ l, ∀ b, f a = some b → g a = some b) :
    ∀ bs, mapOpt f l = some bs → mapOpt g l = some bs := by
  induction l with
  | nil => intro bs hbs; simpa [mapOpt] using hbs
  | cons a l ih =>
    intro bs hbs
    simp only [mapOpt] at hbs ⊢
    cases hfa : f a with
    | none => simp [hfa] at hbs
    | some b =>
      cases hfl : mapOpt f l with
      | none => simp [hfa, hfl] at hbs
      | some bs' =>
        rw [H a (List.mem_cons_self a l) b hfa,
          ih (fun x hx => H x (List.mem_cons_of_mem a hx)) bs' hfl]
        simpa [hfa, hfl] using hbs

theorem readBack_succ (h : Heap) (fuel : Nat) :
    ∀ p t, readBack h fuel p = some t → readBack h (fuel + 1) p = some t := by
  induction fuel with
  | zero => intro p t ht; simp [readBack] at ht
  | succ fuel ih =>
    intro p t ht
    rw [readBack] at ht ⊢
    by_cases hp : p < h.next
    · simp only [hp, if_true] at ht ⊢
      cases hk : h.kind p with
      | none => simp [hk] at ht
      | some k =>
        cases k <;> simp only [hk] at ht ⊢ <;> try exact ht
        · cases hm : mapOpt (readBack h fuel) (h.stmts_ p) with
          | none => simp [hm] at ht
          | some ts =>
            rw [mapOpt_imp _ _ _ (fun a _ b hb => ih a b hb) ts hm]
            simpa [hm] using ht
        · cases hb : h.body_ p with
          | none => simp [hb] at ht
          | some b =>
            simp only [hb] at ht ⊢
            cases hr : readBack h fuel b with
            | none => simp [hr] at ht
            | some t' =>
              rw [ih b t' hr]
              simpa [hr] using ht
    · simp [hp] at ht

theorem readBack_add (h : Heap) (fuel k : Nat) (p : Ptr) (t : Tree)
    (ht : readBack h fuel p = some t) : readBack h (fuel + k) p = some t := by
  induction k with
  | zero => exact ht
  | succ k ih => exact readBack_succ h (fuel + k) p t ih

theorem readBack_extends {h g : Heap} (e : h.Extends g) (fuel : Nat) :
    ∀ p t, readBack h fuel p = some t → readBack g fuel p = some t := by
  induction fuel with
  | zero => intro p t ht; simp [readBack] at ht
  | succ fuel ih =>
    intro p t ht
    rw [readBack] at ht ⊢
    by_cases hp : p < h.next
    · have hpg : p < g.next := Nat.lt_of_lt_of_le hp e.1
      obtain ⟨e1, e2, e3, e4, e5, e6, e7, e8, e9⟩ := e.2 p hp
      simp only [hp, hpg, if_true] at ht ⊢
      rw [e1, e2, e3, e4, e5, e6, e7, e8, e9]
      cases hk : h.kind p with
      | none => simp [hk] at ht
      | some k =>
        cases k <;> simp only [hk] at ht ⊢ <;> try exact ht
        · cases hm : mapOpt (readBack h fuel) (h.stmts_ p) with
          | none => simp [hm] at ht
          | some ts =>
            rw [mapOpt_imp _ _ _ (fun a _ b hb => ih a b hb) ts hm]
            simpa [hm] using ht
        · cases hb : h.body_ p with
          | none => simp [hb] at ht
          | some b =>
            simp only [hb] at ht ⊢
            cases hr : readBack h fuel b with
            | none => simp [hr] at ht
            | some t' =>
              rw [ih b t' hr]
              simpa [hr] using ht
    · simp [hp] at ht

theorem Reads.extends {h g : Heap} (e : h.Extends g) {p : Ptr} {t : Tree}
    (r : Reads h p t) : Reads g p t := by
  obtain ⟨fuel, hf⟩ := r
  exact ⟨fuel, readBack_extends e fuel p t hf⟩

theorem Reads.lt_next {h : Heap} {p : Ptr} {t : Tree} (r : Reads h p t) : p < h.next := by
  obtain ⟨fuel, hf⟩ := r
  cases fuel with
  | zero => simp [readBack] at hf
  | succ fuel =>
    rw [readBack] at hf
    by_contra hp
    simp [hp] at hf

theorem Reads.isBlock_iff {h : Heap} {p : Ptr} {t : Tree} (r : Reads h p t) :
    isBlock h p = t.isBlock := by
  obtain ⟨fuel, hf⟩ := r
  cases fuel with
  | zero => simp [readBack] at hf
  | succ fuel =>
    rw [readBack] at hf
    by_cases hp : p < h.next
    · simp only [hp, if_true] at hf
      cases hk : h.kind p with
      | none => simp [hk] at hf
      | some k =>
        cases k with
        | Block =>
          simp only [hk] at hf
          cases hm : mapOpt (readBack h fuel) (h.stmts_ p) with
          | none => simp [hm] at hf
          | some ts =>
            simp only [hm, Option.some.injEq] at hf
            subst hf
            simp [isBlock, hk, Tree.isBlock]
        | For =>
          simp only [hk] at hf
          cases hb : h.body_ p with
          | none => simp [hb] at hf
          | some b =>
            simp only [hb] at hf
            cases hr : readBack h fuel b with
            | none => simp [hr] at hf
            | some t' =>
              simp only [hr, Option.some.injEq] at hf
              subst hf
              simp [isBlock, hk, Tree.isBlock]
        | _ =>
          simp only [hk, Option.some.injEq] at hf
          subst hf
          simp [isBlock, hk, Tree.isBlock]
    · simp [hp] at hf

/-! ## What the constructors allocate -/

theorem Block.init_skeleton (this : Ptr) (l : List (Option Ptr)) :
    ∀ h : Heap, (Block.init h this l).skeleton =
      (put_stmts h this (h.stmts_ this ++ l.filterMap id)).skeleton := by
  induction l with
  | nil =>
    intro h
    apply Heap.ext <;> first | rfl | skip
    simp [Block.init, put_stmts, Heap.skeleton]
  | cons o l ih =>
    intro h
    cases o with
    | none =>
      have : Block.init h this (none :: l) = Block.init h this l := rfl
      rw [this, ih h]
      simp
    | some s =>
      have hstep : Block.init h this (some s :: l) =
          Block.init
            (put_stmts (if (get_parent h s).isSome then h else set_parent h s (some this)) this
              ((if (get_parent h s).isSome then h else set_parent h s (some this)).stmts_ this
                ++ [s])) this l := rfl
      rw [hstep, ih]
      by_cases hp : (get_parent h s).isSome = true
      · simp only [hp, if_true]
        apply Heap.ext <;> first | rfl | skip
        funext c
        simp [put_stmts, Heap.skeleton, Function.update_apply]
      · simp only [hp, if_false, Bool.false_eq_true]
        apply Heap.ext <;> first | rfl | skip
        funext c
        simp [put_stmts, set_parent, Heap.skeleton, Function.update_apply]

/-- The constructor of a Block allocates one node, whose list is made of the
non-null entries, and changes only parent pointers besides. -/
theorem Block.new_skeleton (h : Heap) (l : List (Option Ptr)) :
    (Block.new h l).1 = h.next ∧
    (Block.new h l).2.skeleton =
      ({ h with
        next := h.next + 1
        kind := Function.update h.kind h.next (some StmtKind.Block)
        stmts_ := Function.update h.stmts_ h.next (l.filterMap id) } : Heap).skeleton := by
  refine ⟨rfl, ?_⟩
  simp only [Block.new]
  rw [Block.init_skeleton]
  apply Heap.ext <;> first | rfl | skip
  funext c
  simp [put_stmts, Heap.skeleton, Function.update_apply]

theorem Heap.skeleton_fields {g k : Heap} (e : g.skeleton = k.skeleton) :
    g.next = k.next ∧ g.kind = k.kind ∧ g.stmts_ = k.stmts_ ∧ g.buf_ = k.buf_ ∧
    g.indices_ = k.indices_ ∧ g.value_ = k.value_ ∧ g.var_ = k.var_ ∧
    g.start_ = k.start_ ∧ g.stop_ = k.stop_ ∧ g.body_ = k.body_ := by
  have e1 : g.skeleton.next = k.skeleton.next := by rw [e]
  have e2 : g.skeleton.kind = k.skeleton.kind := by rw [e]
  have e3 : g.skeleton.stmts_ = k.skeleton.stmts_ := by rw [e]
  have e4 : g.skeleton.buf_ = k.skeleton.buf_ := by rw [e]
  have e5 : g.skeleton.indices_ = k.skeleton.indices_ := by rw [e]
  have e6 : g.skeleton.value_ = k.skeleton.value_ := by rw [e]
  have e7 : g.skeleton.var_ = k.skeleton.var_ := by rw [e]
  have e8 : g.skeleton.start_ = k.skeleton.start_ := by rw [e]
  have e9 : g.skeleton.stop_ = k.skeleton.stop_ := by rw [e]
  have e10 : g.skeleton.body_ = k.skeleton.body_ := by rw [e]
  exact ⟨e1, e2, e3, e4, e5, e6, e7, e8, e9, e10⟩

theorem Store.alloc_reads (h : Heap) (b : Option Buf) (i : List Expr) (v : Option Expr) :
    h.Extends (Store.new h b i v).2 ∧
    Reads (Store.new h b i v).2 (Store.new h b i v).1 (Tree.Store b i v) := by
  constructor
  · refine ⟨by simp [Store.new], fun p hp => ?_⟩
    have h1 : p ≠ h.next := Nat.ne_of_lt hp
    simp [Store.new, Function.update_apply, h1]
  · exact ⟨1, by simp [readBack, Store.new]⟩

theorem readBack_for (g : Heap) (p b : Ptr) (t : Tree) (fuel : Nat) (hp : p < g.next)
    (hk : g.kind p = some StmtKind.For) (hb : g.body_ p = some b)
    (hr : readBack g fuel b = some t) :
    readBack g (fuel + 1) p = some (Tree.For (g.var_ p) (g.start_ p) (g.stop_ p) t) := by
  rw [readBack]; simp [hp, hk, hb, hr]

theorem readBack_block (g : Heap) (p : Ptr) (ts : List Tree) (fuel : Nat) (hp : p < g.next)
    (hk : g.kind p = some StmtKind.Block)
    (hm : mapOpt (readBack g fuel) (g.stmts_ p) = some ts) :
    readBack g (fuel + 1) p = some (Tree.Block ts) := by
  rw [readBack]; simp [hp, hk, hm]

theorem mapOpt_reads (g : Heap) (l : List Ptr) (ts : List Tree)
    (H : List.Forall₂ (Reads g) l ts) : ∃ fuel, mapOpt (readBack g fuel) l = some ts := by
  induction H with
  | nil => exact ⟨0, rfl⟩
  | cons hr _ ih =>
    obtain ⟨f1, h1⟩ := hr
    obtain ⟨f2, h2⟩ := ih
    refine ⟨f1 + f2, ?_⟩
    have e1 := readBack_add g f1 f2 _ _ h1
    have e2 := mapOpt_imp (readBack g f2) (readBack g (f1 + f2)) _
      (fun a _ b hb => by
        have := readBack_add g f2 f1 a b hb
        rwa [Nat.add_comm] at this) _ h2
    simp [mapOpt, e1, e2]

/-- A Block built from existing statements reads back as the Block of their
trees. -/
theorem Block.build_reads (h : Heap) (l : List Ptr) (ts : List Tree)
    (H : List.Forall₂ (Reads h) l ts) :
    h.Extends (Block.new h (l.map some)).2 ∧
    Reads (Block.new h (l.map some)).2 (Block.new h (l.map some)).1 (Tree.Block ts) := by
  obtain ⟨h1, hsk⟩ := Block.new_skeleton h (l.map some)
  obtain ⟨e1, e2, e3, e4, e5, e6, e7, e8, e9, e10⟩ := Heap.skeleton_fields hsk
  have hfm : (l.map some).filterMap id = l := by simp [List.filterMap_map]
  simp only [Heap.skeleton, hfm] at e1 e2 e3 e4 e5 e6 e7 e8 e9 e10
  have hext : h.Extends (Block.new h (l.map some)).2 := by
    refine ⟨by rw [e1]; exact Nat.le_succ _, fun p hp => ?_⟩
    have hne : p ≠ h.next := Nat.ne_of_lt hp
    rw [e2, e3, e4, e5, e6, e7, e8, e9, e10]
    simp [Function.update_apply, hne]
  refine ⟨hext, ?_⟩
  have H2 : List.Forall₂ (Reads (Block.new h (l.map some)).2) l ts :=
    H.imp (fun _ _ r => r.extends hext)
  obtain ⟨fuel, hf⟩ := mapOpt_reads _ l ts H2
  refine ⟨fuel + 1, ?_⟩
  rw [h1]
  exact readBack_block _ _ _ _ (by rw [e1]; exact Nat.lt_succ_self _) (by rw [e2]; simp)
    (by rw [e3]; simpa using hf)

theorem Heap.Extends.write_body {h k : Heap} (e : h.Extends k) (this : Ptr)
    (hthis : h.next ≤ this) (b : Option Ptr) (q : Ptr) (r : Option Ptr) :
    h.Extends (set_parent (TensorExpr.put_body k this b) q r) := by
  refine ⟨e.1, fun p hp => ?_⟩
  have hne : p ≠ this := Nat.ne_of_lt (Nat.lt_of_lt_of_le hp hthis)
  have := e.2 p hp
  simpa [TensorExpr.put_body, set_parent, Function.update_apply, hne] using this

/-- A loop built around an existing statement reads back as the `For` whose
body is the tree of that statement, wrapped when it is not a Block. -/
theorem For.wrap_reads (h : Heap) (var : Option Var) (start stop : Option Expr)
    (s : Ptr) (t : Tree) (hs : Reads h s t) :
    h.Extends (For.new h var start stop (some s)).2 ∧
    Reads (For.new h var start stop (some s)).2 (For.new h var start stop (some s)).1
      (Tree.For var start stop t.asBody) := by
  have hslt : s < h.next := hs.lt_next
  have hsne : s ≠ h.next := Nat.ne_of_lt hslt
  have hext1 : h.Extends (For.fresh h var start stop) := by
    refine ⟨Nat.le_succ _, fun p hp => ?_⟩
    have hne : p ≠ h.next := Nat.ne_of_lt hp
    simp [For.fresh, Function.update_apply, hne]
  have hs1 : Reads (For.fresh h var start stop) s t := hs.extends hext1
  have hblk : isBlock (For.fresh h var start stop) s = t.isBlock := hs1.isBlock_iff
  cases htb : t.isBlock with
  | true =>
    have hnew : For.new h var start stop (some s) =
        (h.next, set_parent (put_body (For.fresh h var start stop) h.next (some s)) s
          (some h.next)) := by
      simp [For.new, hblk, htb]
    have hext2 : h.Extends (set_parent (put_body (For.fresh h var start stop) h.next (some s)) s
          (some h.next)) := by
      refine ⟨Nat.le_succ _, fun p hp => ?_⟩
      have hne : p ≠ h.next := Nat.ne_of_lt hp
      simp [For.fresh, put_body, set_parent, Function.update_apply, hne]
    rw [hnew]
    refine ⟨hext2, ?_⟩
    obtain ⟨fuel, hf⟩ := hs.extends hext2
    refine ⟨fuel + 1, ?_⟩
    have hasb : t.asBody = t := by
      cases t <;> simp_all [Tree.isBlock, Tree.asBody]
    have := readBack_for _ h.next s t fuel (by simp [For.fresh, put_body, set_parent])
      (by simp [For.fresh, put_body, set_parent]) (by simp [For.fresh, put_body, set_parent]) hf
    rw [hasb, this]
    simp [For.fresh, put_body, set_parent]
  | false =>
    have hnew : For.new h var start stop (some s) =
        (h.next, set_parent (put_body (Block.new (For.fresh h var start stop) [some s]).2 h.next
          (some (Block.new (For.fresh h var start stop) [some s]).1))
          (Block.new (For.fresh h var start stop) [some s]).1 (some h.next)) := by
      simp [For.new, hblk, htb]
    obtain ⟨hb1, hb2⟩ := Block.build_reads (For.fresh h var start stop) [s] [t]
      (List.Forall₂.cons hs1 List.Forall₂.nil)
    simp only [List.map_cons, List.map_nil] at hb1 hb2
    obtain ⟨hp1, hsk⟩ := Block.new_skeleton (For.fresh h var start stop) [some s]
    obtain ⟨e1, e2, e3, -⟩ := Heap.skeleton_fields hsk
    simp only [Heap.skeleton] at e1 e2 e3
    have hfn : (For.fresh h var start stop).next = h.next + 1 := rfl
    rw [hp1, hfn] at hnew
    rw [hfn] at e1 e2 e3
    have hv := hb1.2 h.next (Nat.lt_succ_self _)
    obtain ⟨g, hg⟩ : ∃ g, g = set_parent (put_body (Block.new (For.fresh h var start stop)
        [some s]).2 h.next (some (h.next + 1))) (h.next + 1) (some h.next) := ⟨_, rfl⟩
    rw [← hg] at hnew
    have k1 : g.next = h.next + 1 + 1 := by rw [hg]; exact e1
    have k2 : g.kind = Function.update (For.fresh h var start stop).kind (h.next + 1)
        (some StmtKind.Block) := by rw [hg]; exact e2
    have k3 : g.stmts_ (h.next + 1) = [s] := by
      rw [hg]
      show (Block.new (For.fresh h var start stop) [some s]).2.stmts_ (h.next + 1) = [s]
      rw [e3]; simp
    have k4 : g.body_ h.next = some (h.next + 1) := by
      rw [hg]; simp [put_body, set_parent]
    have k5 : g.var_ h.next = var := by
      rw [hg]
      show (Block.new (For.fresh h var start stop) [some s]).2.var_ h.next = var
      rw [hv.2.2.2.2.2.1]; simp [For.fresh]
    have k6 : g.start_ h.next = start := by
      rw [hg]
      show (Block.new (For.fresh h var start stop) [some s]).2.start_ h.next = start
      rw [hv.2.2.2.2.2.2.1]; simp [For.fresh]
    have k7 : g.stop_ h.next = stop := by
      rw [hg]
      show (Block.new (For.fresh h var start stop) [some s]).2.stop_ h.next = stop
      rw [hv.2.2.2.2.2.2.2.1]; simp [For.fresh]
    have hext : h.Extends g := by
      rw [hg]; exact (hext1.trans hb1).write_body h.next (Nat.le_refl _) _ _ _
    rw [hnew]
    refine ⟨hext, ?_⟩
    obtain ⟨fuel, hf⟩ := hs.extends hext
    refine ⟨fuel + 2, ?_⟩
    have hasb : t.asBody = Tree.Block [t] := by
      cases t <;> simp_all [Tree.isBlock, Tree.asBody]
    have hblock := readBack_block g (h.next + 1) [t] fuel
      (by rw [k1]; exact Nat.lt_succ_self _)
      (by rw [k2]; simp)
      (by rw [k3]; simp [mapOpt, hf])
    have hfor := readBack_for g h.next (h.next + 1) _ (fuel + 1)
      (by rw [k1]; exact Nat.lt_succ_of_lt (Nat.lt_succ_self _))
      (by rw [k2]; simp [For.fresh])
      k4 hblock
    rw [hasb, hfor, k5, k6, k7]

/-! ## The loops of `constructStmt` -/

theorem drop_of_getElem? {α : Type} (l : List α) (i : Nat) (a : α) (h : l[i]? = some a) :
    l.drop i = a :: l.drop (i + 1) := by
  obtain ⟨hi, rfl⟩ := List.getElem?_eq_some.mp h
  exact List.drop_eq_getElem_cons hi

/-- After its first `k` iterations a loop of `constructStmt` has wrapped the
statement in the loops of the last `k` dimensions. -/
theorem wrapDim_loop (vars : List Var) (extents : List Expr) (n : Nat)
    (hv : vars.length = n) (he : extents.length = n) :
    ∀ k, k ≤ n → ∀ (h : Heap) (s : Ptr) (t : Tree), Reads h s t →
      ∃ r, (List.range k).foldlM (wrapDim vars extents n) (s, h) = some r ∧
        h.Extends r.2 ∧
        Reads r.2 r.1 (Tree.nest ((vars.zip extents).drop (n - k)) t) := by
  intro k
  induction k with
  | zero =>
    intro _ h s t hs
    refine ⟨(s, h), by simp, Heap.Extends.refl h, ?_⟩
    have : (vars.zip extents).drop (n - 0) = [] :=
      List.drop_of_length_le (by simp [List.length_zip, hv, he])
    rw [this]
    exact hs
  | succ k ih =>
    intro hk h s t hs
    obtain ⟨r, hr, hext, hreads⟩ := ih (by omega) h s t hs
    obtain ⟨v, hvx⟩ : ∃ v, vars[n - k - 1]? = some v :=
      ⟨_, List.getElem?_eq_getElem (by omega)⟩
    obtain ⟨d, hex⟩ : ∃ d, extents[n - k - 1]? = some d :=
      ⟨_, List.getElem?_eq_getElem (by omega)⟩
    have hstep : wrapDim vars extents n r k =
        some (For.new r.2 (some v) (some (Expr.IntImm 0)) (some d) (some r.1)) := by
      simp [wrapDim, hvx, hex]
    obtain ⟨hext2, hreads2⟩ := For.wrap_reads r.2 (some v)
      (some (Expr.IntImm 0)) (some d) r.1 _ hreads
    refine ⟨_, ?_, hext.trans hext2, ?_⟩
    · rw [List.range_succ, List.foldlM_append, hr]
      simp [hstep]
    · have hz : (vars.zip extents)[n - k - 1]? = some (v, d) :=
        List.getElem?_zip_eq_some.mpr ⟨hvx, hex⟩
      have hdrop : (vars.zip extents).drop (n - (k + 1)) =
          (v, d) :: (vars.zip extents).drop (n - k) := by
        have e2 : n - k = n - k - 1 + 1 := by omega
        rw [e2]
        exact drop_of_getElem? _ _ _ hz
      rw [hdrop]
      exact hreads2

/-! ## Shape of a loop nest -/

theorem Tree.asBody_of_not_block (t : Tree) (ht : t.isBlock = false) :
    t.asBody = Tree.Block [t] := by
  cases t <;> simp_all [Tree.isBlock, Tree.asBody]

theorem Tree.nest_isBlock (l : List (Var × Expr)) (inner : Tree) (hi : inner.isBlock = false) :
    (Tree.nest l inner).isBlock = false := by
  cases l with
  | nil => exact hi
  | cons a l => rfl

theorem Tree.nest_append (l1 l2 : List (Var × Expr)) (inner : Tree) :
    Tree.nest (l1 ++ l2) inner = Tree.nest l1 (Tree.nest l2 inner) := by
  induction l1 with
  | nil => rfl
  | cons a l ih => simp [Tree.nest, ih]

/-- Below `k` loops of a nest around a statement that is not a Block lies the
nest of the remaining loops. -/
theorem Tree.nest_under (inner : Tree) (hi : inner.isBlock = false) :
    ∀ (l : List (Var × Expr)) (k : Nat), k ≤ l.length →
      (Tree.nest l inner).under k = some (Tree.nest (l.drop k) inner) := by
  intro l
  induction l with
  | nil =>
    intro k hk
    have : k = 0 := by simpa using hk
    subst this
    simp [Tree.under]
  | cons a l ih =>
    intro k hk
    cases k with
    | zero => simp [Tree.under]
    | succ k =>
      have hk2 : k ≤ l.length := by simpa using hk
      simp only [Tree.nest, List.drop_succ_cons]
      rw [Tree.asBody_of_not_block _ (Tree.nest_isBlock l inner hi)]
      simp only [Tree.under]
      exact ih k hk2

theorem Tree.nest_chainLength (inner : Tree) (hi : inner.isBlock = false)
    (hc : inner.chainLength = 0) :
    ∀ l : List (Var × Expr), (Tree.nest l inner).chainLength = l.length := by
  intro l
  induction l with
  | nil => simpa [Tree.nest] using hc
  | cons a l ih =>
    simp only [Tree.nest]
    rw [Tree.asBody_of_not_block _ (Tree.nest_isBlock l inner hi)]
    simp [Tree.chainLength, ih]

/-! ## `constructStmt` builds the documented tree -/

/-- Whenever `args` has one variable per buffer dimension and `reduce_args` one
variable per reduction extent, `constructStmt` returns a root that reads back as
`loweredTree`, and keeps every node that was in the arena. -/
theorem constructStmt_reads (t : Tensor) (h : Heap) (args : List Var) (body : Expr)
    (reduce_dims : List Expr) (reduce_args : List Var)
    (hargs : args.length = t.buf.ndim) (hred : reduce_args.length = reduce_dims.length) :
    ∃ r, t.constructStmt h args body reduce_dims reduce_args = some r ∧
      h.Extends r.2 ∧
      Reads r.2 r.1 (t.loweredTree args body reduce_dims reduce_args) := by
  obtain ⟨hse, hsr⟩ := Store.alloc_reads h (some t.buf_) (args.map Expr.Var) (some body)
  have hdims : t.buf.dims.length = t.buf.ndim := rfl
  by_cases h0 : t.buf.ndim = 0 ∧ reduce_dims.length = 0
  · -- no dimension at all: the Store is returned as it is
    have ha : args = [] := List.length_eq_zero.mp (hargs.trans h0.1)
    have hrd : reduce_dims = [] := List.length_eq_zero.mp h0.2
    have hra : reduce_args = [] := List.length_eq_zero.mp (hred.trans h0.2)
    refine ⟨_, by simp only [Tensor.constructStmt, h0, and_self, if_true], hse, ?_⟩
    subst ha hrd hra
    have : t.loweredTree [] body [] [] = Tree.Store (some t.buf) [] (some body) := by
      simp only [Tensor.loweredTree, List.length_nil, gt_iff_lt, Nat.lt_irrefl, if_false,
        List.zip_nil_left, Tree.nest, List.map_nil]
      cases t.buf.initializer <;> rfl
    rw [this]
    exact hsr
  · -- the reduction loops and the seed
    have hreduced : ∃ r2, (if reduce_dims.length > 0 then
          match (List.range reduce_dims.length).foldlM
            (wrapDim reduce_args reduce_dims reduce_dims.length)
            (Store.new h (some t.buf_) (args.map Expr.Var) (some body)) with
          | none => none
          | some sh1 =>
            match t.buf.initializer with
            | some e =>
              some (Block.new (Store.new sh1.2 (some t.buf) (args.map Expr.Var) (some e)).2
                [some (Store.new sh1.2 (some t.buf) (args.map Expr.Var) (some e)).1, some sh1.1])
            | none => some sh1
        else some (Store.new h (some t.buf_) (args.map Expr.Var) (some body))) = some r2 ∧
        h.Extends r2.2 ∧
        Reads r2.2 r2.1
          (match t.buf.initializer with
            | some e =>
              if reduce_dims.length > 0 then
                Tree.Block [Tree.Store (some t.buf) (args.map Expr.Var) (some e),
                  Tree.nest (reduce_args.zip reduce_dims)
                    (Tree.Store (some t.buf) (args.map Expr.Var) (some body))]
              else Tree.nest (reduce_args.zip reduce_dims)
                (Tree.Store (some t.buf) (args.map Expr.Var) (some body))
            | none => Tree.nest (reduce_args.zip reduce_dims)
                (Tree.Store (some t.buf) (args.map Expr.Var) (some body))) := by
      by_cases hm : reduce_dims.length > 0
      · obtain ⟨r1, hr1, hext1, hreads1⟩ := wrapDim_loop reduce_args reduce_dims
          reduce_dims.length hred rfl reduce_dims.length (Nat.le_refl _) _ _ _ hsr
        simp only [Nat.sub_self, List.drop_zero] at hreads1
        simp only [hm, if_true, hr1]
        cases hinit : t.buf.initializer with
        | none => exact ⟨r1, rfl, hse.trans hext1, hreads1⟩
        | some e =>
          obtain ⟨hie, hir⟩ := Store.alloc_reads r1.2 (some t.buf) (args.map Expr.Var) (some e)
          obtain ⟨hbe, hbr⟩ := Block.build_reads
            (Store.new r1.2 (some t.buf) (args.map Expr.Var) (some e)).2
            [(Store.new r1.2 (some t.buf) (args.map Expr.Var) (some e)).1, r1.1] _
            (List.Forall₂.cons hir (List.Forall₂.cons (hreads1.extends hie) List.Forall₂.nil))
          exact ⟨_, rfl, ((hse.trans hext1).trans hie).trans hbe, hbr⟩
      · have hrd : reduce_dims = [] := List.length_eq_zero.mp (by omega)
        have hra : reduce_args = [] := List.length_eq_zero.mp (by rw [hred]; omega)
        subst hrd hra
        simp only [List.length_nil, gt_iff_lt, Nat.lt_irrefl, if_false, List.zip_nil_left,
          Tree.nest]
        refine ⟨_, rfl, hse, ?_⟩
        cases t.buf.initializer <;> exact hsr
    obtain ⟨r2, hr2, hext2, hreads2⟩ := hreduced
    obtain ⟨r3, hr3, hext3, hreads3⟩ := wrapDim_loop args t.buf.dims t.buf.ndim hargs hdims
      t.buf.ndim (Nat.le_refl _) r2.2 r2.1 _ hreads2
    simp only [Nat.sub_self, List.drop_zero] at hreads3
    refine ⟨r3, ?_, hext2.trans hext3, hreads3⟩
    simp only [Tensor.constructStmt, h0, if_false]
    rw [hr2]
    exact hr3

theorem map_some_fst_zip (vars : List Var) (extents : List Expr)
    (hl : vars.length ≤ extents.length) :
    (vars.zip extents).map (fun p => some p.1) = vars.map some := by
  have h1 : (vars.zip extents).map (fun p => some p.1) =
      ((vars.zip extents).map Prod.fst).map some := by
    rw [List.map_map]; rfl
  rw [h1, List.map_fst_zip vars extents hl]

theorem Tree.stores_asBody (t : Tree) (encl : List (Option Var)) :
    t.asBody.stores encl = t.stores encl := by
  cases t <;> simp [Tree.asBody, Tree.stores, Tree.storesList]

theorem Tree.stores_nest (inner : Tree) :
    ∀ (l : List (Var × Expr)) (encl : List (Option Var)),
      (Tree.nest l inner).stores encl = inner.stores (encl ++ l.map (fun p => some p.1)) := by
  intro l
  induction l with
  | nil => intro encl; simp [Tree.nest]
  | cons a l ih =>
    intro encl
    obtain ⟨v, d⟩ := a
    simp only [Tree.nest, Tree.stores, Tree.stores_asBody, ih, List.map_cons, List.append_assoc,
      List.singleton_append]

theorem Tree.nest_under_for (inner : Tree) (hi : inner.isBlock = false)
    (l : List (Var × Expr)) (k : Nat) (v : Var) (d : Expr) (hk : l[k]? = some (v, d)) :
    (Tree.nest l inner).under k =
      some (Tree.For (some v) (some (Expr.IntImm 0)) (some d)
        (Tree.Block [Tree.nest (l.drop (k + 1)) inner])) := by
  have hlt : k < l.length := (List.getElem?_eq_some.mp hk).1
  rw [Tree.nest_under inner hi l k (Nat.le_of_lt hlt), drop_of_getElem? l k (v, d) hk]
  simp only [Tree.nest]
  rw [Tree.asBody_of_not_block _ (Tree.nest_isBlock _ inner hi)]

/-- C1: when `args` has one variable per buffer dimension, `reduce_args` one
variable per reduction extent and the buffer has no initializer, `constructStmt`
returns a root whose tree is the chain of `n + m` loops around
`Store(buf, args, body)`: the `k`-th node of the chain, `k < n`, is the `For` over
`args[k]` from the constant 0 to `buf.dim(k)`, the `(n + j)`-th, `j < m`, is the
`For` over `reduce_args[j]` from 0 to `reduce_dims[j]`, the body of each of them
is a Block with exactly one child, and the `(n + m)`-th node is the Store, which
is the only Store of the tree. -/
theorem constructStmt_loop_nest (t : Tensor) (h : Heap) (args : List Var) (body : Expr)
    (reduce_dims : List Expr) (reduce_args : List Var)
    (hargs : args.length = t.buf.ndim) (hred : reduce_args.length = reduce_dims.length)
    (hinit : t.buf.initializer = none) :
    ∃ root g fuel T,
      t.constructStmt h args body reduce_dims reduce_args = some (root, g) ∧
      readBack g fuel root = some T ∧
      T = Tree.nest (args.zip t.buf.dims ++ reduce_args.zip reduce_dims)
        (Tree.Store (some t.buf) (args.map Expr.Var) (some body)) ∧
      T.chainLength = t.buf.ndim + reduce_dims.length ∧
      (∀ k v d, args[k]? = some v → t.buf.dim k = some d →
        ∃ c, T.under k = some (Tree.For (some v) (some (Expr.IntImm 0)) (some d)
          (Tree.Block [c]))) ∧
      (∀ j v d, reduce_args[j]? = some v → reduce_dims[j]? = some d →
        ∃ c, T.under (t.buf.ndim + j) = some (Tree.For (some v) (some (Expr.IntImm 0)) (some d)
          (Tree.Block [c]))) ∧
      T.under (t.buf.ndim + reduce_dims.length) =
        some (Tree.Store (some t.buf) (args.map Expr.Var) (some body)) ∧
      T.stores [] = [(Tree.Store (some t.buf) (args.map Expr.Var) (some body),
        args.map some ++ reduce_args.map some)] := by
  obtain ⟨r, hr, -, fuel, hfuel⟩ :=
    constructStmt_reads t h args body reduce_dims reduce_args hargs hred
  have hzl : (args.zip t.buf.dims).length = t.buf.ndim := by
    simp [List.length_zip, hargs, Buf.ndim]
  have hzr : (reduce_args.zip reduce_dims).length = reduce_dims.length := by
    simp [List.length_zip, hred]
  have hT : t.loweredTree args body reduce_dims reduce_args =
      Tree.nest (args.zip t.buf.dims ++ reduce_args.zip reduce_dims)
        (Tree.Store (some t.buf) (args.map Expr.Var) (some body)) := by
    simp only [Tensor.loweredTree, hinit, Tree.nest_append, Tensor.reductionNest,
      Tensor.bodyStore]
  have hleaf : (Tree.Store (some t.buf) (args.map Expr.Var) (some body)).isBlock = false := rfl
  refine ⟨r.1, r.2, fuel, _, hr, hfuel, hT, ?_, ?_, ?_, ?_, ?_⟩
  · rw [hT, Tree.nest_chainLength _ hleaf rfl, List.length_append, hzl, hzr]
  · intro k v d hv hd
    have hz : (args.zip t.buf.dims)[k]? = some (v, d) :=
      List.getElem?_zip_eq_some.mpr ⟨hv, hd⟩
    have hlt : k < (args.zip t.buf.dims).length := (List.getElem?_eq_some.mp hz).1
    have hz2 : (args.zip t.buf.dims ++ reduce_args.zip reduce_dims)[k]? = some (v, d) := by
      rw [List.getElem?_append_left hlt]; exact hz
    rw [hT]
    exact ⟨_, Tree.nest_under_for _ hleaf _ k v d hz2⟩
  · intro j v d hv hd
    have hz : (reduce_args.zip reduce_dims)[j]? = some (v, d) :=
      List.getElem?_zip_eq_some.mpr ⟨hv, hd⟩
    have hz2 : (args.zip t.buf.dims ++ reduce_args.zip reduce_dims)[t.buf.ndim + j]?
        = some (v, d) := by
      rw [List.getElem?_append_right (by rw [hzl]; exact Nat.le_add_right _ _), hzl]
      simpa using hz
    rw [hT]
    exact ⟨_, Tree.nest_under_for _ hleaf _ _ v d hz2⟩
  · rw [hT, Tree.nest_under _ hleaf _ _ (by rw [List.length_append, hzl, hzr])]
    have : (args.zip t.buf.dims ++ reduce_args.zip reduce_dims).drop
        (t.buf.ndim + reduce_dims.length) = [] :=
      List.drop_of_length_le (by rw [List.length_append, hzl, hzr])
    rw [this]
    rfl
  · rw [hT, Tree.stores_nest]
    rw [List.map_append, map_some_fst_zip args t.buf.dims (by rw [hargs]; exact Nat.le_refl _),
      map_some_fst_zip reduce_args reduce_dims (by rw [hred])]
    simp [Tree.stores]

/-- Instance of C1: a 4x4 tensor without reduction lowers to two nested loops
with a single Store below both of them. -/
theorem constructStmt_loop_nest_witness :
    ([0, 1] : List Var).length = tensor44.buf.ndim ∧
    tensor44.buf.initializer = none ∧
    (∃ root g fuel T,
      tensor44.constructStmt Heap.empty [0, 1] (Expr.Node 7) [] [] = some (root, g) ∧
      readBack g fuel root = some T ∧
      T = Tree.For (some 0) (some (Expr.IntImm 0)) (some (Expr.IntImm 4))
        (Tree.Block [Tree.For (some 1) (some (Expr.IntImm 0)) (some (Expr.IntImm 4))
          (Tree.Block [Tree.Store (some buf44) [Expr.Var 0, Expr.Var 1] (some (Expr.Node 7))])]) ∧
      T.chainLength = 2 ∧
      T.stores [] = [(Tree.Store (some buf44) [Expr.Var 0, Expr.Var 1] (some (Expr.Node 7)),
        [some 0, some 1])]) := by
  refine ⟨rfl, rfl, ?_⟩
  obtain ⟨root, g, fuel, T, h1, h2, h3, h4, -, -, -, h5⟩ :=
    constructStmt_loop_nest tensor44 Heap.empty [0, 1] (Expr.Node 7) [] [] rfl rfl rfl
  exact ⟨root, g, fuel, T, h1, h2, h3, h4, h5⟩

theorem Tree.asBody_of_block (t : Tree) (ht : t.isBlock = true) : t.asBody = t := by
  cases t <;> simp_all [Tree.isBlock, Tree.asBody]

theorem Tree.nest_under_last (inner : Tree) (hi : inner.isBlock = true)
    (l : List (Var × Expr)) (v : Var) (d : Expr)
    (hlast : l[l.length - 1]? = some (v, d)) :
    (Tree.nest l inner).under (l.length - 1) =
      some (Tree.For (some v) (some (Expr.IntImm 0)) (some d) inner) := by
  have hlt : l.length - 1 < l.length := (List.getElem?_eq_some.mp hlast).1
  have hsplit : l = l.take (l.length - 1) ++ [(v, d)] := by
    have h1 := drop_of_getElem? l (l.length - 1) (v, d) hlast
    have h2 : l.drop (l.length - 1 + 1) = [] := List.drop_of_length_le (by omega)
    rw [h2] at h1
    have h3 := List.take_append_drop (l.length - 1) l
    rw [h1] at h3
    exact h3.symm
  have hlen : (l.take (l.length - 1)).length = l.length - 1 := by
    rw [List.length_take]; omega
  have hasb : inner.asBody = inner := Tree.asBody_of_block inner hi
  have hnest : Tree.nest l inner = Tree.nest (l.take (l.length - 1))
      (Tree.For (some v) (some (Expr.IntImm 0)) (some d) inner) := by
    conv_lhs => rw [hsplit]
    rw [Tree.nest_append]
    simp only [Tree.nest, hasb]
  rw [hnest]
  have := Tree.nest_under (Tree.For (some v) (some (Expr.IntImm 0)) (some d) inner) rfl
    (l.take (l.length - 1)) (l.length - 1) (by rw [hlen])
  rw [this]
  have hd : (l.take (l.length - 1)).drop (l.length - 1) = [] :=
    List.drop_of_length_le (by rw [hlen])
  rw [hd]
  rfl

theorem Tree.blockSizes_nest (inner : Tree) (hi : inner.isBlock = false) :
    ∀ l : List (Var × Expr),
      (Tree.nest l inner).blockSizes = List.replicate l.length 1 ++ inner.blockSizes := by
  intro l
  induction l with
  | nil => simp [Tree.nest]
  | cons a l ih =>
    obtain ⟨v, d⟩ := a
    simp only [Tree.nest]
    rw [Tree.asBody_of_not_block _ (Tree.nest_isBlock l inner hi)]
    simp [Tree.blockSizes, Tree.blockSizesList, ih, List.replicate_succ]

/-- C2: when there is at least one reduction dimension, `constructStmt` returns
a root whose tree is as follows.  With an initializer `e`, the body of the
innermost output loop (the root itself when there is no output dimension) is a
Block with exactly two children, first the seed `Store(buf, args, e)` and second
the outermost reduction `For`; the tree holds exactly two Stores, the seed,
enclosed by the output loops only and so by no reduction loop, and the
accumulating `Store(buf, args, body)`, enclosed by the output and the reduction
loops; so the tree holds exactly one seed Store, and for a `body` other than the
expression `e` it is the only Store whose value is `e`.  Without initializer
there is no seed: the only Store is `Store(buf, args, body)` and every Block has
exactly one child. -/
theorem constructStmt_seed (t : Tensor) (h : Heap) (args : List Var) (body : Expr)
    (reduce_dims : List Expr) (reduce_args : List Var)
    (hargs : args.length = t.buf.ndim) (hred : reduce_args.length = reduce_dims.length)
    (hm : 1 ≤ reduce_dims.length) :
    ∃ root g fuel T,
      t.constructStmt h args body reduce_dims reduce_args = some (root, g) ∧
      readBack g fuel root = some T ∧
      (∀ e, t.buf.initializer = some e →
        T = Tree.nest (args.zip t.buf.dims)
          (Tree.Block [t.seedStore args e, t.reductionNest args body reduce_dims reduce_args]) ∧
        (t.buf.ndim = 0 → T =
          Tree.Block [t.seedStore args e, t.reductionNest args body reduce_dims reduce_args]) ∧
        (∀ v d, args[t.buf.ndim - 1]? = some v → t.buf.dim (t.buf.ndim - 1) = some d →
          T.under (t.buf.ndim - 1) = some (Tree.For (some v) (some (Expr.IntImm 0)) (some d)
            (Tree.Block
              [t.seedStore args e, t.reductionNest args body reduce_dims reduce_args]))) ∧
        (∃ v d c, reduce_args[0]? = some v ∧ reduce_dims[0]? = some d ∧
          t.reductionNest args body reduce_dims reduce_args =
            Tree.For (some v) (some (Expr.IntImm 0)) (some d) (Tree.Block [c])) ∧
        T.stores [] = [(t.seedStore args e, args.map some),
          (t.bodyStore args body, args.map some ++ reduce_args.map some)] ∧
        (e ≠ body →
          (T.stores []).filter (fun x => x.1.isStoreOf e) =
            [(t.seedStore args e, args.map some)])) ∧
      (t.buf.initializer = none →
        T.stores [] = [(t.bodyStore args body, args.map some ++ reduce_args.map some)] ∧
        ∀ k ∈ T.blockSizes, k = 1) := by
  obtain ⟨r, hr, -, fuel, hfuel⟩ :=
    constructStmt_reads t h args body reduce_dims reduce_args hargs hred
  have hzl : (args.zip t.buf.dims).length = t.buf.ndim := by
    simp [List.length_zip, hargs, Buf.ndim]
  have hmapA := map_some_fst_zip args t.buf.dims (by rw [hargs]; exact Nat.le_refl _)
  have hmapR := map_some_fst_zip reduce_args reduce_dims (by rw [hred])
  have hleaf : (t.bodyStore args body).isBlock = false := rfl
  have hredStores : ∀ encl, (t.reductionNest args body reduce_dims reduce_args).stores encl =
      [(t.bodyStore args body, encl ++ reduce_args.map some)] := by
    intro encl
    rw [Tensor.reductionNest, Tree.stores_nest, hmapR]
    rfl
  refine ⟨r.1, r.2, fuel, _, hr, hfuel, ?_, ?_⟩
  · intro e hinit
    have hT : t.loweredTree args body reduce_dims reduce_args =
        Tree.nest (args.zip t.buf.dims) (Tree.Block
          [t.seedStore args e, t.reductionNest args body reduce_dims reduce_args]) := by
      have hpos : reduce_dims.length > 0 := hm
      simp only [Tensor.loweredTree, hinit, hpos, if_true]
    have hstores : (t.loweredTree args body reduce_dims reduce_args).stores [] =
        [(t.seedStore args e, args.map some),
          (t.bodyStore args body, args.map some ++ reduce_args.map some)] := by
      rw [hT, Tree.stores_nest, hmapA]
      simp only [Tree.stores, Tree.storesList, hredStores, List.nil_append, List.append_nil]
      rfl
    refine ⟨hT, ?_, ?_, ?_, hstores, ?_⟩
    · intro hn
      have ha : args = [] := List.length_eq_zero.mp (hargs.trans hn)
      rw [hT, ha]
      rfl
    · intro v d hv hd
      have hz : (args.zip t.buf.dims)[(args.zip t.buf.dims).length - 1]? = some (v, d) := by
        rw [hzl]; exact List.getElem?_zip_eq_some.mpr ⟨hv, hd⟩
      have := Tree.nest_under_last (Tree.Block
        [t.seedStore args e, t.reductionNest args body reduce_dims reduce_args]) rfl _ v d hz
      rw [hzl] at this
      rw [hT]; exact this
    · cases reduce_args with
      | nil => simp at hred; omega
      | cons v ra =>
        cases reduce_dims with
        | nil => simp at hm
        | cons d rd =>
          refine ⟨v, d, Tree.nest (ra.zip rd) (t.bodyStore args body), by simp, by simp, ?_⟩
          have hz : (v :: ra).zip (d :: rd) = (v, d) :: ra.zip rd := rfl
          simp only [Tensor.reductionNest, hz, Tree.nest]
          rw [Tree.asBody_of_not_block _ (Tree.nest_isBlock _ _ hleaf)]
          rfl
    · intro hne
      rw [hstores]
      have h1 : (t.seedStore args e).isStoreOf e = true := by
        simp [Tensor.seedStore, Tree.isStoreOf]
      have h2 : (t.bodyStore args body).isStoreOf e = false := by
        simp [Tensor.bodyStore, Tree.isStoreOf]
        exact fun hbe => hne hbe.symm
      simp [List.filter, h1, h2]
  · intro hinit
    have hT : t.loweredTree args body reduce_dims reduce_args =
        Tree.nest (args.zip t.buf.dims ++ reduce_args.zip reduce_dims)
          (t.bodyStore args body) := by
      simp only [Tensor.loweredTree, hinit, Tree.nest_append, Tensor.reductionNest]
    constructor
    · rw [hT, Tree.stores_nest, List.map_append, hmapA, hmapR]
      rfl
    · intro k hk
      rw [hT, Tree.blockSizes_nest _ hleaf] at hk
      have hb : (t.bodyStore args body).blockSizes = [] := rfl
      rw [hb, List.append_nil] at hk
      exact List.eq_of_mem_replicate hk

/-- Instance of C2: one output dimension, one reduction dimension, the
initializer `Expr.Node 9` and the body `Expr.Node 7`. -/
theorem constructStmt_seed_witness :
    ([0] : List Var).length = tensorInit.buf.ndim ∧
    ([5] : List Var).length = [Expr.IntImm 8].length ∧
    1 ≤ [Expr.IntImm 8].length ∧
    tensorInit.buf.initializer = some (Expr.Node 9) ∧
    (∃ root g fuel T,
      tensorInit.constructStmt Heap.empty [0] (Expr.Node 7) [Expr.IntImm 8] [5]
        = some (root, g) ∧
      readBack g fuel root = some T ∧
      T = Tree.For (some 0) (some (Expr.IntImm 0)) (some (Expr.IntImm 4))
        (Tree.Block [Tree.Store (some bufInit) [Expr.Var 0] (some (Expr.Node 9)),
          Tree.For (some 5) (some (Expr.IntImm 0)) (some (Expr.IntImm 8))
            (Tree.Block [Tree.Store (some bufInit) [Expr.Var 0] (some (Expr.Node 7))])]) ∧
      (T.stores []).filter (fun x => x.1.isStoreOf (Expr.Node 9)) =
        [(Tree.Store (some bufInit) [Expr.Var 0] (some (Expr.Node 9)), [some 0])]) := by
  refine ⟨rfl, rfl, by decide, rfl, ?_⟩
  obtain ⟨root, g, fuel, T, h1, h2, h3, -⟩ :=
    constructStmt_seed tensorInit Heap.empty [0] (Expr.Node 7) [Expr.IntImm 8] [5] rfl rfl
      (by decide)
  obtain ⟨h4, -, -, -, -, h5⟩ := h3 (Expr.Node 9) rfl
  exact ⟨root, g, fuel, T, h1, h2, h4, h5 (by decide)⟩

/-! ## Hardware indices of a loop -/

/-- C19: for an index other than `IDX_UNSET`, `set_gpu_block_index` returns
normally exactly when no thread index is assigned and the block index is unset
or already that index; it then leaves the block index at that index and
nothing else changed, so that a second identical call changes nothing; when it
throws, the object is as it was.  `set_gpu_thread_index` behaves in the same way
with block and thread exchanged. -/
theorem set_gpu_index_rule (o : LoopOptions) (i : Int) (hi : i ≠ LoopOptions.IDX_UNSET) :
    (((o.set_gpu_block_index i).1 = .ok () ↔
        (o.is_gpu_thread_index = false ∧
          (o.is_gpu_block_index = false ∨ o.gpu_block_index = i))) ∧
      ((o.set_gpu_block_index i).1 = .ok () →
        (o.set_gpu_block_index i).2 = { o with gpu_block_index_ := i } ∧
        (o.set_gpu_block_index i).2.set_gpu_block_index i =
          (.ok (), (o.set_gpu_block_index i).2)) ∧
      ((o.set_gpu_block_index i).1 ≠ .ok () → (o.set_gpu_block_index i).2 = o)) ∧
    (((o.set_gpu_thread_index i).1 = .ok () ↔
        (o.is_gpu_block_index = false ∧
          (o.is_gpu_thread_index = false ∨ o.gpu_thread_index = i))) ∧
      ((o.set_gpu_thread_index i).1 = .ok () →
        (o.set_gpu_thread_index i).2 = { o with gpu_thread_index_ := i } ∧
        (o.set_gpu_thread_index i).2.set_gpu_thread_index i =
          (.ok (), (o.set_gpu_thread_index i).2)) ∧
      ((o.set_gpu_thread_index i).1 ≠ .ok () → (o.set_gpu_thread_index i).2 = o)) := by
  obtain ⟨b, t, p, m⟩ := o
  simp only [LoopOptions.IDX_UNSET] at hi
  constructor
  · by_cases ht : t = -1 <;> by_cases hb : b = -1 <;> by_cases hbi : b = i <;>
      simp_all [LoopOptions.set_gpu_block_index, LoopOptions.is_gpu_thread_index,
        LoopOptions.is_gpu_block_index, LoopOptions.gpu_block_index,
        LoopOptions.gpu_thread_index, LoopOptions.IDX_UNSET]
  · by_cases ht : t = -1 <;> by_cases hb : b = -1 <;> by_cases hti : t = i <;>
      simp_all [LoopOptions.set_gpu_thread_index, LoopOptions.is_gpu_thread_index,
        LoopOptions.is_gpu_block_index, LoopOptions.gpu_block_index,
        LoopOptions.gpu_thread_index, LoopOptions.IDX_UNSET]

/-- Instance of C19 on a default-constructed object and the index `IDX_Z`. -/
theorem set_gpu_index_rule_witness :
    LoopOptions.IDX_Z ≠ LoopOptions.IDX_UNSET ∧
    (LoopOptions.default.set_gpu_block_index LoopOptions.IDX_Z).1 = .ok () ∧
    (LoopOptions.default.set_gpu_block_index LoopOptions.IDX_Z).2 =
      { LoopOptions.default with gpu_block_index_ := LoopOptions.IDX_Z } ∧
    ((LoopOptions.default.set_gpu_block_index LoopOptions.IDX_Z).2.set_gpu_thread_index
        LoopOptions.IDX_Z).1 ≠ .ok () ∧
    ((LoopOptions.default.set_gpu_block_index LoopOptions.IDX_Z).2.set_gpu_thread_index
        LoopOptions.IDX_Z).2 = (LoopOptions.default.set_gpu_block_index LoopOptions.IDX_Z).2 :=
  have hi : LoopOptions.IDX_Z ≠ LoopOptions.IDX_UNSET := by decide
  have hok : (LoopOptions.default.set_gpu_block_index LoopOptions.IDX_Z).1 = .ok () :=
    (set_gpu_index_rule LoopOptions.default LoopOptions.IDX_Z hi).1.1.mpr
      ⟨by decide, Or.inl (by decide)⟩
  have hbad : ((LoopOptions.default.set_gpu_block_index LoopOptions.IDX_Z).2.set_gpu_thread_index
      LoopOptions.IDX_Z).1 ≠ .ok () := fun hc =>
    absurd ((set_gpu_index_rule _ LoopOptions.IDX_Z hi).2.1.mp hc).1 (by decide)
  ⟨hi, hok, ((set_gpu_index_rule LoopOptions.default LoopOptions.IDX_Z hi).1.2.1 hok).1, hbad,
    (set_gpu_index_rule _ LoopOptions.IDX_Z hi).2.2.2 hbad⟩

/-- Clearing an axis works when the other axis is unset: the call returns
normally, the axis is unset afterwards and nothing else changed. -/
theorem clear_index_other_unset (o : LoopOptions) :
    (o.is_gpu_thread_index = false →
      o.set_gpu_block_index LoopOptions.IDX_UNSET =
        (.ok (), { o with gpu_block_index_ := LoopOptions.IDX_UNSET })) ∧
    (o.is_gpu_block_index = false →
      o.set_gpu_thread_index LoopOptions.IDX_UNSET =
        (.ok (), { o with gpu_thread_index_ := LoopOptions.IDX_UNSET })) := by
  obtain ⟨b, t, p, m⟩ := o
  constructor <;> intro h <;>
    simp_all [LoopOptions.set_gpu_block_index, LoopOptions.set_gpu_thread_index,
      LoopOptions.is_gpu_thread_index, LoopOptions.is_gpu_block_index,
      LoopOptions.gpu_block_index, LoopOptions.gpu_thread_index, LoopOptions.IDX_UNSET]

/-- C20 does not hold of the code.  After `set_gpu_thread_index(0)` on a
default-constructed object, `set_gpu_block_index(IDX_UNSET)` throws
`std::runtime_error`; after `set_gpu_block_index(0)`,
`set_gpu_thread_index(IDX_UNSET)` throws as well.  The object is left as it
was. -/
theorem clear_index_other_set_throws :
    LoopOptions.run [LoopOptions.Call.thread 0] =
      { LoopOptions.default with gpu_thread_index_ := 0 } ∧
    (LoopOptions.run [LoopOptions.Call.thread 0]).set_gpu_block_index LoopOptions.IDX_UNSET =
      (.error .runtime_error, LoopOptions.run [LoopOptions.Call.thread 0]) ∧
    LoopOptions.run [LoopOptions.Call.block 0] =
      { LoopOptions.default with gpu_block_index_ := 0 } ∧
    (LoopOptions.run [LoopOptions.Call.block 0]).set_gpu_thread_index LoopOptions.IDX_UNSET =
      (.error .runtime_error, LoopOptions.run [LoopOptions.Call.block 0]) :=
  ⟨by decide, rfl, by decide, rfl⟩

/-! ## `getEnclosedRoot` -/

/-- C11: when the parent chain of `s` ends, `B.getEnclosedRoot(s)` returns, given
enough iterations.  A non-null result is the first node of the chain
`s, parent(s), ...` whose parent is `B`: its parent is `B`, it lies on the
chain, and no node before it on the chain has parent `B`; it is `s` when `s` is
a direct child of `B`.  The result is null exactly when no node of the chain
has parent `B`. -/
theorem getEnclosedRoot_first (h : Heap) (B : Ptr) (fuel : Nat) :
    ∀ (n : Nat) (s : Ptr), nthParent h n (some s) = none → n ≤ fuel →
      ∃ r, Block.getEnclosedRoot h B fuel (some s) = some r ∧
        (r = none ↔ ∀ k q, nthParent h k (some s) = some q → get_parent h q ≠ some B) ∧
        (∀ q, r = some q →
          get_parent h q = some B ∧
          ∃ k, nthParent h k (some s) = some q ∧
            ∀ j c, j < k → nthParent h j (some s) = some c → get_parent h c ≠ some B) ∧
        (get_parent h s = some B → r = some s) := by
  induction fuel with
  | zero =>
    intro n s hn hle
    have hn0 : n = 0 := by omega
    subst hn0
    simp [nthParent] at hn
  | succ fuel ih =>
    intro n s hn hle
    cases n with
    | zero => simp [nthParent] at hn
    | succ n =>
      simp only [nthParent] at hn
      by_cases hs : get_parent h s = some B
      · refine ⟨some s, by simp [Block.getEnclosedRoot, hs], ?_, ?_, fun _ => rfl⟩
        · constructor
          · intro hr; simp at hr
          · intro hall; exact absurd hs (hall 0 s rfl)
        · intro q hq
          simp only [Option.some.injEq] at hq
          subst hq
          exact ⟨hs, 0, rfl, fun j c hj => by omega⟩
      · have hstep : Block.getEnclosedRoot h B (fuel + 1) (some s) =
            Block.getEnclosedRoot h B fuel (get_parent h s) := by
          simp [Block.getEnclosedRoot, hs]
        cases hp : get_parent h s with
        | none =>
          refine ⟨none, by rw [hstep, hp]; cases fuel <;> rfl, ?_, ?_,
            fun hc => absurd (hp.trans hc) hs⟩
          · refine ⟨fun _ k q hk => ?_, fun _ => rfl⟩
            cases k with
            | zero =>
              simp only [nthParent, Option.some.injEq] at hk
              subst hk; exact hs
            | succ k => simp [nthParent, hp, nthParent_none] at hk
          · intro q hq; simp at hq
        | some p =>
          rw [hp] at hn
          obtain ⟨r, hr, hnone, hsome, -⟩ := ih n p hn (by omega)
          refine ⟨r, by rw [hstep, hp]; exact hr, ?_, ?_, fun hc => absurd (hp.trans hc) hs⟩
          · constructor
            · intro hrn k q hk
              cases k with
              | zero =>
                simp only [nthParent, Option.some.injEq] at hk
                subst hk; exact hs
              | succ k =>
                simp only [nthParent, hp] at hk
                exact hnone.mp hrn k q hk
            · intro hall
              apply hnone.mpr
              intro k q hk
              exact hall (k + 1) q (by simpa [nthParent, hp] using hk)
          · intro q hq
            obtain ⟨hqB, k, hk, hmin⟩ := hsome q hq
            refine ⟨hqB, k + 1, by simpa [nthParent, hp] using hk, ?_⟩
            intro j c hj hjc
            cases j with
            | zero =>
              simp only [nthParent, Option.some.injEq] at hjc
              subst hjc; exact hs
            | succ j =>
              simp only [nthParent, hp] at hjc
              exact hmin j c (by omega) hjc

/-- Instance of C11 on the sample arena: the Store `1` is a direct child of
Block `0`. -/
theorem getEnclosedRoot_first_witness :
    nthParent sampleHeap 2 (some 1) = none ∧
    ∃ r, Block.getEnclosedRoot sampleHeap 0 2 (some 1) = some r ∧
      (r = none ↔
        ∀ k q, nthParent sampleHeap k (some 1) = some q → get_parent sampleHeap q ≠ some 0) ∧
      (∀ q, r = some q →
        get_parent sampleHeap q = some 0 ∧
        ∃ k, nthParent sampleHeap k (some 1) = some q ∧
          ∀ j c, j < k → nthParent sampleHeap j (some 1) = some c →
            get_parent sampleHeap c ≠ some 0) ∧
      (get_parent sampleHeap 1 = some 0 → r = some 1) :=
  have hn : nthParent sampleHeap 2 (some 1) = none := by decide
  ⟨hn, getEnclosedRoot_first sampleHeap 0 2 2 1 hn (Nat.le_refl 2)⟩

/-! ## Lowering without loops and without reduction -/

/-- C17: with no output dimension and no reduction dimension, `constructStmt`
returns one freshly allocated node, which is a Store with an empty index list,
the value `body`, the buffer of the tensor and a null parent, whatever the
initializer of the buffer is. -/
theorem constructStmt_scalar (t : Tensor) (h : Heap) (args : List Var) (body : Expr)
    (reduce_args : List Var) (hargs : args.length = t.buf.ndim) (hn : t.buf.ndim = 0) :
    ∃ g, t.constructStmt h args body [] reduce_args = some (h.next, g) ∧
      g.kind h.next = some StmtKind.Store ∧
      g.indices_ h.next = [] ∧
      g.value_ h.next = some body ∧
      g.buf_ h.next = some t.buf ∧
      get_parent g h.next = none ∧
      readBack g 1 h.next = some (Tree.Store (some t.buf) [] (some body)) := by
  have ha : args = [] := List.length_eq_zero.mp (hargs.trans hn)
  subst ha
  refine ⟨(Store.new h (some t.buf_) [] (some body)).2, ?_, ?_, ?_, ?_, ?_, ?_, ?_⟩
  · simp [Tensor.constructStmt, hn, Store.new]
  all_goals simp [Store.new, get_parent, readBack, Tensor.buf]

/-- Instance of C17: a tensor without dimensions whose buffer carries an
initializer. -/
theorem constructStmt_scalar_witness :
    ([] : List Var).length = tensorScalar.buf.ndim ∧ tensorScalar.buf.ndim = 0 ∧
    ∃ g, tensorScalar.constructStmt Heap.empty [] (Expr.Node 7) [] [] = some (0, g) ∧
      g.kind 0 = some StmtKind.Store ∧ g.indices_ 0 = [] ∧
      g.value_ 0 = some (Expr.Node 7) ∧ g.buf_ 0 = some tensorScalar.buf ∧
      get_parent g 0 = none := by
  refine ⟨rfl, rfl, ?_⟩
  obtain ⟨g, h1, h2, h3, h4, h5, h6, -⟩ :=
    constructStmt_scalar tensorScalar Heap.empty [] (Expr.Node 7) [] rfl rfl
  exact ⟨g, h1, h2, h3, h4, h5, h6⟩

theorem Tree.eraseBuf_asBody (t : Tree) : t.asBody.eraseBuf = t.eraseBuf.asBody := by
  cases t <;> simp [Tree.asBody, Tree.eraseBuf, Tree.eraseBufList]

theorem Tree.eraseBuf_nest (inner : Tree) :
    ∀ l : List (Var × Expr), (Tree.nest l inner).eraseBuf = Tree.nest l inner.eraseBuf := by
  intro l
  induction l with
  | nil => rfl
  | cons a l ih =>
    obtain ⟨v, d⟩ := a
    simp only [Tree.nest, Tree.eraseBuf, Tree.eraseBuf_asBody, ih]

theorem loweredTree_no_reduction (t : Tensor) (args : List Var) (body : Expr) :
    t.loweredTree args body [] [] = Tree.nest (args.zip t.buf.dims) (t.bodyStore args body) := by
  simp only [Tensor.loweredTree, Tensor.reductionNest, List.zip_nil_left, Tree.nest,
    List.length_nil, gt_iff_lt, Nat.lt_irrefl, if_false]
  cases t.buf.initializer <;> rfl

/-- C18: with no reduction dimension, `constructStmt` returns the plain loop
nest over the output dimensions around `Store(buf, args, body)`, with or without
an initializer on the buffer.  That Store is the only Store of the tree, so no
seed Store of the initializer is added (no Store has the value of an
initializer `e` other than `body`), and every Block has exactly one child; the
tree of the same tensor with any other initializer, or none, differs at most in
the buffer handle of the Store. -/
theorem constructStmt_no_reduction (t : Tensor) (h : Heap) (args : List Var) (body : Expr)
    (hargs : args.length = t.buf.ndim) :
    ∃ root g fuel T,
      t.constructStmt h args body [] [] = some (root, g) ∧
      readBack g fuel root = some T ∧
      T = Tree.nest (args.zip t.buf.dims) (t.bodyStore args body) ∧
      T.chainLength = t.buf.ndim ∧
      T.stores [] = [(t.bodyStore args body, args.map some)] ∧
      (∀ k ∈ T.blockSizes, k = 1) ∧
      (∀ e, t.buf.initializer = some e → e ≠ body →
        (T.stores []).filter (fun x => x.1.isStoreOf e) = []) ∧
      (∀ e : Option Expr, ∃ root2 g2 fuel2 T2,
        (t.withInitializer e).constructStmt h args body [] [] = some (root2, g2) ∧
        readBack g2 fuel2 root2 = some T2 ∧
        T2.eraseBuf = T.eraseBuf) := by
  obtain ⟨r, hr, -, fuel, hfuel⟩ := constructStmt_reads t h args body [] [] hargs rfl
  rw [loweredTree_no_reduction] at hfuel
  have hleaf : (t.bodyStore args body).isBlock = false := rfl
  have hzl : (args.zip t.buf.dims).length = t.buf.ndim := by
    simp [List.length_zip, hargs, Buf.ndim]
  have hstores : (Tree.nest (args.zip t.buf.dims) (t.bodyStore args body)).stores [] =
      [(t.bodyStore args body, args.map some)] := by
    rw [Tree.stores_nest, map_some_fst_zip args t.buf.dims (by rw [hargs]; exact Nat.le_refl _)]
    rfl
  refine ⟨r.1, r.2, fuel, _, hr, hfuel, rfl, ?_, hstores, ?_, ?_, ?_⟩
  · rw [Tree.nest_chainLength _ hleaf rfl, hzl]
  · intro k hk
    rw [Tree.blockSizes_nest _ hleaf] at hk
    have hb : (t.bodyStore args body).blockSizes = [] := rfl
    rw [hb, List.append_nil] at hk
    exact List.eq_of_mem_replicate hk
  · intro e _ hne
    rw [hstores]
    have h2 : (t.bodyStore args body).isStoreOf e = false := by
      simp [Tensor.bodyStore, Tree.isStoreOf]
      exact fun hbe => hne hbe.symm
    simp [List.filter, h2]
  · intro e
    obtain ⟨r2, hr2, -, fuel2, hfuel2⟩ :=
      constructStmt_reads (t.withInitializer e) h args body [] [] hargs rfl
    rw [loweredTree_no_reduction] at hfuel2
    refine ⟨r2.1, r2.2, fuel2, _, hr2, hfuel2, ?_⟩
    rw [Tree.eraseBuf_nest, Tree.eraseBuf_nest]
    rfl

/-- Instance of C18: one output dimension, no reduction, on a buffer that
carries the initializer `Expr.Node 9`. -/
theorem constructStmt_no_reduction_witness :
    ([0] : List Var).length = tensorInit.buf.ndim ∧
    tensorInit.buf.initializer = some (Expr.Node 9) ∧
    ∃ root g fuel T,
      tensorInit.constructStmt Heap.empty [0] (Expr.Node 7) [] [] = some (root, g) ∧
      readBack g fuel root = some T ∧
      T = Tree.For (some 0) (some (Expr.IntImm 0)) (some (Expr.IntImm 4))
        (Tree.Block [Tree.Store (some bufInit) [Expr.Var 0] (some (Expr.Node 7))]) ∧
      (T.stores []).filter (fun x => x.1.isStoreOf (Expr.Node 9)) = [] := by
  refine ⟨rfl, rfl, ?_⟩
  obtain ⟨root, g, fuel, T, h1, h2, h3, -, -, -, h4, -⟩ :=
    constructStmt_no_reduction tensorInit Heap.empty [0] (Expr.Node 7) rfl
  exact ⟨root, g, fuel, T, h1, h2, h3, h4 (Expr.Node 9) rfl (by decide)⟩

/-! ## `clear`, `init` and `set_stmts` -/

theorem Block.init_parent (this : Ptr) (l : List (Option Ptr)) :
    ∀ (h : Heap) (s : Ptr), (Block.init h this l).parent_ s =
      if some s ∈ l ∧ h.parent_ s = none then some this else h.parent_ s := by
  induction l with
  | nil => intro h s; simp [Block.init]
  | cons o l ih =>
    intro h s
    cases o with
    | none =>
      have e : Block.init h this (none :: l) = Block.init h this l := rfl
      rw [e, ih h s]
      simp
    | some x =>
      have hstep : Block.init h this (some x :: l) =
          Block.init
            (put_stmts (if (get_parent h x).isSome then h else set_parent h x (some this)) this
              ((if (get_parent h x).isSome then h else set_parent h x (some this)).stmts_ this
                ++ [x])) this l := rfl
      rw [hstep, ih]
      by_cases hp : (get_parent h x).isSome = true
      · have hx : h.parent_ x ≠ none := Option.isSome_iff_ne_none.mp hp
        simp only [hp, if_true, put_stmts_parent]
        by_cases hsx : s = x
        · subst hsx; simp [hx]
        · simp [hsx]
      · have hx : h.parent_ x = none := by
          simpa [get_parent] using hp
        simp only [hp, if_false, Bool.false_eq_true, put_stmts_parent, set_parent_parent]
        by_cases hsx : s = x
        · subst hsx; simp [hx]
        · simp [hsx]

theorem Block.init_stmts (this : Ptr) (l : List (Option Ptr)) (h : Heap) :
    (Block.init h this l).stmts_ = Function.update h.stmts_ this (h.stmts_ this ++ l.filterMap id) := by
  have := (Heap.skeleton_fields (Block.init_skeleton this l h)).2.2.1
  simpa [put_stmts] using this

theorem Block.clear_eq (h : Heap) (this : Ptr) :
    Block.clear h this =
      put_stmts { h with parent_ := fun t => if t ∈ h.stmts_ this then none else h.parent_ t }
        this [] := by
  simp only [Block.clear, foldl_set_parent]

/-- What `set_stmts` does in any arena: after `B.set_stmts(list)` the child list
of `B` is the list of the non-null entries of `list`, in order; every former child that
is not in `list` has a null parent; every listed statement that was a child of
`B` or had no parent has parent `B`, while a listed statement that had another
parent keeps it; and no other parent changes.  `clear` alone leaves `B` empty
and every former child with a null parent. -/
theorem set_stmts_spec (h : Heap) (B : Ptr) (l : List (Option Ptr)) :
    (Block.set_stmts h B l).stmts_ B = l.filterMap id ∧
    (∀ c ∈ h.stmts_ B, some c ∉ l → get_parent (Block.set_stmts h B l) c = none) ∧
    (∀ s, some s ∈ l → (s ∈ h.stmts_ B ∨ get_parent h s = none) →
      get_parent (Block.set_stmts h B l) s = some B) ∧
    (∀ s, some s ∈ l → s ∉ h.stmts_ B → get_parent h s ≠ none →
      get_parent (Block.set_stmts h B l) s = get_parent h s) ∧
    (∀ t, t ∉ h.stmts_ B → some t ∉ l →
      get_parent (Block.set_stmts h B l) t = get_parent h t) ∧
    ((Block.clear h B).stmts_ B = [] ∧
      ∀ c ∈ h.stmts_ B, get_parent (Block.clear h B) c = none) := by
  have hpar : ∀ s, get_parent (Block.set_stmts h B l) s =
      if some s ∈ l ∧ (if s ∈ h.stmts_ B then none else h.parent_ s) = none then some B
      else (if s ∈ h.stmts_ B then none else h.parent_ s) := by
    intro s
    simp only [get_parent, Block.set_stmts, Block.init_parent, Block.clear_eq, put_stmts_parent]
  refine ⟨?_, ?_, ?_, ?_, ?_, ?_, ?_⟩
  · simp [Block.set_stmts, Block.init_stmts, Block.clear_eq]
  · intro c hc hl
    rw [hpar]; simp [hc, hl]
  · intro s hs hor
    rw [hpar]
    rcases hor with hm | hn
    · simp [hs, hm]
    · by_cases hm : s ∈ h.stmts_ B
      · simp [hs, hm]
      · have : h.parent_ s = none := hn
        simp [hs, hm, this]
  · intro s hs hm hn
    rw [hpar]
    have : ¬ h.parent_ s = none := hn
    simp [hm, this, get_parent]
  · intro t hm hl
    rw [hpar]; simp [hm, hl, get_parent]
  · simp [Block.clear_eq]
  · intro c hc
    simp [Block.clear_eq, get_parent, hc]

/-- C13 does not hold of the code.  In the sample arena the Store `1` is a child
of Block `0`.  `set_stmts({1})` on the empty Block `4` runs `Block::init`, which
pushes `1` without adopting it: the child list of Block `4` is `[1]`, but the
parent of `1` is still Block `0`, whose child list still holds it. -/
theorem set_stmts_keeps_foreign_parent :
    get_parent sampleHeap 1 = some 0 ∧
    (Block.set_stmts sampleHeap 4 [some 1]).stmts_ 4 = [1] ∧
    get_parent (Block.set_stmts sampleHeap 4 [some 1]) 1 = some 0 ∧
    get_parent (Block.set_stmts sampleHeap 4 [some 1]) 1 ≠ some 4 ∧
    (Block.set_stmts sampleHeap 4 [some 1]).stmts_ 0 = [1, 2] ∧
    (Block.append_stmt sampleHeap 4 1).1 = .error .malformed_input :=
  ⟨by decide, by decide, by decide, by decide, by decide, rfl⟩

/-! ## Well-formed blocks stay well-formed -/

theorem insertAt_perm (l : List Ptr) (pos : Nat) (s : Ptr) : (insertAt l pos s).Perm (s :: l) := by
  have h1 : (l.take pos ++ s :: l.drop pos).Perm (s :: (l.take pos ++ l.drop pos)) :=
    List.perm_middle
  rw [List.take_append_drop] at h1
  exact h1

theorem wf_not_mem (h : Heap) (B s : Ptr) (hB : WellFormed h B) (hs : get_parent h s = none) :
    s ∉ h.stmts_ B := by
  intro hm
  have := hB.1 s hm
  rw [hs] at this
  cases this

/-- Attaching a parentless statement anywhere in the list keeps a well-formed
Block well-formed. -/
theorem wf_attach (h : Heap) (B s : Ptr) (l2 : List Ptr) (hB : WellFormed h B)
    (hs : get_parent h s = none) (hperm : l2.Perm (s :: h.stmts_ B)) :
    WellFormed (set_parent (put_stmts h B l2) s (some B)) B ∧
    RemovedDetached h (set_parent (put_stmts h B l2) s (some B)) B := by
  have hnot : s ∉ h.stmts_ B := wf_not_mem h B s hB hs
  have hst : (set_parent (put_stmts h B l2) s (some B)).stmts_ B = l2 := by simp
  refine ⟨⟨?_, ?_⟩, ?_⟩
  · intro c hc
    rw [hst] at hc
    have hc2 := hperm.mem_iff.mp hc
    simp only [get_parent, set_parent_parent, put_stmts_parent]
    by_cases hcs : c = s
    · simp [hcs]
    · rw [if_neg hcs]
      rcases List.mem_cons.mp hc2 with h1 | h1
      · exact absurd h1 hcs
      · exact hB.1 c h1
  · rw [hst]
    exact hperm.nodup_iff.mpr (List.nodup_cons.mpr ⟨hnot, hB.2⟩)
  · intro c hc hnc
    rw [hst] at hnc
    exact absurd (hperm.mem_iff.mpr (List.mem_cons_of_mem _ hc)) hnc

theorem replace_stmt_found (h : Heap) (B old new : Ptr) (hn : get_parent h new = none)
    (pre post : List Ptr) (hl : h.stmts_ B = pre ++ old :: post) (hpre : old ∉ pre) :
    Block.replace_stmt h B old new =
      (.ok true, set_parent (set_parent (put_stmts h B (pre ++ new :: post)) old none) new
        (some B)) := by
  have hp : (get_parent h new).isSome = false := by simp [hn]
  have hfind : find (h.stmts_ B) old = pre.length := by
    rw [hl]; exact find_append_cons pre post old hpre
  have hne : ¬ pre.length = (h.stmts_ B).length := by rw [hl]; simp
  have hlt : pre.length < (h.stmts_ B).length := by rw [hl]; simp
  have hset : eraseAt (insertAt (h.stmts_ B) pre.length new) (pre.length + 1) =
      pre ++ new :: post := by
    rw [replace_list _ _ _ hlt, hl]; simp
  simp only [Block.replace_stmt, hp, hfind, hne, if_false, Bool.false_eq_true]
  congr 2
  apply Heap.ext <;> first | rfl | skip
  funext c
  simp only [put_stmts, Function.update_apply]
  by_cases hc : c = B
  · simp [hc, hset]
  · simp [hc]

theorem remove_stmt_found (h : Heap) (B s : Ptr)
    (pre post : List Ptr) (hl : h.stmts_ B = pre ++ s :: post) (hpre : s ∉ pre) :
    Block.remove_stmt h B s = (.ok true, put_stmts (set_parent h s none) B (pre ++ post)) := by
  have hfind : find (h.stmts_ B) s = pre.length := by
    rw [hl]; exact find_append_cons pre post s hpre
  have hne : ¬ pre.length = (h.stmts_ B).length := by rw [hl]; simp
  have herase : eraseAt (h.stmts_ B) pre.length = pre ++ post := by
    rw [hl]
    simp [eraseAt, List.eraseIdx_append_of_length_le]
  simp only [Block.remove_stmt, hfind, hne, if_false, set_parent_stmts, herase]

theorem split_nodup (l : List Ptr) (x : Ptr) (hx : x ∈ l) (hn : l.Nodup) :
    ∃ pre post, l = pre ++ x :: post ∧ x ∉ pre ∧ x ∉ post ∧ (pre ++ post).Nodup := by
  obtain ⟨pre, post, rfl⟩ := List.append_of_mem hx
  have h1 : (x :: (pre ++ post)).Nodup := List.perm_middle.nodup_iff.mp hn
  have h2 := List.nodup_cons.mp h1
  refine ⟨pre, post, rfl, ?_, ?_, h2.2⟩
  · exact fun hm => h2.1 (List.mem_append_left _ hm)
  · exact fun hm => h2.1 (List.mem_append_right _ hm)

/-- C14: let `B` be well-formed, every child having parent `B` and no child
being listed twice.  After each of `append_stmt`, `prepend_stmt`,
`insert_stmt_before`, `insert_stmt_after`, `replace_stmt` and `remove_stmt` that
returns without throwing, after `clear`, and after `splice` from a distinct
well-formed block at any position, `B` is well-formed again and every statement
that left the child list of `B` has a null parent. -/
theorem wellFormed_preserved (h : Heap) (B : Ptr) (hB : WellFormed h B) :
    (∀ s, (Block.append_stmt h B s).1 = .ok () →
      WellFormed (Block.append_stmt h B s).2 B ∧
      RemovedDetached h (Block.append_stmt h B s).2 B) ∧
    (∀ s, (Block.prepend_stmt h B s).1 = .ok () →
      WellFormed (Block.prepend_stmt h B s).2 B ∧
      RemovedDetached h (Block.prepend_stmt h B s).2 B) ∧
    (∀ s anchor, (Block.insert_stmt_before h B s anchor).1 = .ok () →
      WellFormed (Block.insert_stmt_before h B s anchor).2 B ∧
      RemovedDetached h (Block.insert_stmt_before h B s anchor).2 B) ∧
    (∀ s anchor, (Block.insert_stmt_after h B s anchor).1 = .ok () →
      WellFormed (Block.insert_stmt_after h B s anchor).2 B ∧
      RemovedDetached h (Block.insert_stmt_after h B s anchor).2 B) ∧
    (∀ old new r, (Block.replace_stmt h B old new).1 = .ok r →
      WellFormed (Block.replace_stmt h B old new).2 B ∧
      RemovedDetached h (Block.replace_stmt h B old new).2 B) ∧
    (∀ s r, (Block.remove_stmt h B s).1 = .ok r →
      WellFormed (Block.remove_stmt h B s).2 B ∧
      RemovedDetached h (Block.remove_stmt h B s).2 B) ∧
    (WellFormed (Block.clear h B) B ∧ RemovedDetached h (Block.clear h B) B) ∧
    (∀ other it, other ≠ B → WellFormed h other →
      WellFormed (Block.splice h B it other) B ∧
      RemovedDetached h (Block.splice h B it other) B) := by
  have hsame : WellFormed h B ∧ RemovedDetached h h B :=
    ⟨hB, fun c hc hnc => absurd hc hnc⟩
  refine ⟨?_, ?_, ?_, ?_, ?_, ?_, ?_, ?_⟩
  · intro s hok
    by_cases hp : (get_parent h s).isSome = true
    · simp [Block.append_stmt, hp] at hok
    · have hs : get_parent h s = none := by simpa using hp
      simp only [Block.append_stmt, hp, if_false, Bool.false_eq_true]
      exact wf_attach h B s _ hB hs List.perm_append_comm
  · intro s hok
    by_cases hp : (get_parent h s).isSome = true
    · simp [Block.prepend_stmt, hp] at hok
    · have hs : get_parent h s = none := by simpa using hp
      simp only [Block.prepend_stmt, hp, if_false, Bool.false_eq_true]
      exact wf_attach h B s _ hB hs (List.Perm.refl _)
  · intro s anchor hok
    by_cases hp : (get_parent h s).isSome = true
    · simp [Block.insert_stmt_before, hp] at hok
    · have hs : get_parent h s = none := by simpa using hp
      by_cases hf : find (h.stmts_ B) anchor = (h.stmts_ B).length
      · simp [Block.insert_stmt_before, hp, hf] at hok
      · simp only [Block.insert_stmt_before, hp, hf, if_false, Bool.false_eq_true]
        exact wf_attach h B s _ hB hs (insertAt_perm _ _ _)
  · intro s anchor hok
    by_cases hp : (get_parent h s).isSome = true
    · simp [Block.insert_stmt_after, hp] at hok
    · have hs : get_parent h s = none := by simpa using hp
      by_cases hf : find (h.stmts_ B) anchor = (h.stmts_ B).length
      · simp [Block.insert_stmt_after, hp, hf] at hok
      · simp only [Block.insert_stmt_after, hp, hf, if_false, Bool.false_eq_true]
        exact wf_attach h B s _ hB hs (insertAt_perm _ _ _)
  · intro old new r hok
    by_cases hp : (get_parent h new).isSome = true
    · simp [Block.replace_stmt, hp] at hok
    · have hn : get_parent h new = none := by simpa using hp
      by_cases hmem : old ∈ h.stmts_ B
      · obtain ⟨pre, post, hl, hpre, hpost, hnd⟩ := split_nodup _ old hmem hB.2
        have hnew : new ∉ h.stmts_ B := wf_not_mem h B new hB hn
        have hon : old ≠ new := fun e => hnew (e ▸ hmem)
        have hnpp : new ∉ pre ++ post := by
          intro hm
          apply hnew
          rw [hl]
          rcases List.mem_append.mp hm with h1 | h1
          · exact List.mem_append_left _ h1
          · exact List.mem_append_right _ (List.mem_cons_of_mem _ h1)
        rw [replace_stmt_found h B old new hn pre post hl hpre]
        refine ⟨⟨?_, ?_⟩, ?_⟩
        · intro c hc
          have hc2 : c ∈ pre ++ new :: post := by simpa using hc
          simp only [get_parent, set_parent_parent, put_stmts_parent]
          by_cases hcn : c = new
          · simp [hcn]
          · have hcpp : c ∈ pre ++ post := by
              rcases List.mem_append.mp hc2 with h1 | h1
              · exact List.mem_append_left _ h1
              · rcases List.mem_cons.mp h1 with h2 | h2
                · exact absurd h2 hcn
                · exact List.mem_append_right _ h2
            have hco : c ≠ old := by
              rintro rfl
              rcases List.mem_append.mp hcpp with h1 | h1
              · exact hpre h1
              · exact hpost h1
            have hcl : c ∈ h.stmts_ B := by
              rw [hl]
              rcases List.mem_append.mp hcpp with h1 | h1
              · exact List.mem_append_left _ h1
              · exact List.mem_append_right _ (List.mem_cons_of_mem _ h1)
            rw [if_neg hcn, if_neg hco]
            exact hB.1 c hcl
        · have : (set_parent (set_parent (put_stmts h B (pre ++ new :: post)) old none) new
              (some B)).stmts_ B = pre ++ new :: post := by simp
          rw [this]
          exact List.perm_middle.nodup_iff.mpr (List.nodup_cons.mpr ⟨hnpp, hnd⟩)
        · intro c hc hnc
          have hnc2 : c ∉ pre ++ new :: post := by simpa using hnc
          have hco : c = old := by
            rw [hl] at hc
            rcases List.mem_append.mp hc with h1 | h1
            · exact absurd (List.mem_append_left _ h1) hnc2
            · rcases List.mem_cons.mp h1 with h2 | h2
              · exact h2
              · exact absurd (List.mem_append_right _ (List.mem_cons_of_mem _ h2)) hnc2
          subst hco
          simp [get_parent, hon]
      · have hfind : find (h.stmts_ B) old = (h.stmts_ B).length :=
          List.indexOf_eq_length.mpr hmem
        have hres : Block.replace_stmt h B old new = (.ok false, h) := by
          simp [Block.replace_stmt, hp, hfind]
        rw [hres]
        exact hsame
  · intro s r _
    by_cases hmem : s ∈ h.stmts_ B
    · obtain ⟨pre, post, hl, hpre, hpost, hnd⟩ := split_nodup _ s hmem hB.2
      rw [remove_stmt_found h B s pre post hl hpre]
      have hst : (put_stmts (set_parent h s none) B (pre ++ post)).stmts_ B = pre ++ post := by
        simp
      refine ⟨⟨?_, by rw [hst]; exact hnd⟩, ?_⟩
      · intro c hc
        rw [hst] at hc
        have hcs : c ≠ s := by
          rintro rfl
          rcases List.mem_append.mp hc with h1 | h1
          · exact hpre h1
          · exact hpost h1
        have hcl : c ∈ h.stmts_ B := by
          rw [hl]
          rcases List.mem_append.mp hc with h1 | h1
          · exact List.mem_append_left _ h1
          · exact List.mem_append_right _ (List.mem_cons_of_mem _ h1)
        simp only [get_parent, put_stmts_parent, set_parent_parent, if_neg hcs]
        exact hB.1 c hcl
      · intro c hc hnc
        rw [hst] at hnc
        have hcs : c = s := by
          rw [hl] at hc
          rcases List.mem_append.mp hc with h1 | h1
          · exact absurd (List.mem_append_left _ h1) hnc
          · rcases List.mem_cons.mp h1 with h2 | h2
            · exact h2
            · exact absurd (List.mem_append_right _ h2) hnc
        subst hcs
        simp [get_parent]
    · have hfind : find (h.stmts_ B) s = (h.stmts_ B).length :=
        List.indexOf_eq_length.mpr hmem
      have hres : Block.remove_stmt h B s = (.ok false, h) := by
        simp [Block.remove_stmt, hfind]
      rw [hres]
      exact hsame
  · rw [Block.clear_eq]
    refine ⟨⟨?_, ?_⟩, ?_⟩
    · intro c hc; simp at hc
    · simp
    · intro c hc _
      simp [get_parent, hc]
  · intro other it hne hO
    have hdisj : ∀ c, c ∈ h.stmts_ other → c ∉ h.stmts_ B := by
      intro c hc hcB
      have h1 := hO.1 c hc
      have h2 := hB.1 c hcB
      rw [h1] at h2
      exact hne (Option.some.inj h2)
    have hst : (Block.splice h B it other).stmts_ B =
        (h.stmts_ B).take it ++ h.stmts_ other ++ (h.stmts_ B).drop it := by
      simp [Block.splice, foldl_set_parent]
    have hpar : ∀ t, get_parent (Block.splice h B it other) t =
        if t ∈ h.stmts_ other then some B else h.parent_ t := by
      intro t
      simp [Block.splice, foldl_set_parent, get_parent]
    have hperm : ((h.stmts_ B).take it ++ h.stmts_ other ++ (h.stmts_ B).drop it).Perm
        (h.stmts_ other ++ h.stmts_ B) := by
      have h1 : ((h.stmts_ B).take it ++ h.stmts_ other ++ (h.stmts_ B).drop it).Perm
          (h.stmts_ other ++ (h.stmts_ B).take it ++ (h.stmts_ B).drop it) :=
        List.Perm.append_right _ List.perm_append_comm
      rw [List.append_assoc (h.stmts_ other), List.take_append_drop] at h1
      exact h1
    refine ⟨⟨?_, ?_⟩, ?_⟩
    · intro c hc
      rw [hst] at hc
      rw [hpar]
      by_cases hco : c ∈ h.stmts_ other
      · simp [hco]
      · rw [if_neg hco]
        rcases List.mem_append.mp (hperm.mem_iff.mp hc) with h1 | h1
        · exact absurd h1 hco
        · exact hB.1 c h1
    · rw [hst]
      refine hperm.nodup_iff.mpr (List.nodup_append.mpr ⟨hO.2, hB.2, ?_⟩)
      exact List.disjoint_left.mpr (fun c hc => hdisj c hc)
    · intro c hc hnc
      rw [hst] at hnc
      exact absurd (hperm.mem_iff.mpr (List.mem_append_right _ hc)) hnc

/-- Instance of C14 on the sample arena, whose Block `0` is well-formed. -/
theorem wellFormed_preserved_witness :
    WellFormed sampleHeap 0 ∧
    WellFormed (Block.append_stmt sampleHeap 0 3).2 0 ∧
    WellFormed (Block.remove_stmt sampleHeap 0 1).2 0 ∧
    get_parent (Block.remove_stmt sampleHeap 0 1).2 1 = none ∧
    WellFormed (Block.clear sampleHeap 0) 0 :=
  have hB : WellFormed sampleHeap 0 := ⟨by decide, by decide⟩
  ⟨hB,
    ((wellFormed_preserved sampleHeap 0 hB).1 3 rfl).1,
    ((wellFormed_preserved sampleHeap 0 hB).2.2.2.2.2.1 1 true rfl).1,
    ((wellFormed_preserved sampleHeap 0 hB).2.2.2.2.2.1 1 true rfl).2 1 (by decide) (by decide),
    (wellFormed_preserved sampleHeap 0 hB).2.2.2.2.2.2.1.1⟩

/-! ## `clone_and_replace` -/

theorem cloneLeaf_fresh : FreshCopy cloneLeaf := by
  intro h s
  refine ⟨Nat.le_refl _, Nat.lt_succ_self _, by simp [cloneLeaf], fun p hp => ?_⟩
  have hne : p ≠ h.next := Nat.ne_of_lt hp
  simp [cloneLeaf, Function.update_apply, hne]

/-- The loop of `clone_and_replace` allocates only new nodes, leaves the parents
and child lists of the existing ones alone, raises `found` exactly when
`old_stmt` is a child, and pairs every child with `new_stmt` or with a parentless
clone of it. -/
theorem cloneChildren_spec (clone : Heap → Ptr → Ptr × Heap) (hc : FreshCopy clone)
    (old new : Ptr) :
    ∀ (l : List Ptr) (h : Heap),
      h.next ≤ (Block.cloneChildren clone old new l h).2.next ∧
      (∀ p, p < h.next →
        (Block.cloneChildren clone old new l h).2.parent_ p = h.parent_ p ∧
        (Block.cloneChildren clone old new l h).2.stmts_ p = h.stmts_ p) ∧
      (Block.cloneChildren clone old new l h).1.2 = decide (old ∈ l) ∧
      List.Forall₂
        (fun c o => (c = old → o = some new) ∧
          (c ≠ old → ∃ p, o = some p ∧ h.next ≤ p ∧
            p < (Block.cloneChildren clone old new l h).2.next ∧
            (Block.cloneChildren clone old new l h).2.parent_ p = none ∧
            ∃ g, p = (clone g c).1))
        l (Block.cloneChildren clone old new l h).1.1 := by
  intro l
  induction l with
  | nil =>
    intro h
    exact ⟨Nat.le_refl _, fun p _ => ⟨rfl, rfl⟩, by simp [Block.cloneChildren],
      List.Forall₂.nil⟩
  | cons s rest ih =>
    intro h
    by_cases hs : s = old
    · obtain ⟨i1, i2, i3, i4⟩ := ih h
      have e : Block.cloneChildren clone old new (s :: rest) h =
          ((some new :: (Block.cloneChildren clone old new rest h).1.1, true),
            (Block.cloneChildren clone old new rest h).2) := by
        simp [Block.cloneChildren, hs]
      rw [e]
      refine ⟨i1, i2, by simp [hs], List.Forall₂.cons ⟨fun _ => rfl, fun hne => absurd hs hne⟩ i4⟩
    · obtain ⟨c1, c2, c3, c4⟩ := hc h s
      obtain ⟨i1, i2, i3, i4⟩ := ih (clone h s).2
      have hle : h.next ≤ (clone h s).2.next := Nat.le_of_lt (Nat.lt_of_le_of_lt c1 c2)
      have e : Block.cloneChildren clone old new (s :: rest) h =
          ((some (clone h s).1 :: (Block.cloneChildren clone old new rest (clone h s).2).1.1,
              (Block.cloneChildren clone old new rest (clone h s).2).1.2),
            (Block.cloneChildren clone old new rest (clone h s).2).2) := by
        simp [Block.cloneChildren, hs]
      rw [e]
      refine ⟨Nat.le_trans hle i1, ?_, ?_, ?_⟩
      · intro p hp
        have h1 := i2 p (Nat.lt_of_lt_of_le hp hle)
        have h2 := c4 p hp
        exact ⟨h1.1.trans h2.1, h1.2.trans h2.2⟩
      · have hso : ¬ old = s := fun e2 => hs e2.symm
        simp only [i3, List.mem_cons, hso, false_or]
      · refine List.Forall₂.cons ⟨fun e2 => absurd e2 hs, fun _ => ?_⟩ ?_
        · exact ⟨(clone h s).1, rfl, c1, Nat.lt_of_lt_of_le c2 i1,
            (i2 _ c2).1.trans c3, h, rfl⟩
        · refine i4.imp ?_
          rintro c o ⟨r1, r2⟩
          refine ⟨r1, fun hne => ?_⟩
          obtain ⟨p, hp1, hp2, hp3, hp4, hp5⟩ := r2 hne
          exact ⟨p, hp1, Nat.le_trans hle hp2, hp3, hp4, hp5⟩

theorem forall2_filterMap_some {R : Ptr → Ptr → Prop} (l : List Ptr) (L : List (Option Ptr))
    (H : List.Forall₂ (fun c o => ∃ p, o = some p ∧ R c p) l L) :
    List.Forall₂ R l (L.filterMap id) := by
  induction H with
  | nil => exact List.Forall₂.nil
  | cons hr _ ih =>
    obtain ⟨p, rfl, hp⟩ := hr
    simpa using List.Forall₂.cons hp ih

theorem forall2_right_mem {α β : Type} {R : α → β → Prop} {l : List α} {l2 : List β}
    (H : List.Forall₂ R l l2) : ∀ b, b ∈ l2 → ∃ a, a ∈ l ∧ R a b := by
  induction H with
  | nil => intro b hb; simp at hb
  | cons hr _ ih =>
    intro b hb
    rcases List.mem_cons.mp hb with rfl | hb2
    · exact ⟨_, List.mem_cons_self _ _, hr⟩
    · obtain ⟨a, ha, hab⟩ := ih b hb2
      exact ⟨a, List.mem_cons_of_mem _ ha, hab⟩

theorem forall2_with_mem {α β : Type} {R : α → β → Prop} {l : List α} {l2 : List β}
    (H : List.Forall₂ R l l2) : List.Forall₂ (fun a b => R a b ∧ b ∈ l2) l l2 := by
  induction H with
  | nil => exact List.Forall₂.nil
  | cons hr _ ih =>
    exact List.Forall₂.cons ⟨hr, List.mem_cons_self _ _⟩
      (ih.imp (fun _ _ hab => ⟨hab.1, List.mem_cons_of_mem _ hab.2⟩))

theorem forall2_left_mem {α β : Type} {R : α → β → Prop} {l : List α} {l2 : List β}
    (H : List.Forall₂ R l l2) : ∀ a, a ∈ l → ∃ b, b ∈ l2 ∧ R a b := by
  induction H with
  | nil => intro a ha; simp at ha
  | cons hr _ ih =>
    intro a ha
    rcases List.mem_cons.mp ha with rfl | ha2
    · exact ⟨_, List.mem_cons_self _ _, hr⟩
    · obtain ⟨b, hb, hab⟩ := ih a ha2
      exact ⟨b, List.mem_cons_of_mem _ hb, hab⟩

/-- What `clone_and_replace` does in any arena, for a `Stmt::clone` that returns
fresh parentless copies, allocated nodes and a parentless `new`.  The result is
null exactly
when `old` is not a child of `B`.  Otherwise it is a newly allocated Block with
as many children as `B`, holding `new` itself at every position where `B` holds
`old` and, at every other position, a clone of the child of `B` at that
position; `new` and the clones have the new Block as parent.  In both cases the
child list of `B` is unchanged, and so is the parent of every child of `B`
other than `new`. -/
theorem clone_and_replace_spec (clone : Heap → Ptr → Ptr × Heap) (hc : FreshCopy clone)
    (h : Heap) (B old new : Ptr) (hB : B < h.next) (hch : ∀ c ∈ h.stmts_ B, c < h.next)
    (hnew : new < h.next) (hn : get_parent h new = none) :
    ((Block.clone_and_replace clone h B old new).1 = .ok none ↔ old ∉ h.stmts_ B) ∧
    (Block.clone_and_replace clone h B old new).2.stmts_ B = h.stmts_ B ∧
    (∀ c ∈ h.stmts_ B, c ≠ new →
      get_parent (Block.clone_and_replace clone h B old new).2 c = get_parent h c) ∧
    (old ∈ h.stmts_ B →
      ∃ nb, (Block.clone_and_replace clone h B old new).1 = .ok (some nb) ∧
        h.next ≤ nb ∧
        isBlock (Block.clone_and_replace clone h B old new).2 nb = true ∧
        ((Block.clone_and_replace clone h B old new).2.stmts_ nb).length
          = (h.stmts_ B).length ∧
        get_parent (Block.clone_and_replace clone h B old new).2 new = some nb ∧
        List.Forall₂
          (fun c c2 => (c = old → c2 = new) ∧
            (c ≠ old → h.next ≤ c2 ∧
              get_parent (Block.clone_and_replace clone h B old new).2 c2 = some nb ∧
              ∃ g, c2 = (clone g c).1))
          (h.stmts_ B) ((Block.clone_and_replace clone h B old new).2.stmts_ nb)) := by
  have hp : (get_parent h new).isSome = false := by simp [hn]
  obtain ⟨k1, k2, k3, k4⟩ := cloneChildren_spec clone hc old new (h.stmts_ B) h
  obtain ⟨L, hL⟩ : ∃ L, L = (Block.cloneChildren clone old new (h.stmts_ B) h).1.1 := ⟨_, rfl⟩
  obtain ⟨g, hg⟩ : ∃ g, g = (Block.cloneChildren clone old new (h.stmts_ B) h).2 := ⟨_, rfl⟩
  rw [← hL, ← hg] at k4
  rw [← hg] at k1 k2
  by_cases hmem : old ∈ h.stmts_ B
  · have hfound : (Block.cloneChildren clone old new (h.stmts_ B) h).1.2 = true := by
      rw [k3]; simpa using hmem
    have hres : Block.clone_and_replace clone h B old new =
        (.ok (some (Block.new g L).1), (Block.new g L).2) := by
      simp [Block.clone_and_replace, hp, hfound, hL, hg]
    -- the members of the new arena
    obtain ⟨hnb, hsk⟩ := Block.new_skeleton g L
    obtain ⟨e1, e2, e3, -⟩ := Heap.skeleton_fields hsk
    simp only [Heap.skeleton] at e1 e2 e3
    have hpar : ∀ s, (Block.new g L).2.parent_ s =
        if some s ∈ L ∧ (Function.update g.parent_ g.next none) s = none then some g.next
        else (Function.update g.parent_ g.next none) s := by
      intro s
      simp only [Block.new, Block.init_parent]
    -- what the entries of the vector are
    have hrel : List.Forall₂
        (fun c c2 => (c = old → c2 = new) ∧
          (c ≠ old → h.next ≤ c2 ∧ c2 < g.next ∧ g.parent_ c2 = none ∧ ∃ g0, c2 = (clone g0 c).1))
        (h.stmts_ B) (L.filterMap id) := by
      apply forall2_filterMap_some
      refine k4.imp ?_
      rintro c o ⟨r1, r2⟩
      by_cases hco : c = old
      · exact ⟨new, r1 hco, fun _ => rfl, fun hne => absurd hco hne⟩
      · obtain ⟨q, hq1, hq2, hq3, hq4, hq5⟩ := r2 hco
        exact ⟨q, hq1, fun e => absurd e hco, fun _ => ⟨hq2, hq3, hq4, hq5⟩⟩
    have hmemL : ∀ s, some s ∈ L ↔ s ∈ L.filterMap id := by
      intro s
      constructor
      · intro hs; exact List.mem_filterMap.mpr ⟨some s, hs, rfl⟩
      · intro hs
        obtain ⟨o, ho, hos⟩ := List.mem_filterMap.mp hs
        have : o = some s := hos
        rwa [this] at ho
    have hentry : ∀ s, some s ∈ L → s = new ∨ (h.next ≤ s ∧ s < g.next ∧ g.parent_ s = none) := by
      intro s hs
      obtain ⟨c, _, r1, r2⟩ := forall2_right_mem hrel s ((hmemL s).mp hs)
      by_cases hco : c = old
      · exact Or.inl (r1 hco)
      · obtain ⟨q1, q2, q3, -⟩ := r2 hco
        exact Or.inr ⟨q1, q2, q3⟩
    have hnewL : some new ∈ L := by
      obtain ⟨b, hb, r1, -⟩ := forall2_left_mem hrel old hmem
      rw [r1 rfl] at hb
      exact (hmemL new).mpr hb
    have hnew_g : new < g.next := Nat.lt_of_lt_of_le hnew k1
    have hBne : B ≠ g.next := Nat.ne_of_lt (Nat.lt_of_lt_of_le hB k1)
    rw [hres]
    refine ⟨⟨fun hnone => by simp at hnone, fun hno => absurd hmem hno⟩, ?_, ?_, fun _ => ?_⟩
    · rw [e3]
      simp only [Function.update_apply, if_neg hBne]
      exact (k2 B hB).2
    · intro c hcB hcn
      have hclt : c < h.next := hch c hcB
      have hcne : c ≠ g.next := Nat.ne_of_lt (Nat.lt_of_lt_of_le hclt k1)
      have hcL : some c ∉ L := by
        intro hm
        rcases hentry c hm with h1 | h1
        · exact hcn h1
        · exact absurd hclt (Nat.not_lt.mpr h1.1)
      simp only [get_parent, hpar, hcL, false_and, if_false, Function.update_apply, if_neg hcne]
      exact (k2 c hclt).1
    · refine ⟨g.next, by rw [hnb], k1, ?_, ?_, ?_, ?_⟩
      · simp [isBlock, e2]
      · rw [e3]
        simp only [Function.update_apply, if_true]
        exact hrel.length_eq.symm
      · have hne : new ≠ g.next := Nat.ne_of_lt hnew_g
        have hpn : g.parent_ new = none := (k2 new hnew).1.trans hn
        simp [get_parent, hpar, hnewL, Function.update_apply, hne, hpn]
      · rw [e3]
        simp only [Function.update_apply, if_true]
        refine (forall2_with_mem hrel).imp ?_
        rintro c c2 ⟨⟨r1, r2⟩, hc2⟩
        refine ⟨r1, fun hne => ?_⟩
        obtain ⟨q1, q2, q3, q4⟩ := r2 hne
        refine ⟨q1, ?_, q4⟩
        have hne2 : c2 ≠ g.next := Nat.ne_of_lt q2
        have hc2L : some c2 ∈ L := (hmemL c2).mpr hc2
        simp [get_parent, hpar, hc2L, Function.update_apply, hne2, q3]
  · have hfound : (Block.cloneChildren clone old new (h.stmts_ B) h).1.2 = false := by
      rw [k3]; simpa using hmem
    have hres : Block.clone_and_replace clone h B old new = (.ok none, g) := by
      simp [Block.clone_and_replace, hp, hfound, hg]
    rw [hres]
    refine ⟨⟨fun _ => hmem, fun _ => rfl⟩, (k2 B hB).2, ?_, fun hm => absurd hm hmem⟩
    intro c hc _
    exact (k2 c (hch c hc)).1

/-- C12: let every child of `B` point back to `B`, let `Stmt::clone` return fresh
parentless copies, and let `new` be an allocated statement without parent.  The
result of `clone_and_replace(old, new)` is null exactly when `old` is not a
child of `B`.  Otherwise it is a newly allocated Block with as many children as
`B`, which holds `new` itself where `B` holds `old`, now with the new Block as
parent, and at every other position a clone of the child of `B` at that
position, with the new Block as parent.  In both cases the child list of `B` and
the parent of every child of `B`, `old` included, are unchanged. -/
theorem clone_and_replace_contract (clone : Heap → Ptr → Ptr × Heap) (hc : FreshCopy clone)
    (h : Heap) (B old new : Ptr) (hB : B < h.next) (hch : ∀ c ∈ h.stmts_ B, c < h.next)
    (hnew : new < h.next) (hn : get_parent h new = none)
    (hwf : ∀ c ∈ h.stmts_ B, get_parent h c = some B) :
    ((Block.clone_and_replace clone h B old new).1 = .ok none ↔ old ∉ h.stmts_ B) ∧
    (Block.clone_and_replace clone h B old new).2.stmts_ B = h.stmts_ B ∧
    (∀ c ∈ h.stmts_ B,
      get_parent (Block.clone_and_replace clone h B old new).2 c = get_parent h c) ∧
    (old ∈ h.stmts_ B →
      get_parent (Block.clone_and_replace clone h B old new).2 old = get_parent h old ∧
      ∃ nb, (Block.clone_and_replace clone h B old new).1 = .ok (some nb) ∧
        h.next ≤ nb ∧
        isBlock (Block.clone_and_replace clone h B old new).2 nb = true ∧
        ((Block.clone_and_replace clone h B old new).2.stmts_ nb).length
          = (h.stmts_ B).length ∧
        get_parent (Block.clone_and_replace clone h B old new).2 new = some nb ∧
        List.Forall₂
          (fun c c2 => (c = old → c2 = new) ∧
            (c ≠ old → h.next ≤ c2 ∧
              get_parent (Block.clone_and_replace clone h B old new).2 c2 = some nb ∧
              ∃ g, c2 = (clone g c).1))
          (h.stmts_ B) ((Block.clone_and_replace clone h B old new).2.stmts_ nb)) := by
  obtain ⟨k1, k2, k3, k4⟩ := clone_and_replace_spec clone hc h B old new hB hch hnew hn
  have hnot : ∀ c ∈ h.stmts_ B, c ≠ new := by
    intro c hm e
    rw [← e, hwf c hm] at hn
    cases hn
  exact ⟨k1, k2, fun c hm => k3 c hm (hnot c hm),
    fun hm => ⟨k3 old hm (hnot old hm), k4 hm⟩⟩

/-- Instance of C12 on the sample arena, where the children `1` and `2` of Block
`0` point back to it: in a copy of Block `0`, child `1` is replaced by the
detached Store `3`, and the children of Block `0` keep their parent. -/
theorem clone_and_replace_contract_witness :
    FreshCopy cloneLeaf ∧ (0 : Ptr) < sampleHeap.next ∧
    (∀ c ∈ sampleHeap.stmts_ 0, c < sampleHeap.next) ∧ (3 : Ptr) < sampleHeap.next ∧
    get_parent sampleHeap 3 = none ∧
    (∀ c ∈ sampleHeap.stmts_ 0, get_parent sampleHeap c = some 0) ∧
    1 ∈ sampleHeap.stmts_ 0 ∧
    (Block.clone_and_replace cloneLeaf sampleHeap 0 1 3).2.stmts_ 0 = sampleHeap.stmts_ 0 ∧
    get_parent (Block.clone_and_replace cloneLeaf sampleHeap 0 1 3).2 1
      = get_parent sampleHeap 1 ∧
    (∃ nb, (Block.clone_and_replace cloneLeaf sampleHeap 0 1 3).1 = .ok (some nb) ∧
      sampleHeap.next ≤ nb ∧
      isBlock (Block.clone_and_replace cloneLeaf sampleHeap 0 1 3).2 nb = true ∧
      ((Block.clone_and_replace cloneLeaf sampleHeap 0 1 3).2.stmts_ nb).length
        = (sampleHeap.stmts_ 0).length ∧
      get_parent (Block.clone_and_replace cloneLeaf sampleHeap 0 1 3).2 3 = some nb) :=
  have hB : (0 : Ptr) < sampleHeap.next := by decide
  have hch : ∀ c ∈ sampleHeap.stmts_ 0, c < sampleHeap.next := by decide
  have hnew : (3 : Ptr) < sampleHeap.next := by decide
  have hn : get_parent sampleHeap 3 = none := by decide
  have hwf : ∀ c ∈ sampleHeap.stmts_ 0, get_parent sampleHeap c = some 0 := by decide
  have hm : 1 ∈ sampleHeap.stmts_ 0 := by decide
  ⟨cloneLeaf_fresh, hB, hch, hnew, hn, hwf, hm,
    (clone_and_replace_contract cloneLeaf cloneLeaf_fresh sampleHeap 0 1 3 hB hch hnew hn
      hwf).2.1,
    ((clone_and_replace_contract cloneLeaf cloneLeaf_fresh sampleHeap 0 1 3 hB hch hnew hn
      hwf).2.2.2 hm).1,
    by
      obtain ⟨nb, h1, h2, h3, h4, h5, -⟩ :=
        ((clone_and_replace_contract cloneLeaf cloneLeaf_fresh sampleHeap 0 1 3 hB hch hnew hn
          hwf).2.2.2 hm).2
      exact ⟨nb, h1, h2, h3, h4, h5⟩⟩

/-! ## Bodies and branches are Blocks -/

/-- The arena after `new Block({p})` for an existing statement `p`. -/
theorem Block.new_single (h : Heap) (p : Ptr) (hp : p ≠ h.next) :
    Block.new h [some p] =
      (h.next,
        { h with
          next := h.next + 1
          kind := Function.update h.kind h.next (some StmtKind.Block)
          parent_ := Function.update (Function.update h.parent_ h.next none) p
            (if h.parent_ p = none then some h.next else h.parent_ p)
          stmts_ := Function.update h.stmts_ h.next [p] }) := by
  have hpu : Function.update h.parent_ h.next none p = h.parent_ p := by
    simp [Function.update_apply, hp]
  simp only [Block.new, Block.init, List.foldl, get_parent, hpu]
  congr 1
  by_cases hn : h.parent_ p = none
  · simp only [hn, Option.isSome_none, Bool.false_eq_true, if_false, if_true]
    apply Heap.ext <;> first | rfl | skip
    · funext c
      simp [put_stmts, set_parent, Function.update_apply]
  · have hs : (h.parent_ p).isSome = true := Option.isSome_iff_ne_none.mpr hn
    simp only [hs, if_true, hn, if_false]
    apply Heap.ext <;> first | rfl | skip
    · funext c
      simp only [put_stmts, Function.update_apply]
      by_cases hc : c = p
      · subst hc; simp [hp]
      · simp [hc]
    · funext c
      simp [put_stmts, Function.update_apply]

theorem Normalised.mono {h0 h g : Heap} {owner b : Ptr} {acc : Option Ptr}
    (H : Normalised h g owner b acc) (hk : isBlock h0 b = isBlock h b)
    (hnext : h0.next ≤ h.next) : Normalised h0 g owner b acc := by
  obtain ⟨a, h1, h2, h3, h4, h5⟩ := H
  refine ⟨a, h1, h2, h3, fun hb => h4 (hk ▸ hb), fun hb => ?_⟩
  obtain ⟨q1, q2, q3⟩ := h5 (hk ▸ hb)
  exact ⟨Nat.le_trans hnext q1, q2, q3⟩

theorem set_body_normalised (h : Heap) (f b : Ptr) (hb : b < h.next)
    (hn : get_parent h b = none) :
    Normalised h (For.set_body h f (some b)) f b (For.body (For.set_body h f (some b)) f) := by
  have hne : b ≠ h.next := Nat.ne_of_lt hb
  by_cases hblk : isBlock h b = true
  · have e : For.set_body h f (some b) = set_parent (put_body h f (some b)) b (some f) := by
      simp [For.set_body, hblk]
    rw [e]
    refine ⟨b, by simp [For.body, put_body, set_parent], ?_, by simp [get_parent],
      fun _ => rfl, fun hc => by rw [hblk] at hc; cases hc⟩
    simpa [isBlock, put_body, set_parent] using hblk
  · have hblk2 : isBlock h b = false := by simpa using hblk
    have e : For.set_body h f (some b) =
        set_parent (put_body (Block.new h [some b]).2 f (some (Block.new h [some b]).1))
          (Block.new h [some b]).1 (some f) := by
      simp [For.set_body, hblk2]
    rw [e, Block.new_single h b hne]
    have hpb : h.parent_ b = none := hn
    refine ⟨h.next, by simp [For.body, put_body, set_parent], ?_, by simp [get_parent],
      fun hc => (by rw [hblk2] at hc; cases hc), fun _ => ⟨Nat.le_refl _, ?_, ?_⟩⟩
    · simp [isBlock, put_body, set_parent]
    · simp [put_body, set_parent]
    · simp [get_parent, put_body, set_parent, Function.update_apply, hne, hpb]

theorem set_true_stmt_normalised (h : Heap) (o b : Ptr) (hb : b < h.next)
    (hn : get_parent h b = none) :
    Normalised h (Cond.set_true_stmt h o (some b)) o b
      (Cond.true_stmt (Cond.set_true_stmt h o (some b)) o) := by
  have hne : b ≠ h.next := Nat.ne_of_lt hb
  by_cases hblk : isBlock h b = true
  · have e : Cond.set_true_stmt h o (some b) =
        set_parent (put_true_stmt h o (some b)) b (some o) := by
      simp [Cond.set_true_stmt, hblk]
    rw [e]
    refine ⟨b, by simp [Cond.true_stmt, put_true_stmt, set_parent], ?_, by simp [get_parent],
      fun _ => rfl, fun hc => by rw [hblk] at hc; cases hc⟩
    simpa [isBlock, put_true_stmt, set_parent] using hblk
  · have hblk2 : isBlock h b = false := by simpa using hblk
    have e : Cond.set_true_stmt h o (some b) =
        set_parent (put_true_stmt (Block.new h [some b]).2 o (some (Block.new h [some b]).1))
          (Block.new h [some b]).1 (some o) := by
      simp [Cond.set_true_stmt, hblk2]
    rw [e, Block.new_single h b hne]
    have hpb : h.parent_ b = none := hn
    refine ⟨h.next, by simp [Cond.true_stmt, put_true_stmt, set_parent], ?_,
      by simp [get_parent],
      fun hc => (by rw [hblk2] at hc; cases hc), fun _ => ⟨Nat.le_refl _, ?_, ?_⟩⟩
    · simp [isBlock, put_true_stmt, set_parent]
    · simp [put_true_stmt, set_parent]
    · simp [get_parent, put_true_stmt, set_parent, Function.update_apply, hne, hpb]

theorem set_false_stmt_normalised (h : Heap) (o b : Ptr) (hb : b < h.next)
    (hn : get_parent h b = none) :
    Normalised h (Cond.set_false_stmt h o (some b)) o b
      (Cond.false_stmt (Cond.set_false_stmt h o (some b)) o) := by
  have hne : b ≠ h.next := Nat.ne_of_lt hb
  by_cases hblk : isBlock h b = true
  · have e : Cond.set_false_stmt h o (some b) =
        set_parent (put_false_stmt h o (some b)) b (some o) := by
      simp [Cond.set_false_stmt, hblk]
    rw [e]
    refine ⟨b, by simp [Cond.false_stmt, put_false_stmt, set_parent], ?_, by simp [get_parent],
      fun _ => rfl, fun hc => by rw [hblk] at hc; cases hc⟩
    simpa [isBlock, put_false_stmt, set_parent] using hblk
  · have hblk2 : isBlock h b = false := by simpa using hblk
    have e : Cond.set_false_stmt h o (some b) =
        set_parent (put_false_stmt (Block.new h [some b]).2 o (some (Block.new h [some b]).1))
          (Block.new h [some b]).1 (some o) := by
      simp [Cond.set_false_stmt, hblk2]
    rw [e, Block.new_single h b hne]
    have hpb : h.parent_ b = none := hn
    refine ⟨h.next, by simp [Cond.false_stmt, put_false_stmt, set_parent], ?_,
      by simp [get_parent],
      fun hc => (by rw [hblk2] at hc; cases hc), fun _ => ⟨Nat.le_refl _, ?_, ?_⟩⟩
    · simp [isBlock, put_false_stmt, set_parent]
    · simp [put_false_stmt, set_parent]
    · simp [get_parent, put_false_stmt, set_parent, Function.update_apply, hne, hpb]

theorem for_new_normalised (h : Heap) (var : Option Var) (start stop : Option Expr) (b : Ptr)
    (hb : b < h.next) (hn : get_parent h b = none) :
    (For.new h var start stop (some b)).1 = h.next ∧
    Normalised h (For.new h var start stop (some b)).2 h.next b
      (For.body (For.new h var start stop (some b)).2 h.next) := by
  have hne : b ≠ h.next := Nat.ne_of_lt hb
  have e : (For.new h var start stop (some b)).2 =
      For.set_body (For.fresh h var start stop) h.next (some b) := rfl
  refine ⟨rfl, ?_⟩
  rw [e]
  refine (set_body_normalised (For.fresh h var start stop) h.next b
    (Nat.lt_succ_of_lt hb) ?_).mono ?_ (Nat.le_succ _)
  · simpa [get_parent, For.fresh, Function.update_apply, hne] using hn
  · simp [isBlock, For.fresh, Function.update_apply, hne]

theorem for_newWithOptions_normalised (h : Heap) (var : Var) (start stop : Expr)
    (o : LoopOptions) (b : Ptr) (hb : b < h.next) (hn : get_parent h b = none) :
    (For.newWithOptions h (some var) (some start) (some stop) (some b) o).1 = .ok h.next ∧
    Normalised h (For.newWithOptions h (some var) (some start) (some stop) (some b) o).2
      h.next b
      (For.body (For.newWithOptions h (some var) (some start) (some stop) (some b) o).2
        h.next) := by
  have hne : b ≠ h.next := Nat.ne_of_lt hb
  have hpar : get_parent (put_options (For.fresh h (some var) (some start) (some stop)) h.next o)
      b = none := by
    simpa [get_parent, put_options, For.fresh, Function.update_apply, hne] using hn
  have e : For.newWithOptions h (some var) (some start) (some stop) (some b) o =
      (.ok h.next, For.set_body
        (put_options (For.fresh h (some var) (some start) (some stop)) h.next o) h.next
        (some b)) := by
    simp [For.newWithOptions, hpar]
  rw [e]
  refine ⟨rfl, ?_⟩
  refine (set_body_normalised _ h.next b (Nat.lt_succ_of_lt hb) hpar).mono ?_ (Nat.le_succ _)
  simp [isBlock, put_options, For.fresh, Function.update_apply, hne]

theorem set_true_stmt_of_block (h : Heap) (o p : Ptr) (hblk : isBlock h p = true) :
    Cond.set_true_stmt h o (some p) = set_parent (put_true_stmt h o (some p)) p (some o) := by
  simp [Cond.set_true_stmt, hblk]

theorem set_true_stmt_of_other (h : Heap) (o p : Ptr) (hblk : isBlock h p = false)
    (hp : p ≠ h.next) :
    Cond.set_true_stmt h o (some p) =
      set_parent (put_true_stmt (Block.wrapping h p) o (some h.next)) h.next (some o) := by
  simp only [Cond.set_true_stmt, hblk, Bool.false_eq_true, if_false, Block.new_single h p hp]
  rfl

theorem set_false_stmt_of_block (h : Heap) (o p : Ptr) (hblk : isBlock h p = true) :
    Cond.set_false_stmt h o (some p) = set_parent (put_false_stmt h o (some p)) p (some o) := by
  simp [Cond.set_false_stmt, hblk]

theorem set_false_stmt_of_other (h : Heap) (o p : Ptr) (hblk : isBlock h p = false)
    (hp : p ≠ h.next) :
    Cond.set_false_stmt h o (some p) =
      set_parent (put_false_stmt (Block.wrapping h p) o (some h.next)) h.next (some o) := by
  simp only [Cond.set_false_stmt, hblk, Bool.false_eq_true, if_false, Block.new_single h p hp]
  rfl

/-- The true branch of a newly constructed `Cond` is normalised, whatever
existing statement or null is given as the false branch. -/
theorem cond_new_true_normalised (h : Heap) (cond : Option Expr) (b : Ptr) (f : Option Ptr)
    (hb : b < h.next) (hn : get_parent h b = none) (hf : ∀ p, f = some p → p < h.next) :
    Normalised h (Cond.new h cond (some b) f).2 h.next b
      (Cond.true_stmt (Cond.new h cond (some b) f).2 h.next) := by
  have hne : b ≠ h.next := Nat.ne_of_lt hb
  have hne1 : b ≠ h.next + 1 := Nat.ne_of_lt (Nat.lt_succ_of_lt hb)
  have hne2 : b ≠ h.next + 1 + 1 := Nat.ne_of_lt (Nat.lt_succ_of_lt (Nat.lt_succ_of_lt hb))
  have hpb : h.parent_ b = none := hn
  have e : (Cond.new h cond (some b) f).2 =
      Cond.set_false_stmt (Cond.set_true_stmt (Cond.fresh h cond) h.next (some b)) h.next f := rfl
  rw [e]
  have hk1 : isBlock (Cond.fresh h cond) b = isBlock h b := by
    simp [isBlock, Cond.fresh, Function.update_apply, hne]
  cases f with
  | none =>
    refine (set_true_stmt_normalised (Cond.fresh h cond) h.next b (Nat.lt_succ_of_lt hb) ?_).mono
      hk1.symm (Nat.le_succ _)
    simpa [get_parent, Cond.fresh, Function.update_apply, hne] using hn
  | some p =>
    have hp : p < h.next := hf p rfl
    have hpne : p ≠ h.next := Nat.ne_of_lt hp
    have hpne1 : p ≠ h.next + 1 := Nat.ne_of_lt (Nat.lt_succ_of_lt hp)
    have hpne2 : p ≠ h.next + 1 + 1 := Nat.ne_of_lt (Nat.lt_succ_of_lt (Nat.lt_succ_of_lt hp))
    by_cases hblk : isBlock h b = true
    · rw [set_true_stmt_of_block _ _ _ (hk1.trans hblk)]
      have hkb : h.kind b = some StmtKind.Block := by simpa [isBlock] using hblk
      by_cases hpb2 : isBlock h p = true
      · have hkp : h.kind p = some StmtKind.Block := by simpa [isBlock] using hpb2
        rw [set_false_stmt_of_block _ _ _ (by
          simp [isBlock, put_true_stmt, set_parent, Cond.fresh, Function.update_apply, hpne, hkp])]
        refine ⟨b, ?_, ?_, ?_, fun _ => rfl, fun hc => (by rw [hblk] at hc; cases hc)⟩
        · simp [Cond.true_stmt, put_true_stmt, put_false_stmt, set_parent]
        · simp [isBlock, put_true_stmt, put_false_stmt, set_parent, Cond.fresh,
            Function.update_apply, hne, hkb]
        · by_cases hbp : b = p <;>
            simp [get_parent, put_true_stmt, put_false_stmt, set_parent, Function.update_apply,
              hbp]
      · have hpb3 : isBlock h p = false := by simpa using hpb2
        have hkp : ¬ h.kind p = some StmtKind.Block := by simpa [isBlock] using hpb3
        rw [set_false_stmt_of_other _ _ _ (by
          simp [isBlock, put_true_stmt, set_parent, Cond.fresh, Function.update_apply, hpne, hkp])
          (by simp [put_true_stmt, set_parent, Cond.fresh, hpne1])]
        have hbp : b ≠ p := fun e2 => hkp (e2 ▸ hkb)
        refine ⟨b, ?_, ?_, ?_, fun _ => rfl, fun hc => (by rw [hblk] at hc; cases hc)⟩
        · simp [Cond.true_stmt, put_true_stmt, put_false_stmt, set_parent, Block.wrapping]
        · simp [isBlock, put_true_stmt, put_false_stmt, set_parent, Cond.fresh, Block.wrapping,
            Function.update_apply, hne, hne1, hkb]
        · simp [get_parent, put_true_stmt, put_false_stmt, set_parent, Block.wrapping,
            Cond.fresh, Function.update_apply, hbp, hne1]
    · have hblk2 : isBlock h b = false := by simpa using hblk
      have hkb : ¬ h.kind b = some StmtKind.Block := by simpa [isBlock] using hblk2
      rw [set_true_stmt_of_other _ _ _ (hk1.trans hblk2) hne1]
      have hfn : (Cond.fresh h cond).next = h.next + 1 := rfl
      rw [hfn]
      by_cases hpb2 : isBlock h p = true
      · have hkp : h.kind p = some StmtKind.Block := by simpa [isBlock] using hpb2
        have hbp : b ≠ p := fun e2 => hkb (e2 ▸ hkp)
        rw [set_false_stmt_of_block _ _ _ (by
          simp [isBlock, put_true_stmt, set_parent, Cond.fresh, Block.wrapping,
            Function.update_apply, hpne, hpne1, hkp])]
        refine ⟨h.next + 1, ?_, ?_, ?_, fun hc => (by rw [hblk2] at hc; cases hc),
          fun _ => ⟨Nat.le_succ _, ?_, ?_⟩⟩
        · simp [Cond.true_stmt, put_true_stmt, put_false_stmt, set_parent]
        · simp [isBlock, put_true_stmt, put_false_stmt, set_parent, Cond.fresh, Block.wrapping,
            Function.update_apply]
        · simp [get_parent, put_true_stmt, put_false_stmt, set_parent, Block.wrapping,
            Cond.fresh, Function.update_apply, hpne1.symm]
        · simp [put_true_stmt, put_false_stmt, set_parent, Block.wrapping, Cond.fresh,
            Function.update_apply]
        · simp [get_parent, put_true_stmt, put_false_stmt, set_parent, Block.wrapping,
            Cond.fresh, Function.update_apply, hbp, hne, hne1, hpb]
      · have hpb3 : isBlock h p = false := by simpa using hpb2
        have hkp : ¬ h.kind p = some StmtKind.Block := by simpa [isBlock] using hpb3
        rw [set_false_stmt_of_other _ _ _ (by
          simp [isBlock, put_true_stmt, set_parent, Cond.fresh, Block.wrapping,
            Function.update_apply, hpne, hpne1, hkp])
          (by simp [put_true_stmt, set_parent, Cond.fresh, Block.wrapping, hpne2])]
        refine ⟨h.next + 1, ?_, ?_, ?_, fun hc => (by rw [hblk2] at hc; cases hc),
          fun _ => ⟨Nat.le_succ _, ?_, ?_⟩⟩
        · simp [Cond.true_stmt, put_true_stmt, put_false_stmt, set_parent, Block.wrapping]
        · simp [isBlock, put_true_stmt, put_false_stmt, set_parent, Cond.fresh, Block.wrapping,
            Function.update_apply]
        · simp [get_parent, put_true_stmt, put_false_stmt, set_parent, Block.wrapping,
            Cond.fresh, Function.update_apply, hpne1.symm]
        · simp [put_true_stmt, put_false_stmt, set_parent, Block.wrapping, Cond.fresh,
            Function.update_apply]
        · by_cases hbp : b = p
          · subst hbp
            simp [get_parent, put_true_stmt, put_false_stmt, set_parent, Block.wrapping,
              Cond.fresh, Function.update_apply, hne, hne1, hne2, hpb]
          · simp [get_parent, put_true_stmt, put_false_stmt, set_parent, Block.wrapping,
              Cond.fresh, Function.update_apply, hne, hne1, hne2, hpb, hbp]

/-- The false branch of a newly constructed `Cond` is normalised when the true
branch is null or another existing statement, or when the statement is a
Block. -/
theorem cond_new_false_normalised (h : Heap) (cond : Option Expr) (b : Ptr) (t : Option Ptr)
    (hb : b < h.next) (hn : get_parent h b = none) (ht : ∀ p, t = some p → p < h.next)
    (hdist : t ≠ some b ∨ isBlock h b = true) :
    Normalised h (Cond.new h cond t (some b)).2 h.next b
      (Cond.false_stmt (Cond.new h cond t (some b)).2 h.next) := by
  have hne : b ≠ h.next := Nat.ne_of_lt hb
  have hne1 : b ≠ h.next + 1 := Nat.ne_of_lt (Nat.lt_succ_of_lt hb)
  have hpb : h.parent_ b = none := hn
  have e : (Cond.new h cond t (some b)).2 =
      Cond.set_false_stmt (Cond.set_true_stmt (Cond.fresh h cond) h.next t) h.next (some b) := rfl
  rw [e]
  have hk1 : isBlock (Cond.fresh h cond) b = isBlock h b := by
    simp [isBlock, Cond.fresh, Function.update_apply, hne]
  -- when `b` is untouched by the first setter, the second one sees a parentless statement
  have key : ∀ g1 : Heap, b < g1.next → get_parent g1 b = none → isBlock g1 b = isBlock h b →
      h.next ≤ g1.next →
      Normalised h (Cond.set_false_stmt g1 h.next (some b)) h.next b
        (Cond.false_stmt (Cond.set_false_stmt g1 h.next (some b)) h.next) :=
    fun g1 q1 q2 q3 q4 => (set_false_stmt_normalised g1 h.next b q1 q2).mono q3.symm q4
  cases t with
  | none =>
    have e0 : Cond.set_true_stmt (Cond.fresh h cond) h.next none = Cond.fresh h cond := rfl
    rw [e0]
    refine key _ (Nat.lt_succ_of_lt hb) ?_ hk1 (Nat.le_succ _)
    simpa [get_parent, Cond.fresh, Function.update_apply, hne] using hn
  | some p =>
    have hp : p < h.next := ht p rfl
    have hpne : p ≠ h.next := Nat.ne_of_lt hp
    have hpne1 : p ≠ h.next + 1 := Nat.ne_of_lt (Nat.lt_succ_of_lt hp)
    have hkp1 : isBlock (Cond.fresh h cond) p = isBlock h p := by
      simp [isBlock, Cond.fresh, Function.update_apply, hpne]
    by_cases hbp : p = b
    · subst hbp
      have hblk : isBlock h p = true := by
        rcases hdist with h1 | h1
        · exact absurd rfl h1
        · exact h1
      have hkb : h.kind p = some StmtKind.Block := by simpa [isBlock] using hblk
      rw [set_true_stmt_of_block _ _ _ (hk1.trans hblk)]
      rw [set_false_stmt_of_block _ _ _ (by
        simp [isBlock, put_true_stmt, set_parent, Cond.fresh, Function.update_apply, hne, hkb])]
      refine ⟨p, ?_, ?_, ?_, fun _ => rfl, fun hc => (by rw [hblk] at hc; cases hc)⟩
      · simp [Cond.false_stmt, put_false_stmt, set_parent]
      · simp [isBlock, put_true_stmt, put_false_stmt, set_parent, Cond.fresh,
          Function.update_apply, hne, hkb]
      · simp [get_parent, put_true_stmt, put_false_stmt, set_parent]
    · have hbp2 : b ≠ p := fun e2 => hbp e2.symm
      by_cases hpblk : isBlock h p = true
      · rw [set_true_stmt_of_block _ _ _ (hkp1.trans hpblk)]
        refine key _ (Nat.lt_succ_of_lt hb) ?_ ?_ (Nat.le_succ _)
        · simp [get_parent, put_true_stmt, set_parent, Cond.fresh, Function.update_apply, hbp2,
            hne, hpb]
        · simp [isBlock, put_true_stmt, set_parent, Cond.fresh, Function.update_apply, hne]
      · have hpblk2 : isBlock h p = false := by simpa using hpblk
        rw [set_true_stmt_of_other _ _ _ (hkp1.trans hpblk2) hpne1]
        refine key _ ?_ ?_ ?_ ?_
        · exact Nat.lt_succ_of_lt (Nat.lt_succ_of_lt hb)
        · simp [get_parent, put_true_stmt, set_parent, Cond.fresh, Block.wrapping,
            Function.update_apply, hbp2, hne, hne1, hpb]
        · simp [isBlock, put_true_stmt, set_parent, Cond.fresh, Block.wrapping,
            Function.update_apply, hne, hne1]
        · exact Nat.le_succ_of_le (Nat.le_succ _)

/-- How bodies and branches are normalised: let `b` be an existing statement
without parent.
After a `For` is constructed with body `b` (by either constructor when it
returns, or by `For::make`), after `set_body(b)`, after `set_true_stmt(b)` and
after `set_false_stmt(b)`, the accessor of the owner returns a Block whose parent
is the owner: `b` itself if `b` is a Block, and otherwise a Block that did not
exist before, whose child list is `[b]` and which is the parent of `b`.  The
same holds of the true branch of a `Cond` constructed with `b` as true branch,
and of the false branch of a `Cond` constructed with `b` as false branch when
the true branch is null or another existing statement, or when `b` is a
Block. -/
theorem bodies_normalised (h : Heap) (b : Ptr) (hb : b < h.next)
    (hn : get_parent h b = none) :
    (∀ var start stop,
      (For.new h var start stop (some b)).1 = h.next ∧
      Normalised h (For.new h var start stop (some b)).2 h.next b
        (For.body (For.new h var start stop (some b)).2 h.next)) ∧
    (∀ var start stop,
      (For.make h var start stop (some b)).1 = some h.next ∧
      Normalised h (For.make h var start stop (some b)).2 h.next b
        (For.body (For.make h var start stop (some b)).2 h.next)) ∧
    (∀ (var : Var) (start stop : Expr) (o : LoopOptions),
      (For.newWithOptions h (some var) (some start) (some stop) (some b) o).1 = .ok h.next ∧
      Normalised h (For.newWithOptions h (some var) (some start) (some stop) (some b) o).2
        h.next b
        (For.body (For.newWithOptions h (some var) (some start) (some stop) (some b) o).2
          h.next)) ∧
    (∀ f, Normalised h (For.set_body h f (some b)) f b
      (For.body (For.set_body h f (some b)) f)) ∧
    (∀ c, Normalised h (Cond.set_true_stmt h c (some b)) c b
      (Cond.true_stmt (Cond.set_true_stmt h c (some b)) c)) ∧
    (∀ c, Normalised h (Cond.set_false_stmt h c (some b)) c b
      (Cond.false_stmt (Cond.set_false_stmt h c (some b)) c)) ∧
    (∀ cond f, (∀ p, f = some p → p < h.next) →
      (Cond.new h cond (some b) f).1 = h.next ∧
      Normalised h (Cond.new h cond (some b) f).2 h.next b
        (Cond.true_stmt (Cond.new h cond (some b) f).2 h.next)) ∧
    (∀ cond t, (∀ p, t = some p → p < h.next) → (t ≠ some b ∨ isBlock h b = true) →
      (Cond.new h cond t (some b)).1 = h.next ∧
      Normalised h (Cond.new h cond t (some b)).2 h.next b
        (Cond.false_stmt (Cond.new h cond t (some b)).2 h.next)) :=
  ⟨fun var start stop => for_new_normalised h var start stop b hb hn,
    fun var start stop => ⟨rfl, (for_new_normalised h var start stop b hb hn).2⟩,
    fun var start stop o => for_newWithOptions_normalised h var start stop o b hb hn,
    fun f => set_body_normalised h f b hb hn,
    fun c => set_true_stmt_normalised h c b hb hn,
    fun c => set_false_stmt_normalised h c b hb hn,
    fun cond f hf => ⟨rfl, cond_new_true_normalised h cond b f hb hn hf⟩,
    fun cond t ht hd => ⟨rfl, cond_new_false_normalised h cond b t hb hn ht hd⟩⟩

/-- C16 does not hold of the code.  In the sample arena the Store `3` has no
parent.  A `Cond` constructed with `3` as both branches sits at address `6`.
Its constructor wraps `3` for the true branch in the new Block `7`, which adopts
it, and wraps it again for the false branch in the new Block `8`, whose
`Block::init` pushes `3` without adopting it: the false branch is Block `8`,
whose child list is `[3]`, but the parent of `3` is Block `7`, not Block `8`. -/
theorem cond_same_branches :
    get_parent sampleHeap 3 = none ∧ isBlock sampleHeap 3 = false ∧
    (Cond.new sampleHeap none (some 3) (some 3)).1 = 6 ∧
    Cond.true_stmt (Cond.new sampleHeap none (some 3) (some 3)).2 6 = some 7 ∧
    Cond.false_stmt (Cond.new sampleHeap none (some 3) (some 3)).2 6 = some 8 ∧
    (Cond.new sampleHeap none (some 3) (some 3)).2.stmts_ 8 = [3] ∧
    get_parent (Cond.new sampleHeap none (some 3) (some 3)).2 3 = some 7 ∧
    get_parent (Cond.new sampleHeap none (some 3) (some 3)).2 3 ≠ some 8 :=
  ⟨by decide, by decide, by decide, by decide, by decide, by decide, by decide, by decide⟩

/-! ## Checks at the construction of a `For` -/

/-- C15, as the code has it by design.  The constructor with loop options
throws `malformed_input`, leaving the arena as it was, when the variable, the
start, the stop or the body is null or when the body, an existing statement,
has a parent; otherwise it returns the new node.  `cloneWithNewBody` is that
constructor on the members of the receiver, so it throws for a null or parented
body.  `For::make` with loop options returns null without throwing for a null
body and behaves as the constructor for any other body; `For::make` without
loop options returns null for a null body. -/
theorem for_construction_checks (h : Heap) (var : Option Var) (start stop : Option Expr)
    (o : LoopOptions) :
    (∀ body, (var = none ∨ start = none ∨ stop = none ∨ body = none ∨
        ∃ b, body = some b ∧ b < h.next ∧ get_parent h b ≠ none) →
      For.newWithOptions h var start stop body o = (.error .malformed_input, h)) ∧
    (∀ b, var ≠ none → start ≠ none → stop ≠ none → b < h.next → get_parent h b = none →
      (For.newWithOptions h var start stop (some b) o).1 = .ok h.next) ∧
    (∀ this body, (body = none ∨ ∃ b, body = some b ∧ b < h.next ∧ get_parent h b ≠ none) →
      For.cloneWithNewBody h this body = (.error .malformed_input, h)) ∧
    For.makeWithOptions h var start stop none o = (.ok none, h) ∧
    (∀ b, (var = none ∨ start = none ∨ stop = none ∨
        (b < h.next ∧ get_parent h b ≠ none)) →
      For.makeWithOptions h var start stop (some b) o = (.error .malformed_input, h)) ∧
    For.make h var start stop none = (none, h) := by
  have hbad : ∀ (v : Option Var) (s e : Option Expr) (body : Option Ptr) (lo : LoopOptions),
      (v = none ∨ s = none ∨ e = none ∨ body = none ∨
        ∃ b, body = some b ∧ b < h.next ∧ get_parent h b ≠ none) →
      For.newWithOptions h v s e body lo = (.error .malformed_input, h) := by
    intro v s e body lo hcase
    rcases hcase with rfl | rfl | rfl | rfl | ⟨b, rfl, hb, hpar⟩
    · simp [For.newWithOptions]
    · cases v <;> simp [For.newWithOptions]
    · cases v <;> cases s <;> simp [For.newWithOptions]
    · cases v <;> cases s <;> cases e <;> simp [For.newWithOptions]
    · have hne : b ≠ h.next := Nat.ne_of_lt hb
      have hp : (get_parent (put_options (For.fresh h v s e) h.next lo) b).isSome = true := by
        have : get_parent (put_options (For.fresh h v s e) h.next lo) b = get_parent h b := by
          simp [get_parent, put_options, For.fresh, Function.update_apply, hne]
        rw [this]
        exact Option.isSome_iff_ne_none.mpr hpar
      cases v <;> cases s <;> cases e <;> simp [For.newWithOptions, hp]
  refine ⟨fun body hcase => hbad var start stop body o hcase, ?_, ?_, rfl, ?_, rfl⟩
  · intro b hv hs he hb hpar
    have hne : b ≠ h.next := Nat.ne_of_lt hb
    have hp : get_parent (put_options (For.fresh h var start stop) h.next o) b = none := by
      simpa [get_parent, put_options, For.fresh, Function.update_apply, hne] using hpar
    obtain ⟨v, rfl⟩ := Option.ne_none_iff_exists'.mp hv
    obtain ⟨s, rfl⟩ := Option.ne_none_iff_exists'.mp hs
    obtain ⟨e, rfl⟩ := Option.ne_none_iff_exists'.mp he
    simp [For.newWithOptions, hp]
  · intro this body hcase
    exact hbad _ _ _ body _ (Or.inr (Or.inr (Or.inr hcase)))
  · intro b hcase
    have : For.newWithOptions h var start stop (some b) o = (.error .malformed_input, h) := by
      apply hbad
      rcases hcase with h1 | h1 | h1 | h1
      · exact Or.inl h1
      · exact Or.inr (Or.inl h1)
      · exact Or.inr (Or.inr (Or.inl h1))
      · exact Or.inr (Or.inr (Or.inr (Or.inr ⟨b, rfl, h1.1, h1.2⟩)))
    simp [For.makeWithOptions, this]

/-- Instance of C15 on the sample arena: the Store `1`, a child of Block `0`,
is refused as a loop body by the constructor with loop options, and the
detached Store `3` is accepted. -/
theorem for_construction_checks_witness :
    (1 : Ptr) < sampleHeap.next ∧ get_parent sampleHeap 1 ≠ none ∧
    For.newWithOptions sampleHeap (some 0) (some (Expr.IntImm 0)) (some (Expr.IntImm 4))
      (some 1) LoopOptions.default = (.error .malformed_input, sampleHeap) ∧
    For.newWithOptions sampleHeap none (some (Expr.IntImm 0)) (some (Expr.IntImm 4))
      (some 3) LoopOptions.default = (.error .malformed_input, sampleHeap) ∧
    (For.newWithOptions sampleHeap (some 0) (some (Expr.IntImm 0)) (some (Expr.IntImm 4))
      (some 3) LoopOptions.default).1 = .ok sampleHeap.next :=
  have h1 : (1 : Ptr) < sampleHeap.next := by decide
  have p1 : get_parent sampleHeap 1 ≠ none := by decide
  ⟨h1, p1,
    (for_construction_checks sampleHeap (some 0) (some (Expr.IntImm 0)) (some (Expr.IntImm 4))
      LoopOptions.default).1 (some 1) (Or.inr (Or.inr (Or.inr (Or.inr ⟨1, rfl, h1, p1⟩)))),
    (for_construction_checks sampleHeap none (some (Expr.IntImm 0)) (some (Expr.IntImm 4))
      LoopOptions.default).1 (some 3) (Or.inl rfl),
    (for_construction_checks sampleHeap (some 0) (some (Expr.IntImm 0)) (some (Expr.IntImm 4))
      LoopOptions.default).2.1 3 (by decide) (by decide) (by decide) (by decide) (by decide)⟩

/-- C15 fails as stated.  Both `For::make` overloads return null for a null
body instead of throwing.  The constructor without loop options checks
nothing: given a null variable, null bounds and the Store `1`, which is a child
of Block `0`, it returns the loop `6` whose body is the new Block `7` listing
`1`, while the parent of `1` is still Block `0`. -/
theorem for_construction_unchecked :
    For.make sampleHeap (some 0) (some (Expr.IntImm 0)) (some (Expr.IntImm 4)) none
      = (none, sampleHeap) ∧
    For.makeWithOptions sampleHeap (some 0) (some (Expr.IntImm 0)) (some (Expr.IntImm 4)) none
      LoopOptions.default = (.ok none, sampleHeap) ∧
    get_parent sampleHeap 1 = some 0 ∧
    (For.new sampleHeap none none none (some 1)).1 = 6 ∧
    (For.new sampleHeap none none none (some 1)).2.kind 6 = some StmtKind.For ∧
    (For.new sampleHeap none none none (some 1)).2.var_ 6 = none ∧
    For.body (For.new sampleHeap none none none (some 1)).2 6 = some 7 ∧
    (For.new sampleHeap none none none (some 1)).2.stmts_ 7 = [1] ∧
    get_parent (For.new sampleHeap none none none (some 1)).2 1 = some 0 :=
  ⟨rfl, rfl, by decide, by decide, by decide, by decide, by decide, by decide, by decide⟩

/-! ## Rendering a hardware index -/

/-- C21: `gpu_block_index_str` throws `malformed_input` exactly when the block
index is unset or lies outside `0..3`; otherwise the block index is some `k`
below 4 and the call returns the `k`-th of the names `blockIdx.x`, `blockIdx.y`,
`blockIdx.z`, `blockIdx.w`, so that index 2 gives `blockIdx.z`.
`gpu_thread_index_str` does the same with the names `threadIdx.x`, `threadIdx.y`,
`threadIdx.z`, `threadIdx.w`.  Both leave the object as it was. -/
theorem gpu_index_str_spec (o : LoopOptions) :
    ((o.gpu_block_index_str.1 = .error .malformed_input ↔
        (o.is_gpu_block_index = false ∨ o.gpu_block_index < 0 ∨ 3 < o.gpu_block_index)) ∧
      (o.gpu_block_index_str.1 ≠ .error .malformed_input →
        ∃ k : Nat, k < 4 ∧ o.gpu_block_index = (k : Int) ∧
          o.gpu_block_index_str.1 =
            .ok (["blockIdx.x", "blockIdx.y", "blockIdx.z", "blockIdx.w"].getD k "")) ∧
      (o.gpu_block_index = 2 → o.gpu_block_index_str.1 = .ok "blockIdx.z") ∧
      o.gpu_block_index_str.2 = o) ∧
    ((o.gpu_thread_index_str.1 = .error .malformed_input ↔
        (o.is_gpu_thread_index = false ∨ o.gpu_thread_index < 0 ∨ 3 < o.gpu_thread_index)) ∧
      (o.gpu_thread_index_str.1 ≠ .error .malformed_input →
        ∃ k : Nat, k < 4 ∧ o.gpu_thread_index = (k : Int) ∧
          o.gpu_thread_index_str.1 =
            .ok (["threadIdx.x", "threadIdx.y", "threadIdx.z", "threadIdx.w"].getD k "")) ∧
      (o.gpu_thread_index = 2 → o.gpu_thread_index_str.1 = .ok "threadIdx.z") ∧
      o.gpu_thread_index_str.2 = o) := by
  obtain ⟨b, t, p, m⟩ := o
  constructor
  · simp only [LoopOptions.gpu_block_index_str, LoopOptions.is_gpu_block_index,
      LoopOptions.gpu_block_index, LoopOptions.IDX_UNSET, LoopOptions.IDX_X,
      LoopOptions.IDX_MAX, LoopOptions.IDX_W, LoopOptions.kBlockIndexNames]
    by_cases hb : b = -1
    · subst hb
      simp
    · by_cases hr : b < 0 ∨ b > 3
      · simp [hb, hr]
        rcases hr with h1 | h1 <;> omega
      · have h0 : 0 ≤ b := by omega
        have h3 : b ≤ 3 := by omega
        obtain ⟨k, rfl⟩ := Int.eq_ofNat_of_zero_le h0
        have hk : k < 4 := by omega
        simp only [hb, hr, bne_iff_ne, ne_eq, not_false_eq_true, decide_True, Bool.not_true,
          Bool.false_eq_true, if_false, Int.toNat_ofNat]
        refine ⟨?_, ?_, ?_, ?_⟩
        · constructor
          · intro hc
            exact absurd hc (by simp)
          · intro hc
            exfalso
            rcases hc with h1 | h1 | h1
            all_goals first | omega | simp at h1
        · intro _
          exact ⟨k, hk, rfl, rfl⟩
        · intro h2
          have : k = 2 := by omega
          subst this
          rfl
        · trivial
  · simp only [LoopOptions.gpu_thread_index_str, LoopOptions.is_gpu_thread_index,
      LoopOptions.gpu_thread_index, LoopOptions.IDX_UNSET, LoopOptions.IDX_X,
      LoopOptions.IDX_MAX, LoopOptions.IDX_W, LoopOptions.kThreadIndexNames]
    by_cases hb : t = -1
    · subst hb
      simp
    · by_cases hr : t < 0 ∨ t > 3
      · simp [hb, hr]
        rcases hr with h1 | h1 <;> omega
      · have h0 : 0 ≤ t := by omega
        have h3 : t ≤ 3 := by omega
        obtain ⟨k, rfl⟩ := Int.eq_ofNat_of_zero_le h0
        have hk : k < 4 := by omega
        simp only [hb, hr, bne_iff_ne, ne_eq, not_false_eq_true, decide_True, Bool.not_true,
          Bool.false_eq_true, if_false, Int.toNat_ofNat]
        refine ⟨?_, ?_, ?_, ?_⟩
        · constructor
          · intro hc
            exact absurd hc (by simp)
          · intro hc
            exfalso
            rcases hc with h1 | h1 | h1
            all_goals first | omega | simp at h1
        · intro _
          exact ⟨k, hk, rfl, rfl⟩
        · intro h2
          have : k = 2 := by omega
          subst this
          rfl
        · trivial

/-- Instance of C21: after `set_gpu_block_index(IDX_Z)` on a default-constructed
object the block index renders as `blockIdx.z`, and rendering the thread index,
which is unset, throws `malformed_input`. -/
theorem gpu_index_str_spec_witness :
    (LoopOptions.run [LoopOptions.Call.block LoopOptions.IDX_Z]).gpu_block_index = 2 ∧
    (LoopOptions.run [LoopOptions.Call.block LoopOptions.IDX_Z]).gpu_block_index_str.1
      = .ok "blockIdx.z" ∧
    (LoopOptions.run [LoopOptions.Call.block LoopOptions.IDX_Z]).gpu_thread_index_str.1
      = .error .malformed_input :=
  have h2 : (LoopOptions.run [LoopOptions.Call.block LoopOptions.IDX_Z]).gpu_block_index = 2 := by
    decide
  ⟨h2,
    (gpu_index_str_spec (LoopOptions.run [LoopOptions.Call.block LoopOptions.IDX_Z])).1.2.2.1 h2,
    (gpu_index_str_spec (LoopOptions.run [LoopOptions.Call.block LoopOptions.IDX_Z])).2.1.mpr
      (Or.inl (by decide))⟩

/-! ## Block index and thread index exclude each other -/

theorem step_keeps_exclusive (o : LoopOptions) (c : LoopOptions.Call)
    (ho : (o.is_gpu_block_index && o.is_gpu_thread_index) = false) :
    ((o.step c).is_gpu_block_index && (o.step c).is_gpu_thread_index) = false := by
  obtain ⟨b, t, p, m⟩ := o
  cases c with
  | block i =>
    by_cases ht : t = -1 <;> by_cases hb : b = -1 <;> by_cases hi : i = -1 <;>
      by_cases hbi : b = i <;>
      simp_all [LoopOptions.step, LoopOptions.set_gpu_block_index,
        LoopOptions.is_gpu_thread_index, LoopOptions.is_gpu_block_index,
        LoopOptions.gpu_block_index, LoopOptions.gpu_thread_index, LoopOptions.IDX_UNSET]
  | thread i =>
    by_cases ht : t = -1 <;> by_cases hb : b = -1 <;> by_cases hi : i = -1 <;>
      by_cases hti : t = i <;>
      simp_all [LoopOptions.step, LoopOptions.set_gpu_thread_index,
        LoopOptions.is_gpu_thread_index, LoopOptions.is_gpu_block_index,
        LoopOptions.gpu_block_index, LoopOptions.gpu_thread_index, LoopOptions.IDX_UNSET]
  | parallel =>
    simpa [LoopOptions.step, LoopOptions.set_parallel, LoopOptions.is_gpu_thread_index,
      LoopOptions.is_gpu_block_index, LoopOptions.gpu_thread_index] using ho

theorem foldl_keeps_exclusive (calls : List LoopOptions.Call) :
    ∀ o : LoopOptions, (o.is_gpu_block_index && o.is_gpu_thread_index) = false →
      ((calls.foldl LoopOptions.step o).is_gpu_block_index &&
        (calls.foldl LoopOptions.step o).is_gpu_thread_index) = false := by
  induction calls with
  | nil => intro o ho; exact ho
  | cons c calls ih =>
    intro o ho
    exact ih (o.step c) (step_keeps_exclusive o c ho)

/-- C22: after any finite sequence of calls of `set_gpu_block_index`,
`set_gpu_thread_index` and `set_parallel` on a default-constructed object, with
any integer arguments and whether the calls return or throw, the block index
and the thread index are not both assigned.  `set_parallel` changes neither
index, and the two index setters never change the parallel flag, whether they
return or throw. -/
theorem index_axes_exclusive (calls : List LoopOptions.Call) (o : LoopOptions) (i : Int) :
    ((LoopOptions.run calls).is_gpu_block_index &&
      (LoopOptions.run calls).is_gpu_thread_index) = false ∧
    (o.set_parallel.gpu_block_index = o.gpu_block_index ∧
      o.set_parallel.gpu_thread_index = o.gpu_thread_index) ∧
    ((o.set_gpu_block_index i).2.is_parallel = o.is_parallel ∧
      (o.set_gpu_thread_index i).2.is_parallel = o.is_parallel) := by
  refine ⟨foldl_keeps_exclusive calls LoopOptions.default (by decide), ⟨rfl, rfl⟩, ?_, ?_⟩
  · simp only [LoopOptions.set_gpu_block_index, LoopOptions.is_parallel]
    split_ifs <;> rfl
  · simp only [LoopOptions.set_gpu_thread_index, LoopOptions.is_parallel]
    split_ifs <;> rfl

/-! ## The kinds of failure -/

/-- C23, as the code has it: three kinds of failure are raised.  Whenever one of
the two index setters of `LoopOptions` throws, it throws `std::runtime_error`,
and it does so when the other axis is assigned and when the axis is assigned a
value other than the one it holds.  `flat_index` of a `Store` or of an
`AtomicAdd` whose index list does not have exactly one element fails in
`TORCH_CHECK`, and has no other failure.  `malformed_input` is what
`append_stmt` throws for a statement that has a parent, and it is the only
failure of `prepend_stmt`, `append_stmt`, `insert_stmt_before`,
`insert_stmt_after`, `replace_stmt`, of the `For` constructor with loop options
and of the two calls that render a hardware index. -/
theorem failure_kinds (h : Heap) (o : LoopOptions) (i : Int) (B s anchor : Ptr) :
    ((∀ e, (o.set_gpu_block_index i).1 = .error e → e = .runtime_error) ∧
      (∀ e, (o.set_gpu_thread_index i).1 = .error e → e = .runtime_error) ∧
      (o.is_gpu_thread_index = true →
        (o.set_gpu_block_index i).1 = .error .runtime_error) ∧
      (o.is_gpu_block_index = true →
        (o.set_gpu_thread_index i).1 = .error .runtime_error) ∧
      (o.is_gpu_block_index = true → o.gpu_block_index ≠ i → i ≠ LoopOptions.IDX_UNSET →
        (o.set_gpu_block_index i).1 = .error .runtime_error) ∧
      (o.is_gpu_thread_index = true → o.gpu_thread_index ≠ i → i ≠ LoopOptions.IDX_UNSET →
        (o.set_gpu_thread_index i).1 = .error .runtime_error)) ∧
    (((h.indices_ s).length ≠ 1 →
        Store.flat_index h s = .error .torch_check_failed ∧
        AtomicAdd.flat_index h s = .error .torch_check_failed) ∧
      (∀ e, Store.flat_index h s = .error e ∨ AtomicAdd.flat_index h s = .error e →
        e = .torch_check_failed)) ∧
    ((get_parent h s ≠ none → (Block.append_stmt h B s).1 = .error .malformed_input) ∧
      (∀ e, (Block.prepend_stmt h B s).1 = .error e ∨ (Block.append_stmt h B s).1 = .error e ∨
          (Block.insert_stmt_before h B s anchor).1 = .error e ∨
          (Block.insert_stmt_after h B s anchor).1 = .error e ∨
          (Block.replace_stmt h B anchor s).1 = .error e →
        e = .malformed_input) ∧
      (∀ var start stop body e,
        (For.newWithOptions h var start stop body o).1 = .error e → e = .malformed_input) ∧
      (∀ e, o.gpu_block_index_str.1 = .error e ∨ o.gpu_thread_index_str.1 = .error e →
        e = .malformed_input)) := by
  refine ⟨⟨?_, ?_, ?_, ?_, ?_, ?_⟩, ⟨?_, ?_⟩, ⟨?_, ?_, ?_, ?_⟩⟩
  · intro e he
    simp only [LoopOptions.set_gpu_block_index] at he
    split_ifs at he <;> (cases he; rfl)
  · intro e he
    simp only [LoopOptions.set_gpu_thread_index] at he
    split_ifs at he <;> (cases he; rfl)
  · intro ht
    obtain ⟨b, t, p, m⟩ := o
    by_cases hi : i = LoopOptions.IDX_UNSET <;>
      simp_all [LoopOptions.set_gpu_block_index, LoopOptions.is_gpu_thread_index,
        LoopOptions.gpu_thread_index]
  · intro hb
    obtain ⟨b, t, p, m⟩ := o
    by_cases hi : i = LoopOptions.IDX_UNSET <;>
      simp_all [LoopOptions.set_gpu_thread_index, LoopOptions.is_gpu_block_index]
  · intro hb hne hi
    obtain ⟨b, t, p, m⟩ := o
    by_cases ht : t = LoopOptions.IDX_UNSET <;>
      simp_all [LoopOptions.set_gpu_block_index, LoopOptions.is_gpu_thread_index,
        LoopOptions.gpu_thread_index, LoopOptions.is_gpu_block_index,
        LoopOptions.gpu_block_index]
  · intro ht hne hi
    obtain ⟨b, t, p, m⟩ := o
    by_cases hb : b = LoopOptions.IDX_UNSET <;>
      simp_all [LoopOptions.set_gpu_thread_index, LoopOptions.is_gpu_thread_index,
        LoopOptions.gpu_thread_index, LoopOptions.is_gpu_block_index,
        LoopOptions.gpu_block_index]
  · intro hl
    simp [Store.flat_index, AtomicAdd.flat_index, hl]
  · intro e he
    simp only [Store.flat_index, AtomicAdd.flat_index] at he
    rcases he with he | he <;> split_ifs at he <;>
      first | (cases he; rfl) | (split at he <;> first | (cases he; rfl) | cases he)
  · intro hp
    have : (get_parent h s).isSome = true := Option.isSome_iff_ne_none.mpr hp
    simp [Block.append_stmt, this]
  · intro e he
    simp only [Block.prepend_stmt, Block.append_stmt, Block.insert_stmt_before,
      Block.insert_stmt_after, Block.replace_stmt] at he
    rcases he with he | he | he | he | he <;> split_ifs at he <;>
      (cases he; rfl)
  · intro var start stop body e he
    simp only [For.newWithOptions] at he
    split_ifs at he <;> first | (cases he; rfl) | cases he | skip
    all_goals
      split at he
      · cases he; rfl
      · split_ifs at he
        cases he; rfl
  · intro e he
    simp only [LoopOptions.gpu_block_index_str, LoopOptions.gpu_thread_index_str] at he
    rcases he with he | he <;> split_ifs at he <;> (cases he; rfl)

/-- Instance of C23 on the sample arena and on the object that
`set_gpu_thread_index(0)` leaves: assigning a block index throws
`std::runtime_error`, `flat_index` of the Store `3`, which has no index, fails
in `TORCH_CHECK`, and appending the child `1` of Block `0` again throws
`malformed_input`. -/
theorem failure_kinds_witness :
    (LoopOptions.run [LoopOptions.Call.thread 0]).is_gpu_thread_index = true ∧
    (sampleHeap.indices_ 3).length ≠ 1 ∧ get_parent sampleHeap 1 ≠ none ∧
    ((LoopOptions.run [LoopOptions.Call.thread 0]).set_gpu_block_index 1).1
      = .error .runtime_error ∧
    Store.flat_index sampleHeap 3 = .error .torch_check_failed ∧
    (Block.append_stmt sampleHeap 0 1).1 = .error .malformed_input :=
  have ht : (LoopOptions.run [LoopOptions.Call.thread 0]).is_gpu_thread_index = true := by decide
  have hl : (sampleHeap.indices_ 3).length ≠ 1 := by decide
  have hp : get_parent sampleHeap 1 ≠ none := by decide
  ⟨ht, hl, hp,
    (failure_kinds sampleHeap (LoopOptions.run [LoopOptions.Call.thread 0]) 1 0 3 0).1.2.2.1 ht,
    ((failure_kinds sampleHeap (LoopOptions.run [LoopOptions.Call.thread 0]) 1 0 3 0).2.1.1
      hl).1,
    (failure_kinds sampleHeap (LoopOptions.run [LoopOptions.Call.thread 0]) 1 0 1 0).2.2.1 hp⟩

/-- C23 fails as stated.  On the object that `set_gpu_thread_index(0)` leaves,
`set_gpu_block_index(1)` throws `std::runtime_error`; on the object that
`set_gpu_block_index(0)` leaves, `set_gpu_block_index(1)` throws
`std::runtime_error`; `flat_index` of the Store `3` of the sample arena, whose
index list is empty, fails in `TORCH_CHECK`.  None of these is the
`malformed_input` that `append_stmt` throws for the parented statement `1`. -/
theorem index_conflict_not_malformed_input :
    ((LoopOptions.run [LoopOptions.Call.thread 0]).set_gpu_block_index 1).1
      = .error .runtime_error ∧
    ((LoopOptions.run [LoopOptions.Call.block 0]).set_gpu_block_index 1).1
      = .error .runtime_error ∧
    ((LoopOptions.run [LoopOptions.Call.block 0]).set_gpu_thread_index 0).1
      = .error .runtime_error ∧
    sampleHeap.indices_ 3 = [] ∧
    Store.flat_index sampleHeap 3 = .error .torch_check_failed ∧
    AtomicAdd.flat_index sampleHeap 3 = .error .torch_check_failed ∧
    (Block.append_stmt sampleHeap 0 1).1 = .error .malformed_input ∧
    Error.runtime_error ≠ Error.malformed_input ∧
    Error.torch_check_failed ≠ Error.malformed_input :=
  ⟨rfl, rfl, rfl, rfl, rfl, rfl, rfl, by decide, by decide⟩

/-! ## Back pointers of the lowered tree -/

theorem between_two (n p : Nat) (h1 : n ≤ p) (h2 : p < n + 2) : p = n ∨ p = n + 1 := by
  omega

/-- A parent chain that reaches `s` inside the old nodes is still there when
only the parent of `s` and of nodes outside them was changed. -/
theorem chain_kept (lo : Ptr) (g g2 : Heap) (s : Ptr)
    (hrange : ∀ p, lo ≤ p → p < g.next → ∀ q, get_parent g p = some q → lo ≤ q ∧ q < g.next)
    (hsame : ∀ p, lo ≤ p → p < g.next → p ≠ s → get_parent g2 p = get_parent g p) :
    ∀ (k : Nat) (p : Ptr), lo ≤ p → p < g.next → nthParent g k (some p) = some s →
      ∃ k2, nthParent g2 k2 (some p) = some s := by
  intro k
  induction k with
  | zero =>
    intro p _ _ hk
    exact ⟨0, hk⟩
  | succ k ih =>
    intro p hlo hp hk
    by_cases hps : p = s
    · exact ⟨0, by rw [hps]; rfl⟩
    · have hk2 : nthParent g k (get_parent g p) = some s := hk
      cases hq : get_parent g p with
      | none =>
        rw [hq, nthParent_none] at hk2
        cases hk2
      | some q =>
        rw [hq] at hk2
        obtain ⟨hq1, hq2⟩ := hrange p hlo hp q hq
        obtain ⟨k2, hk3⟩ := ih q hq1 hq2 hk2
        refine ⟨k2 + 1, ?_⟩
        show nthParent g2 k2 (get_parent g2 p) = some s
        rw [hsame p hlo hp hps, hq]
        exact hk3

/-- A tree stays a tree when its root `s` is given a parent `q` among newly
allocated nodes that are sound themselves and have the root `r`. -/
theorem TreeInv.graft {lo : Ptr} {g g2 : Heap} {s r q : Ptr} (hT : TreeInv lo g s)
    (hnext : g.next ≤ g2.next)
    (hold : ∀ p, lo ≤ p → p < g.next →
      g2.kind p = g.kind p ∧ g2.stmts_ p = g.stmts_ p ∧ g2.body_ p = g.body_ p ∧
      (p ≠ s → get_parent g2 p = get_parent g p))
    (hsq : get_parent g2 s = some q) (hq1 : g.next ≤ q) (hq2 : q < g2.next)
    (hr1 : g.next ≤ r) (hr2 : r < g2.next) (hrp : get_parent g2 r = none)
    (hnew : ∀ p, g.next ≤ p → p < g2.next → NodeOK lo g2 r p) :
    TreeInv lo g2 r := by
  obtain ⟨hs1, hs2, hs3, hall⟩ := hT
  have hlon : lo ≤ g.next := Nat.le_trans hs1 (Nat.le_of_lt hs2)
  refine ⟨Nat.le_trans hlon hr1, hr2, hrp, fun p hlo hp2 => ?_⟩
  by_cases hp : p < g.next
  · obtain ⟨hFor, hBlk, hPar, k, hk⟩ := hall p hlo hp
    obtain ⟨ek, es, eb, ep⟩ := hold p hlo hp
    have hnots : ∀ c, lo ≤ c → c < g.next → get_parent g c = some p →
        get_parent g2 c = some p := by
      intro c hc1 hc2 hc3
      have hcs : c ≠ s := by
        intro e
        rw [e, hs3] at hc3
        cases hc3
      rw [(hold c hc1 hc2).2.2.2 hcs]
      exact hc3
    refine ⟨?_, ?_, ?_, ?_⟩
    · intro hkind
      rw [ek] at hkind
      obtain ⟨b, hb, hb1, hb2, hb3, hb4⟩ := hFor hkind
      refine ⟨b, by rw [eb]; exact hb, hb1, Nat.lt_of_lt_of_le hb2 hnext, ?_,
        hnots b hb1 hb2 hb4⟩
      simpa [isBlock, (hold b hb1 hb2).1] using hb3
    · intro hkind
      rw [ek] at hkind
      obtain ⟨hch, hnd⟩ := hBlk hkind
      rw [es]
      refine ⟨fun c hc => ?_, hnd⟩
      obtain ⟨hc1, hc2, hc3⟩ := hch c hc
      exact ⟨hc1, Nat.lt_of_lt_of_le hc2 hnext, hnots c hc1 hc2 hc3⟩
    · intro q2 hq
      by_cases hps : p = s
      · rw [hps, hsq] at hq
        cases hq
        exact ⟨Nat.le_trans hlon hq1, hq2⟩
      · rw [ep hps] at hq
        obtain ⟨a, b⟩ := hPar q2 hq
        exact ⟨a, Nat.lt_of_lt_of_le b hnext⟩
    · obtain ⟨k2, hk2⟩ := chain_kept lo g g2 s
        (fun p hlo hp => (hall p hlo hp).2.2.1)
        (fun p hlo hp hps => (hold p hlo hp).2.2.2 hps) k p hlo hp hk
      obtain ⟨-, -, -, k3, hk3⟩ := hnew q hq1 hq2
      refine ⟨k2 + (k3 + 1), ?_⟩
      rw [nthParent_add, hk2]
      show nthParent g2 k3 (get_parent g2 s) = some r
      rw [hsq]
      exact hk3
  · exact hnew p (Nat.le_of_not_lt hp) hp2

/-- A newly constructed Store is a tree of one node. -/
theorem Store.alloc_treeInv (h : Heap) (b : Option Buf) (i : List Expr) (v : Option Expr) :
    (Store.new h b i v).1 = h.next ∧ TreeInv h.next (Store.new h b i v).2 h.next := by
  refine ⟨rfl, Nat.le_refl _, Nat.lt_succ_self _, by simp [Store.new, get_parent], ?_⟩
  intro p hlo hp
  have hpe : p = h.next := Nat.le_antisymm (Nat.le_of_lt_succ hp) hlo
  subst hpe
  refine ⟨?_, ?_, ?_, ⟨0, rfl⟩⟩
  · intro hk
    simp [Store.new] at hk
  · intro hk
    simp [Store.new] at hk
  · intro q hq
    simp [Store.new, get_parent] at hq

/-- The constructor of `For` puts a tree below the new loop. -/
theorem For.wrap_treeInv (lo : Ptr) (g : Heap) (s : Ptr) (hT : TreeInv lo g s)
    (var : Option Var) (start stop : Option Expr) :
    TreeInv lo (For.new g var start stop (some s)).2 (For.new g var start stop (some s)).1 := by
  obtain ⟨hs1, hs2, hs3, hall⟩ := id hT
  have hsn : s ≠ g.next := Nat.ne_of_lt hs2
  have hsn1 : s ≠ g.next + 1 := Nat.ne_of_lt (Nat.lt_succ_of_lt hs2)
  have hn01 : g.next ≠ g.next + 1 := Nat.ne_of_lt (Nat.lt_succ_self _)
  have hps : g.parent_ s = none := hs3
  have hkf : isBlock (For.fresh g var start stop) s = isBlock g s := by
    simp [isBlock, For.fresh, Function.update_apply, hsn]
  cases hblk : isBlock g s with
  | true =>
    have hnew : For.new g var start stop (some s) =
        (g.next, set_parent (put_body (For.fresh g var start stop) g.next (some s)) s
          (some g.next)) := by
      simp [For.new, hkf, hblk]
    rw [hnew]
    refine hT.graft (q := g.next) (Nat.le_succ _) ?_ ?_ (Nat.le_refl _) (Nat.lt_succ_self _)
      (Nat.le_refl _) (Nat.lt_succ_self _) ?_ ?_
    · intro p _ hp
      have hne : p ≠ g.next := Nat.ne_of_lt hp
      refine ⟨?_, rfl, ?_, fun hpne => ?_⟩
      · simp [For.fresh, put_body, set_parent, Function.update_apply, hne]
      · simp [For.fresh, put_body, set_parent, Function.update_apply, hne]
      · simp [For.fresh, put_body, set_parent, get_parent, Function.update_apply, hne, hpne]
    · simp [For.fresh, put_body, set_parent, get_parent]
    · simp [For.fresh, put_body, set_parent, get_parent, Function.update_apply, hsn.symm]
    · intro p hp1 hp2
      have hpe : p = g.next := Nat.le_antisymm (Nat.le_of_lt_succ hp2) hp1
      subst hpe
      refine ⟨fun _ => ⟨s, ?_, hs1, Nat.lt_succ_of_lt hs2, ?_, ?_⟩, ?_, ?_, ⟨0, rfl⟩⟩
      · simp [For.fresh, put_body, set_parent]
      · have : isBlock (set_parent (put_body (For.fresh g var start stop) g.next (some s)) s
            (some g.next)) s = isBlock (For.fresh g var start stop) s := rfl
        rw [this, hkf, hblk]
      · simp [For.fresh, put_body, set_parent, get_parent]
      · intro hk
        simp [For.fresh, put_body, set_parent] at hk
      · intro q hq
        simp [For.fresh, put_body, set_parent, get_parent, Function.update_apply, hsn.symm] at hq
  | false =>
    have hsf : s ≠ (For.fresh g var start stop).next := hsn1
    have hnew : For.new g var start stop (some s) =
        (g.next, set_parent (put_body (Block.wrapping (For.fresh g var start stop) s) g.next
          (some (g.next + 1))) (g.next + 1) (some g.next)) := by
      have hb := Block.new_single (For.fresh g var start stop) s hsf
      simp only [For.new, hkf, hblk, Bool.false_eq_true, if_false]
      rw [hb]
      rfl
    rw [hnew]
    obtain ⟨g2, hg2⟩ : ∃ g2, g2 = set_parent (put_body (Block.wrapping
        (For.fresh g var start stop) s) g.next (some (g.next + 1))) (g.next + 1)
        (some g.next) := ⟨_, rfl⟩
    rw [← hg2]
    have knext : g2.next = g.next + 2 := by rw [hg2]; rfl
    have kkind : ∀ p, g2.kind p =
        if p = g.next + 1 then some StmtKind.Block
        else if p = g.next then some StmtKind.For else g.kind p := by
      intro p
      rw [hg2]
      simp [Block.wrapping, For.fresh, put_body, set_parent, Function.update_apply]
    have kstmts : ∀ p, g2.stmts_ p = if p = g.next + 1 then [s] else g.stmts_ p := by
      intro p
      rw [hg2]
      simp [Block.wrapping, For.fresh, put_body, set_parent, Function.update_apply]
    have kbody : ∀ p, g2.body_ p = if p = g.next then some (g.next + 1) else g.body_ p := by
      intro p
      rw [hg2]
      simp [Block.wrapping, For.fresh, put_body, set_parent, Function.update_apply]
    have kpar : ∀ p, get_parent g2 p =
        if p = g.next + 1 then some g.next
        else if p = s then some (g.next + 1)
        else if p = g.next then none else get_parent g p := by
      intro p
      rw [hg2]
      simp only [Block.wrapping, For.fresh, put_body, set_parent, get_parent,
        Function.update_apply, hsn, if_false, hps, if_true]
      by_cases h1 : p = g.next + 1
      · simp [h1]
      · by_cases h2 : p = s
        · simp [h1, h2]
        · by_cases h3 : p = g.next
          · simp [h3, hn01, hsn.symm]
          · simp [h1, h2, h3]
    refine hT.graft (q := g.next + 1) (by rw [knext]; exact Nat.le_add_right _ _) ?_ ?_
      (Nat.le_succ _) (by rw [knext]; exact Nat.lt_succ_self _)
      (Nat.le_refl _) (by rw [knext]; exact Nat.lt_succ_of_lt (Nat.lt_succ_self _)) ?_ ?_
    · intro p _ hp
      have hne : p ≠ g.next := Nat.ne_of_lt hp
      have hne1 : p ≠ g.next + 1 := Nat.ne_of_lt (Nat.lt_succ_of_lt hp)
      refine ⟨?_, ?_, ?_, fun hpne => ?_⟩
      · rw [kkind]; simp [hne, hne1]
      · rw [kstmts]; simp [hne1]
      · rw [kbody]; simp [hne]
      · rw [kpar]; simp [hne, hne1, hpne]
    · rw [kpar]; simp [hsn1]
    · rw [kpar]; simp [hn01, hsn.symm]
    · intro p hp1 hp2
      rw [knext] at hp2
      rcases between_two _ _ hp1 hp2 with hpe | hpe
      · subst hpe
        refine ⟨fun _ => ⟨g.next + 1, ?_, ?_, ?_, ?_, ?_⟩, ?_, ?_, ⟨0, rfl⟩⟩
        · rw [kbody]; simp
        · exact Nat.le_trans hs1 (Nat.le_of_lt (Nat.lt_succ_of_lt hs2))
        · rw [knext]; exact Nat.lt_succ_self _
        · simp [isBlock, kkind]
        · rw [kpar]; simp
        · intro hk
          rw [kkind] at hk
          simp [hn01] at hk
        · intro q hq
          rw [kpar] at hq
          simp [hn01, hsn.symm] at hq
      · subst hpe
        refine ⟨?_, fun _ => ⟨?_, ?_⟩, ?_, ⟨1, ?_⟩⟩
        · intro hk
          rw [kkind] at hk
          simp at hk
        · intro c hc
          rw [kstmts] at hc
          simp only [if_true, List.mem_singleton] at hc
          subst hc
          refine ⟨hs1, by rw [knext]; exact Nat.lt_succ_of_lt (Nat.lt_succ_of_lt hs2), ?_⟩
          rw [kpar]; simp [hsn1]
        · rw [kstmts]; simp
        · intro q hq
          rw [kpar] at hq
          simp only [if_true, Option.some.injEq] at hq
          subst hq
          exact ⟨Nat.le_trans hs1 (Nat.le_of_lt hs2),
            by rw [knext]; exact Nat.lt_succ_of_lt (Nat.lt_succ_self _)⟩
        · show nthParent g2 0 (get_parent g2 (g.next + 1)) = some g.next
          rw [kpar]; simp [nthParent]

/-- The seed Store and the two-child Block of `constructStmt` put a tree below
the new Block. -/
theorem seed_treeInv (lo : Ptr) (g : Heap) (s : Ptr) (hT : TreeInv lo g s)
    (b : Option Buf) (i : List Expr) (v : Option Expr) :
    TreeInv lo
      (Block.new (Store.new g b i v).2 [some (Store.new g b i v).1, some s]).2
      (Block.new (Store.new g b i v).2 [some (Store.new g b i v).1, some s]).1 := by
  obtain ⟨hs1, hs2, hs3, hall⟩ := id hT
  have hsn : s ≠ g.next := Nat.ne_of_lt hs2
  have hsn1 : s ≠ g.next + 1 := Nat.ne_of_lt (Nat.lt_succ_of_lt hs2)
  have hn01 : g.next ≠ g.next + 1 := Nat.ne_of_lt (Nat.lt_succ_self _)
  have hps : g.parent_ s = none := hs3
  have hi : (Store.new g b i v).1 = g.next := rfl
  rw [hi]
  obtain ⟨g1, hg1⟩ : ∃ g1, g1 = (Store.new g b i v).2 := ⟨_, rfl⟩
  rw [← hg1]
  have j1 : g1.next = g.next + 1 := by rw [hg1]; rfl
  have j2 : g1.kind = Function.update g.kind g.next (some StmtKind.Store) := by rw [hg1]; rfl
  have j3 : g1.parent_ = Function.update g.parent_ g.next none := by rw [hg1]; rfl
  have j4 : g1.stmts_ = g.stmts_ := by rw [hg1]; rfl
  have j5 : g1.body_ = g.body_ := by rw [hg1]; rfl
  obtain ⟨hroot, hsk⟩ := Block.new_skeleton g1 [some g.next, some s]
  obtain ⟨e1, e2, e3, -, -, -, -, -, -, e10⟩ := Heap.skeleton_fields hsk
  simp only [Heap.skeleton] at e1 e2 e3 e10
  rw [hroot, j1]
  obtain ⟨g2, hg2⟩ : ∃ g2, g2 = (Block.new g1 [some g.next, some s]).2 := ⟨_, rfl⟩
  rw [← hg2] at e1 e2 e3 e10 ⊢
  have knext : g2.next = g.next + 2 := by rw [e1, j1]
  have kkind : ∀ p, g2.kind p =
      if p = g.next + 1 then some StmtKind.Block
      else if p = g.next then some StmtKind.Store else g.kind p := by
    intro p
    rw [e2, j1, j2]
    simp [Function.update_apply]
  have kstmts : ∀ p, g2.stmts_ p = if p = g.next + 1 then [g.next, s] else g.stmts_ p := by
    intro p
    rw [e3, j1, j4]
    simp [Function.update_apply]
  have kbody : g2.body_ = g.body_ := by rw [e10, j5]
  have kpar : ∀ p, get_parent g2 p =
      if p = g.next ∨ p = s then some (g.next + 1)
      else if p = g.next + 1 then none else get_parent g p := by
    intro p
    have hinit : g2.parent_ p =
        if some p ∈ [some g.next, some s] ∧
            (Function.update g1.parent_ g1.next none) p = none then some g1.next
        else (Function.update g1.parent_ g1.next none) p := by
      rw [hg2]
      simp only [Block.new]
      rw [Block.init_parent]
    show g2.parent_ p = _
    rw [hinit, j1, j3]
    by_cases h1 : p = g.next
    · subst h1
      simp [Function.update_apply, hn01]
    · by_cases h2 : p = s
      · subst h2
        simp [Function.update_apply, hsn, hsn1, hps]
      · by_cases h3 : p = g.next + 1
        · subst h3
          simp [Function.update_apply, hn01.symm, hsn1.symm]
        · simp [Function.update_apply, h1, h2, h3, get_parent]
  refine hT.graft (q := g.next + 1) (by rw [knext]; exact Nat.le_add_right _ _) ?_ ?_
    (Nat.le_succ _) (by rw [knext]; exact Nat.lt_succ_self _)
    (Nat.le_succ _) (by rw [knext]; exact Nat.lt_succ_self _) ?_ ?_
  · intro p _ hp
    have hne : p ≠ g.next := Nat.ne_of_lt hp
    have hne1 : p ≠ g.next + 1 := Nat.ne_of_lt (Nat.lt_succ_of_lt hp)
    refine ⟨?_, ?_, ?_, fun hpne => ?_⟩
    · rw [kkind]; simp [hne, hne1]
    · rw [kstmts]; simp [hne1]
    · rw [kbody]
    · rw [kpar]; simp [hne, hne1, hpne]
  · rw [kpar]; simp
  · rw [kpar]; simp [hn01.symm, hsn1.symm]
  · intro p hp1 hp2
    rw [knext] at hp2
    rcases between_two _ _ hp1 hp2 with hpe | hpe
    · subst hpe
      refine ⟨?_, ?_, ?_, ⟨1, ?_⟩⟩
      · intro hk
        rw [kkind] at hk
        simp [hn01] at hk
      · intro hk
        rw [kkind] at hk
        simp [hn01] at hk
      · intro q hq
        rw [kpar] at hq
        simp only [true_or, if_true, Option.some.injEq] at hq
        subst hq
        exact ⟨Nat.le_trans hs1 (Nat.le_of_lt (Nat.lt_succ_of_lt hs2)),
          by rw [knext]; exact Nat.lt_succ_self _⟩
      · show nthParent g2 0 (get_parent g2 g.next) = some (g.next + 1)
        rw [kpar]; simp [nthParent]
    · subst hpe
      refine ⟨?_, fun _ => ⟨?_, ?_⟩, ?_, ⟨0, rfl⟩⟩
      · intro hk
        rw [kkind] at hk
        simp at hk
      · intro c hc
        rw [kstmts] at hc
        simp only [if_true, List.mem_cons, List.mem_singleton, List.not_mem_nil, or_false] at hc
        refine ⟨?_, ?_, ?_⟩
        · rcases hc with hc | hc
          · rw [hc]; exact Nat.le_trans hs1 (Nat.le_of_lt hs2)
          · rw [hc]; exact hs1
        · rw [knext]
          rcases hc with hc | hc
          · rw [hc]; exact Nat.lt_succ_of_lt (Nat.lt_succ_self _)
          · rw [hc]; exact Nat.lt_succ_of_lt (Nat.lt_succ_of_lt hs2)
        · rw [kpar]; simp [hc]
      · rw [kstmts]; simp [hsn.symm]
      · intro q hq
        rw [kpar] at hq
        simp [hn01.symm, hsn1.symm] at hq

/-- Each loop of `constructStmt` runs to its end and keeps a tree. -/
theorem wrapDim_treeInv (vars : List Var) (extents : List Expr) (n : Nat)
    (hv : vars.length = n) (he : extents.length = n) (lo : Ptr) :
    ∀ k, k ≤ n → ∀ (h : Heap) (s : Ptr), TreeInv lo h s →
      ∃ r, (List.range k).foldlM (wrapDim vars extents n) (s, h) = some r ∧
        TreeInv lo r.2 r.1 := by
  intro k
  induction k with
  | zero =>
    intro _ h s hs
    exact ⟨(s, h), by simp, hs⟩
  | succ k ih =>
    intro hk h s hs
    obtain ⟨r, hr, hinv⟩ := ih (by omega) h s hs
    obtain ⟨v, hvx⟩ : ∃ v, vars[n - k - 1]? = some v :=
      ⟨_, List.getElem?_eq_getElem (by omega)⟩
    obtain ⟨d, hex⟩ : ∃ d, extents[n - k - 1]? = some d :=
      ⟨_, List.getElem?_eq_getElem (by omega)⟩
    have hstep : wrapDim vars extents n r k =
        some (For.new r.2 (some v) (some (Expr.IntImm 0)) (some d) (some r.1)) := by
      simp [wrapDim, hvx, hex]
    refine ⟨_, ?_, For.wrap_treeInv lo r.2 r.1 hinv (some v) (some (Expr.IntImm 0)) (some d)⟩
    rw [List.range_succ, List.foldlM_append, hr]
    simp [hstep]

/-- The nodes that `constructStmt` allocates form a tree below the root it
returns. -/
theorem constructStmt_treeInv (t : Tensor) (h : Heap) (args : List Var) (body : Expr)
    (reduce_dims : List Expr) (reduce_args : List Var)
    (hargs : args.length = t.buf.ndim) (hred : reduce_args.length = reduce_dims.length) :
    ∃ r, t.constructStmt h args body reduce_dims reduce_args = some r ∧
      TreeInv h.next r.2 r.1 := by
  obtain ⟨hroot, hst⟩ := Store.alloc_treeInv h (some t.buf_) (args.map Expr.Var) (some body)
  have hdims : t.buf.dims.length = t.buf.ndim := rfl
  by_cases h0 : t.buf.ndim = 0 ∧ reduce_dims.length = 0
  · exact ⟨Store.new h (some t.buf_) (args.map Expr.Var) (some body),
      by simp only [Tensor.constructStmt, h0, and_self, if_true], hst⟩
  · have hreduced : ∃ r2, (if reduce_dims.length > 0 then
          match (List.range reduce_dims.length).foldlM
            (wrapDim reduce_args reduce_dims reduce_dims.length)
            (Store.new h (some t.buf_) (args.map Expr.Var) (some body)) with
          | none => none
          | some sh1 =>
            match t.buf.initializer with
            | some e =>
              some (Block.new (Store.new sh1.2 (some t.buf) (args.map Expr.Var) (some e)).2
                [some (Store.new sh1.2 (some t.buf) (args.map Expr.Var) (some e)).1, some sh1.1])
            | none => some sh1
        else some (Store.new h (some t.buf_) (args.map Expr.Var) (some body))) = some r2 ∧
        TreeInv h.next r2.2 r2.1 := by
      by_cases hm : reduce_dims.length > 0
      · obtain ⟨r1, hr1, hinv1⟩ := wrapDim_treeInv reduce_args reduce_dims
          reduce_dims.length hred rfl h.next reduce_dims.length (Nat.le_refl _) _ _ hst
        have hr1b : (List.range reduce_dims.length).foldlM
            (wrapDim reduce_args reduce_dims reduce_dims.length)
            (Store.new h (some t.buf_) (args.map Expr.Var) (some body)) = some r1 := hr1
        simp only [hm, if_true, hr1b]
        cases hinit : t.buf.initializer with
        | none => exact ⟨r1, rfl, hinv1⟩
        | some e =>
          exact ⟨_, rfl, seed_treeInv h.next r1.2 r1.1 hinv1 (some t.buf) (args.map Expr.Var)
            (some e)⟩
      · simp only [hm, if_false]
        exact ⟨_, rfl, hst⟩
    obtain ⟨r2, hr2, hinv2⟩ := hreduced
    obtain ⟨r3, hr3, hinv3⟩ := wrapDim_treeInv args t.buf.dims t.buf.ndim hargs hdims
      h.next t.buf.ndim (Nat.le_refl _) r2.2 r2.1 hinv2
    refine ⟨r3, ?_, hinv3⟩
    simp only [Tensor.constructStmt, h0, if_false]
    rw [hr2]
    exact hr3

/-- Every node reached from the root of a tree through child lists and loop
bodies is one of its nodes. -/
theorem InTree.range {lo : Ptr} {g : Heap} {root p : Ptr} (hT : TreeInv lo g root)
    (hp : InTree g root p) : lo ≤ p ∧ p < g.next := by
  induction hp with
  | refl => exact ⟨hT.1, hT.2.1⟩
  | tail _ hbc ih =>
    obtain ⟨hFor, hBlk, -, -⟩ := hT.2.2.2 _ ih.1 ih.2
    rcases hbc with ⟨hk, hc⟩ | ⟨hk, hc⟩
    · obtain ⟨a, b, -⟩ := (hBlk hk).1 _ hc
      exact ⟨a, b⟩
    · obtain ⟨b, hb, hb1, hb2, -⟩ := hFor hk
      rw [hc] at hb
      cases hb
      exact ⟨hb1, hb2⟩

/-- C24: when `args` has one variable per buffer dimension and `reduce_args` one
variable per reduction extent, `constructStmt` returns a root and an arena in
which the root reads back as the lowered tree and, over the nodes reached from
the root through child lists and loop bodies: the root has a null parent; the
body of every `For` is a Block whose parent is that `For`; every statement in
the child list of a Block has that Block as parent and is listed once; no
statement is in the child lists of two Blocks; and the parent chain of every
node reaches the root after finitely many steps and ends there. -/
theorem constructStmt_back_references (t : Tensor) (h : Heap) (args : List Var) (body : Expr)
    (reduce_dims : List Expr) (reduce_args : List Var)
    (hargs : args.length = t.buf.ndim) (hred : reduce_args.length = reduce_dims.length) :
    ∃ root g, t.constructStmt h args body reduce_dims reduce_args = some (root, g) ∧
      Reads g root (t.loweredTree args body reduce_dims reduce_args) ∧
      get_parent g root = none ∧
      (∀ f, InTree g root f → g.kind f = some StmtKind.For →
        ∃ b, For.body g f = some b ∧ isBlock g b = true ∧ get_parent g b = some f) ∧
      (∀ B, InTree g root B → isBlock g B = true →
        (∀ c ∈ g.stmts_ B, get_parent g c = some B) ∧ (g.stmts_ B).Nodup) ∧
      (∀ B1 B2 c, InTree g root B1 → InTree g root B2 →
        isBlock g B1 = true → isBlock g B2 = true →
        c ∈ g.stmts_ B1 → c ∈ g.stmts_ B2 → B1 = B2) ∧
      (∀ p, InTree g root p →
        ∃ k, nthParent g k (some p) = some root ∧ nthParent g (k + 1) (some p) = none) := by
  obtain ⟨r, hr, hinv⟩ :=
    constructStmt_treeInv t h args body reduce_dims reduce_args hargs hred
  obtain ⟨r2, hr2, -, hreads⟩ :=
    constructStmt_reads t h args body reduce_dims reduce_args hargs hred
  have hrr : r2 = r := by
    rw [hr] at hr2
    exact (Option.some.inj hr2).symm
  rw [hrr] at hreads
  have hblock : ∀ B, InTree r.2 r.1 B → isBlock r.2 B = true →
      (∀ c ∈ r.2.stmts_ B, h.next ≤ c ∧ c < r.2.next ∧ get_parent r.2 c = some B) ∧
      (r.2.stmts_ B).Nodup := by
    intro B hB hk
    obtain ⟨b1, b2⟩ := InTree.range hinv hB
    have hk2 : r.2.kind B = some StmtKind.Block := by simpa [isBlock] using hk
    exact (hinv.2.2.2 B b1 b2).2.1 hk2
  refine ⟨r.1, r.2, hr, hreads, hinv.2.2.1, ?_, ?_, ?_, ?_⟩
  · intro f hf hk
    obtain ⟨f1, f2⟩ := InTree.range hinv hf
    obtain ⟨b, hb, -, -, hb3, hb4⟩ := (hinv.2.2.2 f f1 f2).1 hk
    exact ⟨b, hb, hb3, hb4⟩
  · intro B hB hk
    exact ⟨fun c hc => ((hblock B hB hk).1 c hc).2.2, (hblock B hB hk).2⟩
  · intro B1 B2 c hB1 hB2 hk1 hk2 hc1 hc2
    have p1 := ((hblock B1 hB1 hk1).1 c hc1).2.2
    have p2 := ((hblock B2 hB2 hk2).1 c hc2).2.2
    rw [p1] at p2
    exact Option.some.inj p2
  · intro p hp
    obtain ⟨p1, p2⟩ := InTree.range hinv hp
    obtain ⟨k, hk⟩ := (hinv.2.2.2 p p1 p2).2.2.2
    refine ⟨k, hk, ?_⟩
    rw [nthParent_add, hk]
    show nthParent r.2 0 (get_parent r.2 r.1) = none
    rw [hinv.2.2.1]
    rfl

/-- Instance of C24: one output dimension and one reduction dimension on a
buffer with an initializer, lowered in the empty arena. -/
theorem constructStmt_back_references_witness :
    ([0] : List Var).length = tensorInit.buf.ndim ∧
    ([5] : List Var).length = [Expr.IntImm 8].length ∧
    ∃ root g,
      tensorInit.constructStmt Heap.empty [0] (Expr.Node 7) [Expr.IntImm 8] [5]
        = some (root, g) ∧
      Reads g root (tensorInit.loweredTree [0] (Expr.Node 7) [Expr.IntImm 8] [5]) ∧
      get_parent g root = none ∧
      (∀ f, InTree g root f → g.kind f = some StmtKind.For →
        ∃ b, For.body g f = some b ∧ isBlock g b = true ∧ get_parent g b = some f) ∧
      (∀ B, InTree g root B → isBlock g B = true →
        (∀ c ∈ g.stmts_ B, get_parent g c = some B) ∧ (g.stmts_ B).Nodup) ∧
      (∀ B1 B2 c, InTree g root B1 → InTree g root B2 →
        isBlock g B1 = true → isBlock g B2 = true →
        c ∈ g.stmts_ B1 → c ∈ g.stmts_ B2 → B1 = B2) ∧
      (∀ p, InTree g root p →
        ∃ k, nthParent g k (some p) = some root ∧ nthParent g (k + 1) (some p) = none) :=
  ⟨rfl, rfl,
    constructStmt_back_references tensorInit Heap.empty [0] (Expr.Node 7) [Expr.IntImm 8] [5]
      rfl rfl⟩

end TensorExpr
